import Mathlib

/-!
Verification of the `@sanity/json-match` evaluator, path-identity set,
parser and canonical stringifier, shallowly embedded from the TypeScript
sources (`src/match.ts`, `src/path.ts`, `src/stringify.ts`, `src/parse.ts`).

Modelling conventions:
  * JSON numbers are modelled as integers (`Int`); the claims under study
    do not depend on float-specific behaviour.
  * JavaScript reference identity of arrays and objects is modelled by an
    identity tag (`Nat`) carried by every array/object node; `===`
    compares scalars by value and arrays/objects by tag, exactly as the
    JavaScript engine compares references in a heap where every object
    has a distinct identity.
  * Generators are modelled as fully evaluated lists (order preserving).
  * Fallible operations return `Option`.
-/

namespace JsonMatch

/-- JSON-like document values, as traversed by `match.ts`. Arrays and
objects carry an identity tag modelling JavaScript reference identity. -/
inductive JSValue where
  | null : JSValue
  | bool (b : Bool) : JSValue
  | num (n : Int) : JSValue
  | str (s : String) : JSValue
  | arr (tag : Nat) (items : List JSValue) : JSValue
  | obj (tag : Nat) (fields : List (String × JSValue)) : JSValue
deriving Repr

/-- Embeds `isRecord` from `path.ts`: a non-null object that is not an
array. -/
def isRecord : JSValue → Bool
  | .obj _ _ => true
  | _ => false

/-- JavaScript property read `value[key]` on a plain object (the fields
are kept in insertion order; objects have unique keys). -/
def JSValue.lookupField (v : JSValue) (key : String) : Option JSValue :=
  match v with
  | .obj _ fields => fields.lookup key
  | _ => none

/-- Extracts the string-valued `_key` field of a record, if present.
`keyOf v = some k` holds exactly when `isKeyedObject(v)` holds in
`path.ts`, with `k` the key. -/
def keyOf : JSValue → Option String
  | .obj _ fields =>
    match fields.lookup "_key" with
    | some (.str k) => some k
    | _ => none
  | _ => none

/-- Embeds `isKeyedObject` from `path.ts`. -/
def isKeyedObject (v : JSValue) : Bool := (keyOf v).isSome

/-- One segment of a result path: a field name, an array index (possibly
negative, as produced by negative subscripts), or a keyed reference. -/
inductive PathSegment where
  | field (name : String) : PathSegment
  | index (i : Int) : PathSegment
  | key (k : String) : PathSegment
deriving Repr, DecidableEq

/-- Result paths are lists of segments, as in `path.ts`. -/
abbrev Path := List PathSegment

/-- Embeds `MatchEntry` from `match.ts`. -/
structure MatchEntry where
  value : JSValue
  path : Path
deriving Repr

/-- Path segment chosen by `itemEntry` in `match.ts`: the keyed
reference when the element carries a string `_key`, the positional index
otherwise. -/
def itemSeg (item : JSValue) (index : Int) : PathSegment :=
  match keyOf item with
  | some k => .key k
  | none => .index index

/-- Embeds `itemEntry` from `match.ts`: an array element paired with the
candidate path extended by the keyed reference when the element carries a
string `_key`, and by the given index otherwise. -/
def itemEntry (item : JSValue) (path : Path) (index : Int) : MatchEntry :=
  { value := item, path := path ++ [itemSeg item index] }

/-! The path-identity set of `createPathSet` in `path.ts`: a prefix tree
whose nodes map a classified segment key (a string) to either a terminal
marker (`none` below, modelling the literal `true` stored in the map) or
a child tree (`some`, modelling a nested `Map`). -/

/-- Decimal digits of a natural number, most significant first, modelling
JavaScript decimal rendering of a non-negative integer. -/
def natDecimalDigits (n : Nat) : List Nat :=
  if _h : n < 10 then [n]
  else natDecimalDigits (n / 10) ++ [n % 10]
decreasing_by
  exact Nat.div_lt_self (by omega) (by omega)

/-- Decimal rendering of a JavaScript number that is an integer, as
produced by the template literal in `getKey` in `path.ts`. -/
def intRepr (i : Int) : String :=
  if i < 0 then ⟨'-' :: (natDecimalDigits (-i).toNat).map Nat.digitChar⟩
  else ⟨(natDecimalDigits i.toNat).map Nat.digitChar⟩

/-- Embeds `getKey` from `createPathSet` in `path.ts`: classifies a path
segment into one of three disjoint string key spaces. -/
def getKey : PathSegment → String
  | .key k => "key:" ++ k
  | .field s => "field:" ++ s
  | .index i => "index:" ++ intRepr i

/-- One node of the prefix tree backing `createPathSet`: an
insertion-ordered association list from classified keys to either the
terminal marker (`none`) or a child node (`some`). -/
inductive PathMap where
  | mk (entries : List (String × Option PathMap)) : PathMap
deriving Repr

/-- Entries of a `PathMap` node. -/
def PathMap.entries : PathMap → List (String × Option PathMap)
  | .mk es => es

/-- JavaScript `Map.prototype.get`. -/
def PathMap.get (m : PathMap) (k : String) : Option (Option PathMap) :=
  m.entries.lookup k

/-- JavaScript `Map.prototype.set`: updates an existing key in place
(keeping its position) or appends a new one. -/
def setEntry (es : List (String × Option PathMap)) (k : String)
    (v : Option PathMap) : List (String × Option PathMap) :=
  match es with
  | [] => [(k, v)]
  | (k', v') :: rest =>
    if k' = k then (k, v) :: rest else (k', v') :: setEntry rest k v

/-- Embeds `add` from `createPathSet` in `path.ts`. -/
def PathMap.addPath (m : PathMap) : Path → PathMap
  | [] => m
  | head :: tail =>
    let key := getKey head
    if tail.isEmpty then .mk (setEntry m.entries key none)
    else
      match m.get key with
      | some none => m
      | some (some cached) =>
        .mk (setEntry m.entries key (some (cached.addPath tail)))
      | none =>
        .mk (setEntry m.entries key (some ((PathMap.mk []).addPath tail)))

/-- Embeds `has` from `createPathSet` in `path.ts`. -/
def PathMap.hasPath (m : PathMap) : Path → Bool
  | [] => false
  | head :: tail =>
    match m.get (getKey head) with
    | none => false
    | some none => tail.isEmpty
    | some (some cached) => if tail.isEmpty then false else cached.hasPath tail

/-! Abstract syntax of JSONMatch expressions, embedded from `parse.ts`.
The optional `base` and `recursive` fields mirror the optional object
properties of the TypeScript AST (absent versus explicitly false). -/

/-- Comparison operators of `ComparisonNode`. -/
inductive CmpOp where
  | eq | ne | gt | lt | ge | le
deriving Repr, DecidableEq

mutual

/-- Embeds `ExprNode` from `parse.ts`: a number literal, a string
literal, or a path expression. -/
inductive ExprNode where
  | num (value : Int) : ExprNode
  | str (value : String) : ExprNode
  | path (p : PathNode) : ExprNode

/-- Embeds `PathNode` from `parse.ts`. -/
inductive PathNode where
  | mk (base : Option PathNode) (recursive : Option Bool)
      (segment : SegmentNode) : PathNode

/-- Embeds `SegmentNode` from `parse.ts`. -/
inductive SegmentNode where
  | this : SegmentNode
  | ident (name : String) : SegmentNode
  | wildcard : SegmentNode
  | subscript (elements : List SubscriptElement) : SegmentNode

/-- Embeds `SubscriptElementNode` from `parse.ts`. -/
inductive SubscriptElement where
  | slice (start stop : Option Int) : SubscriptElement
  | comparison (left : ExprNode) (op : CmpOp)
      (right : ExprNode) : SubscriptElement
  | existence (base : PathNode) : SubscriptElement
  | expr (e : ExprNode) : SubscriptElement

end

/-- Base of a `PathNode`. -/
def PathNode.base : PathNode → Option PathNode
  | .mk b _ _ => b

/-- Recursive flag of a `PathNode`. -/
def PathNode.recursive : PathNode → Option Bool
  | .mk _ r _ => r

/-- Segment of a `PathNode`. -/
def PathNode.segment : PathNode → SegmentNode
  | .mk _ _ s => s

/-- Positivity of the automatically generated size of an `ExprNode`. -/
theorem ExprNode.sizeOf_pos (e : ExprNode) : 0 < sizeOf e := by
  cases e <;> simp_arith

/-- Wildcard test on a segment, used by the bare recursive-descent
special case in `matchPathExpression`. -/
def SegmentNode.isWildcard : SegmentNode → Bool
  | .wildcard => true
  | _ => false

/-- JavaScript `Array.prototype.at`: negative positions are resolved by
adding the length; out-of-range positions give nothing. -/
def jsAt (items : List JSValue) (n : Int) : Option JSValue :=
  let i := if n < 0 then n + (items.length : Int) else n
  if i < 0 then none else items.get? i.toNat

/-- Resolution of one `Array.prototype.slice` bound: negative values have
the length added then are clamped below by 0; non-negative values are
clamped above by the length. -/
def jsSliceBound (len : Nat) (b : Int) : Nat :=
  if b < 0 then (b + len).toNat else min b.toNat len

/-- JavaScript `Array.prototype.slice` with optional bounds. -/
def jsSlice (items : List JSValue) (start stop : Option Int) :
    List JSValue :=
  let s := jsSliceBound items.length (start.getD 0)
  let e := jsSliceBound items.length (stop.getD items.length)
  (items.drop s).take (e - s)

/-- Successive `itemEntry` results for a run of array elements, starting
at the given index: the loop bodies of the `Wildcard` and `Slice` cases
in `match.ts`. -/
def wildcardItems (items : List JSValue) (path : Path) (index : Int) :
    List MatchEntry :=
  match items with
  | [] => []
  | item :: rest => itemEntry item path index :: wildcardItems rest path (index + 1)

/-- Result of evaluating one comparison operand: either a value with
well-defined JavaScript identity (a document value, a literal, or the
context), or a freshly allocated array of match values, unequal under
`===` to every other value. -/
inductive Operand where
  | val (v : JSValue) : Operand
  | fresh (vs : List JSValue) : Operand
deriving Repr

/-- JavaScript `===` on values with well-defined identity: scalars by
value, arrays and objects by reference (identity tag). -/
def jsStrictEq : JSValue → JSValue → Bool
  | .null, .null => true
  | .bool a, .bool b => a == b
  | .num a, .num b => a == b
  | .str a, .str b => a == b
  | .arr t1 _, .arr t2 _ => t1 == t2
  | .obj t1 _, .obj t2 _ => t1 == t2
  | _, _ => false

/-- JavaScript `===` on operand results: a freshly allocated array is
unequal to everything, including other freshly allocated arrays. -/
def strictEq : Operand → Operand → Bool
  | .val a, .val b => jsStrictEq a b
  | _, _ => false

/-- Numeric view of an operand result, for the ordering operators whose
guard is `typeof x === 'number'`. -/
def Operand.asNum : Operand → Option Int
  | .val (.num n) => some n
  | _ => none

/-- Collects the list of matches of a general path operand exactly as
`evaluateOperand` does: one match gives its value, zero or several give
a freshly built array of the values. -/
def collectOperand (ms : List MatchEntry) : Operand :=
  match ms with
  | [m] => .val m.value
  | _ => .fresh (ms.map (·.value))

mutual

/-- Embeds `matchPathExpression` from `match.ts`. -/
def matchPathExpression (expr : Option PathNode) (value : JSValue)
    (path : Path) : List MatchEntry :=
  match expr with
  | none => [⟨value, path⟩]
  | some (.mk base recursive segment) =>
    (matchPathExpression base value path).flatMap fun cand =>
      if recursive = some true then
        if segment.isWildcard then [cand]
        else recursiveMatch segment cand.value cand.path
      else
        matchPathSegment segment cand.value cand.path
termination_by (sizeOf expr, sizeOf value)

/-- Embeds `recursiveMatch` from `match.ts`: direct matches at the
current level first, then recursion into every child. -/
def recursiveMatch (segment : SegmentNode) (value : JSValue)
    (path : Path) : List MatchEntry :=
  matchPathSegment segment value path ++
    match value with
    | .obj _ fields => recursiveMatchFields segment fields path
    | .arr _ items => recursiveMatchItems segment items path 0
    | _ => []
termination_by (sizeOf segment, sizeOf value + 1)

/-- Field loop of `recursiveMatch`. -/
def recursiveMatchFields (segment : SegmentNode)
    (fields : List (String × JSValue)) (path : Path) : List MatchEntry :=
  match fields with
  | [] => []
  | (key, nested) :: rest =>
    recursiveMatch segment nested (path ++ [.field key]) ++
      recursiveMatchFields segment rest path
termination_by (sizeOf segment, sizeOf fields + 1)

/-- Array loop of `recursiveMatch`. -/
def recursiveMatchItems (segment : SegmentNode) (items : List JSValue)
    (path : Path) (index : Int) : List MatchEntry :=
  match items with
  | [] => []
  | item :: rest =>
    recursiveMatch segment item (itemEntry item path index).path ++
      recursiveMatchItems segment rest path (index + 1)
termination_by (sizeOf segment, sizeOf items + 1)

/-- Embeds `matchPathSegment` from `match.ts`. -/
def matchPathSegment (segment : SegmentNode) (value : JSValue)
    (path : Path) : List MatchEntry :=
  match segment with
  | .this => [⟨value, path⟩]
  | .ident name =>
    match value with
    | .obj _ fields =>
      match fields.lookup name with
      | some v => [⟨v, path ++ [.field name]⟩]
      | none => []
    | _ => []
  | .subscript elements => matchSubscript elements value path
  | .wildcard =>
    match value with
    | .arr _ items => wildcardItems items path 0
    | .obj _ fields => fields.map fun f => ⟨f.2, path ++ [.field f.1]⟩
    | _ => []
termination_by (sizeOf segment, sizeOf value)

/-- Embeds `matchSubscript` from `match.ts`: every element is processed
independently, results concatenated in element order. -/
def matchSubscript (elements : List SubscriptElement) (value : JSValue)
    (path : Path) : List MatchEntry :=
  match elements with
  | [] => []
  | el :: rest =>
    matchSubscriptElement el value path ++ matchSubscript rest value path
termination_by (sizeOf elements, sizeOf value)

/-- Dispatch on one subscript element, embedding the `switch` in
`matchSubscript` together with `matchExistence` and `matchComparison`
from `match.ts`. -/
def matchSubscriptElement (el : SubscriptElement) (value : JSValue)
    (path : Path) : List MatchEntry :=
  match el with
  | .existence base =>
    match value with
    | .arr _ items => existenceItems base items path 0
    | v =>
      if (matchPathExpression (some base) v path).isEmpty then []
      else [⟨v, path⟩]
  | .comparison left op right =>
    match value with
    | .arr _ items => comparisonItems left op right items path 0
    | v =>
      if evaluateComparison left op right v then [⟨v, path⟩] else []
  | .expr (.path p) => matchPathExpression (some p) value path
  | .expr (.num n) =>
    match value with
    | .arr _ items =>
      match jsAt items n with
      | some item => [itemEntry item path n]
      | none => []
    | .obj _ fields =>
      match fields.lookup (intRepr n) with
      | some item => [⟨item, path ++ [.index n]⟩]
      | none => []
    | _ => []
  | .expr (.str s) =>
    match value with
    | .obj _ fields =>
      match fields.lookup s with
      | some item => [⟨item, path ++ [.field s]⟩]
      | none => []
    | _ => []
  | .slice start stop =>
    match value with
    | .arr _ items =>
      wildcardItems (jsSlice items start stop) path ((start.getD 0))
    | _ => []
termination_by (sizeOf el, sizeOf value + 1)

/-- Array loop of `matchExistence` from `match.ts`. -/
def existenceItems (base : PathNode) (items : List JSValue) (path : Path)
    (index : Int) : List MatchEntry :=
  match items with
  | [] => []
  | item :: rest =>
    (if (matchPathExpression (some base) item
          (itemEntry item path index).path).isEmpty then []
     else [itemEntry item path index]) ++
      existenceItems base rest path (index + 1)
termination_by (1 + sizeOf base, sizeOf items)

/-- Array loop of `matchComparison` from `match.ts`. -/
def comparisonItems (left : ExprNode) (op : CmpOp) (right : ExprNode)
    (items : List JSValue) (path : Path) (index : Int) : List MatchEntry :=
  match items with
  | [] => []
  | item :: rest =>
    (if evaluateComparison left op right item then [itemEntry item path index]
     else []) ++
      comparisonItems left op right rest path (index + 1)
termination_by (sizeOf left + sizeOf right, sizeOf items)

/-- Embeds `evaluateComparison` from `match.ts`. -/
def evaluateComparison (left : ExprNode) (op : CmpOp) (right : ExprNode)
    (ctx : JSValue) : Bool :=
  let lv := evaluateOperand left ctx
  let rv := evaluateOperand right ctx
  match op with
  | .eq => strictEq lv rv
  | .ne => !strictEq lv rv
  | .gt =>
    match lv.asNum, rv.asNum with
    | some a, some b => a > b
    | _, _ => false
  | .lt =>
    match lv.asNum, rv.asNum with
    | some a, some b => a < b
    | _, _ => false
  | .ge =>
    match lv.asNum, rv.asNum with
    | some a, some b => a ≥ b
    | _, _ => false
  | .le =>
    match lv.asNum, rv.asNum with
    | some a, some b => a ≤ b
    | _, _ => false
termination_by (sizeOf left + sizeOf right, sizeOf ctx)
decreasing_by
  · have hr := ExprNode.sizeOf_pos right
    apply Prod.Lex.left
    omega
  · have hl := ExprNode.sizeOf_pos left
    apply Prod.Lex.left
    omega

/-- Embeds `evaluateOperand` from `match.ts`. The identifiers `@` and
`$` (and a `This` segment) with no base denote the context value; every
other path operand collects its matches against the context. -/
def evaluateOperand (operand : ExprNode) (ctx : JSValue) : Operand :=
  match operand with
  | .str s => .val (.str s)
  | .num n => .val (.num n)
  | .path (.mk none r (.ident name)) =>
    if name = "@" ∨ name = "$" then .val ctx
    else operandMatches (.mk none r (.ident name)) ctx
  | .path (.mk none _ .this) => .val ctx
  | .path p => operandMatches p ctx
termination_by (sizeOf operand, sizeOf ctx + 2)

/-- General path-operand evaluation inside `evaluateOperand`. -/
def operandMatches (p : PathNode) (ctx : JSValue) : Operand :=
  collectOperand (matchPathExpression (some p) ctx [])
termination_by (1 + sizeOf p, sizeOf ctx + 1)

end

/-- Deduplication loop of the top-level `match` generator in `match.ts`:
entries whose path is already in the visited set are dropped, every
emitted entry records its path in the set. -/
def dedupLoop (visited : PathMap) : List MatchEntry → List MatchEntry
  | [] => []
  | e :: rest =>
    if visited.hasPath e.path then dedupLoop visited rest
    else e :: dedupLoop (visited.addPath e.path) rest

/-- Embeds the exported generator `match` from `match.ts` (named
`jsonMatch` here because `match` is reserved): a top-level number
literal is treated as an array index or object key, a top-level string
literal as an object key, and a path expression is evaluated and
deduplicated through the path-identity set. -/
def jsonMatch (expr : ExprNode) (value : JSValue) : List MatchEntry :=
  match expr with
  | .num n =>
    match value with
    | .arr _ items =>
      match jsAt items n with
      | some item => [itemEntry item [] n]
      | none => []
    | .obj _ fields =>
      match fields.lookup (intRepr n) with
      | some item => [⟨item, [.index n]⟩]
      | none => []
    | _ => []
  | .str s =>
    match value with
    | .obj _ fields =>
      match fields.lookup s with
      | some item => [⟨item, [.field s]⟩]
      | none => []
    | _ => []
  | .path p => dedupLoop (.mk []) (matchPathExpression (some p) value [])

/-! Specification-side definitions, used to state claims. -/

mutual

/-- Modelled from the spec (§4.3, recursive-descent segment matching),
for comparison with the evaluator: first yield whatever direct segment
matching produces at this level; then, for every direct child of the
value — each sequence element in index order, or each field's value in
field order — recurse the entire recursive-descent step on that child
with its extended path. -/
def specRecursiveDescent (segment : SegmentNode) (value : JSValue)
    (path : Path) : List MatchEntry :=
  matchPathSegment segment value path ++
    match value with
    | .arr _ items => specDescentItems segment items path 0
    | .obj _ fields => specDescentFields segment fields path
    | _ => []
termination_by (sizeOf segment, sizeOf value + 1)

/-- Sequence-child recursion of `specRecursiveDescent`. -/
def specDescentItems (segment : SegmentNode) (items : List JSValue)
    (path : Path) (index : Int) : List MatchEntry :=
  match items with
  | [] => []
  | item :: rest =>
    specRecursiveDescent segment item (itemEntry item path index).path ++
      specDescentItems segment rest path (index + 1)
termination_by (sizeOf segment, sizeOf items + 1)

/-- Field-child recursion of `specRecursiveDescent`. -/
def specDescentFields (segment : SegmentNode)
    (fields : List (String × JSValue)) (path : Path) : List MatchEntry :=
  match fields with
  | [] => []
  | (key, nested) :: rest =>
    specRecursiveDescent segment nested (path ++ [.field key]) ++
      specDescentFields segment rest path
termination_by (sizeOf segment, sizeOf fields + 1)

end

/-- Classification of the special operand shapes of `evaluateOperand`:
a baseless `@`/`$` identifier or a baseless `This` segment denotes the
context value itself; every other path operand is evaluated by
collecting its matches. -/
def isContextOperand : PathNode → Bool
  | .mk none _ (.ident name) => name == "@" || name == "$"
  | .mk none _ .this => true
  | _ => false

/-- Shape of an array-element match entry as the keyed-addressing rule
describes it: the path is the candidate path extended by one segment,
which is the keyed reference whenever the element carries a string-valued
`_key`, and a positional index otherwise. -/
def keyedShape (e : MatchEntry) (p : Path) : Prop :=
  (∀ k, keyOf e.value = some k → e.path = p ++ [.key k]) ∧
    (keyOf e.value = none → ∃ i : Int, e.path = p ++ [.index i])

/-- Fold reading decimal digits back into a number, used to prove the
decimal rendering injective. -/
def natFromDigits (ds : List Nat) : Nat :=
  ds.foldl (fun acc d => acc * 10 + d) 0

/-! Lexer, parser and canonical stringifier. The parser embeds
`parse.ts`; the stringifier embeds `stringify.ts`. The lexer is
modelled from the spec, because `tokenize.ts` and `cursor.ts` are not
part of the given sources. Numbers are restricted to integers and token
positions are omitted (they only feed error messages). -/

/-- Backslash character. -/
def backslashChar : Char := Char.ofNat 92

/-- Single-quote character. -/
def squoteChar : Char := Char.ofNat 39

/-- Double-quote character. -/
def dquoteChar : Char := Char.ofNat 34

/-- Modelled from the spec: whitespace skipped by the missing
`tokenize.ts` (space, tab, CR, LF). -/
def isWhitespaceChar (c : Char) : Bool :=
  c = ' ' || c = Char.ofNat 9 || c = Char.ofNat 13 || c = Char.ofNat 10

/-- Decimal digit test. -/
def isDigitChar (c : Char) : Bool := 48 ≤ c.toNat && c.toNat ≤ 57

/-- Value of a decimal digit character. -/
def digitVal (c : Char) : Nat := c.toNat - 48

/-- First character of an unquoted identifier: `[A-Za-z_$]`. -/
def isIdentStartChar (c : Char) : Bool :=
  (97 ≤ c.toNat && c.toNat ≤ 122) || (65 ≤ c.toNat && c.toNat ≤ 90) ||
    c.toNat = 95 || c.toNat = 36

/-- Later character of an unquoted identifier: `[A-Za-z0-9_$]`. -/
def isIdentTailChar (c : Char) : Bool :=
  isIdentStartChar c || isDigitChar c

/-- Value of a hexadecimal digit character, any case. -/
def hexVal (c : Char) : Option Nat :=
  if 48 ≤ c.toNat && c.toNat ≤ 57 then some (c.toNat - 48)
  else if 97 ≤ c.toNat && c.toNat ≤ 102 then some (c.toNat - 87)
  else if 65 ≤ c.toNat && c.toNat ≤ 70 then some (c.toNat - 55)
  else none

/-- Lowercase hexadecimal digit for a value below 16, as produced by
JSON string escaping. -/
def lowHexDigit (n : Nat) : Char :=
  if n < 10 then Char.ofNat (48 + n) else Char.ofNat (87 + n)

/-- Modelled from the spec: tokens of the missing `tokenize.ts` (kinds
identifier/quoted-identifier merged, number, string, boolean, operator,
punctuation; end of input is the empty remainder). -/
inductive Token where
  | ident (value : String) : Token
  | num (value : Int) : Token
  | str (value : String) : Token
  | bool (value : Bool) : Token
  | op (value : CmpOp) : Token
  | this : Token
  | dot : Token
  | dotdot : Token
  | lbracket : Token
  | rbracket : Token
  | comma : Token
  | colon : Token
  | question : Token
  | star : Token
deriving Repr, DecidableEq

/-- Modelled from the spec: the digit run of a number token. -/
def lexDigits (acc : Nat) :
    (cs : List Char) → Nat × {l : List Char // l.length ≤ cs.length}
  | [] => (acc, ⟨[], Nat.le_refl _⟩)
  | c :: cs =>
    if isDigitChar c then
      match lexDigits (acc * 10 + digitVal c) cs with
      | (n, ⟨rest, h⟩) => (n, ⟨rest, by simp; omega⟩)
    else (acc, ⟨c :: cs, Nat.le_refl _⟩)

/-- Modelled from the spec: the tail of an unquoted identifier token. -/
def lexIdentTail :
    (cs : List Char) → List Char × {l : List Char // l.length ≤ cs.length}
  | [] => ([], ⟨[], Nat.le_refl _⟩)
  | c :: cs =>
    if isIdentTailChar c then
      match lexIdentTail cs with
      | (w, ⟨rest, _h⟩) => (c :: w, ⟨rest, by simp; omega⟩)
    else ([], ⟨c :: cs, Nat.le_refl _⟩)

/-- Modelled from the spec: the recognised short escape sequences,
shared by strings and quoted identifiers (the quoted-identifier
terminator can also be escaped). -/
def escShortChar (c : Char) : Option Char :=
  if c = dquoteChar then some dquoteChar
  else if c = squoteChar then some squoteChar
  else if c = backslashChar then some backslashChar
  else if c = '/' then some '/'
  else if c = 'b' then some (Char.ofNat 8)
  else if c = 'f' then some (Char.ofNat 12)
  else if c = 'n' then some (Char.ofNat 10)
  else if c = 'r' then some (Char.ofNat 13)
  else if c = 't' then some (Char.ofNat 9)
  else none

/-- Modelled from the spec: the low half of a surrogate-pair escape: a
second backslash-`u` escape holding a low surrogate. -/
def lexLowSurrogate : (cs : List Char) → Option (Nat × {l : List Char // l.length ≤ cs.length})
  | b2 :: u2 :: g1 :: g2 :: g3 :: g4 :: cs4 =>
    if b2 = backslashChar ∧ u2 = 'u' then
      match hexVal g1, hexVal g2, hexVal g3, hexVal g4 with
      | some e1, some e2, some e3, some e4 =>
        let lo := ((e1 * 16 + e2) * 16 + e3) * 16 + e4
        if 56320 ≤ lo ∧ lo ≤ 57343 then
          some (lo, ⟨cs4, by simp only [List.length_cons]; omega⟩)
        else none
      | _, _, _, _ => none
    else none
  | _ => none

/-- Modelled from the spec: a `u` escape after its leading
backslash-`u`: four hex digits, combining a high surrogate with a
following low-surrogate escape (lone surrogates are rejected, strings
being sequences of scalar values in this model). -/
def lexUniEscape : (cs : List Char) → Option (Char × {l : List Char // l.length ≤ cs.length})
  | h1 :: h2 :: h3 :: h4 :: cs3 =>
    match hexVal h1, hexVal h2, hexVal h3, hexVal h4 with
    | some d1, some d2, some d3, some d4 =>
      let code := ((d1 * 16 + d2) * 16 + d3) * 16 + d4
      if 55296 ≤ code ∧ code ≤ 56319 then
        match lexLowSurrogate cs3 with
        | some (lo, ⟨cs4, h⟩) =>
          some (Char.ofNat (65536 + (code - 55296) * 1024 + (lo - 56320)),
            ⟨cs4, by simp only [List.length_cons]; omega⟩)
        | none => none
      else if 56320 ≤ code ∧ code ≤ 57343 then none
      else
        some (Char.ofNat code, ⟨cs3, by simp only [List.length_cons]; omega⟩)
    | _, _, _, _ => none
  | _ => none

/-- Modelled from the spec: decoding of one escape sequence after a
backslash, shared by strings and quoted identifiers: short escapes and
`u` escapes. -/
def lexEscapeSeq : (cs : List Char) → Option (Char × {l : List Char // l.length < cs.length})
  | [] => none
  | e :: cs2 =>
    if e = 'u' then
      match lexUniEscape cs2 with
      | some (d, ⟨rest, h⟩) =>
        some (d, ⟨rest, by simp only [List.length_cons]; omega⟩)
      | none => none
    else
      match escShortChar e with
      | some d => some (d, ⟨cs2, by simp⟩)
      | none => none

/-- Modelled from the spec: the body of a string or quoted-identifier
literal after its opening delimiter, decoding escapes up to the closing
delimiter. -/
def lexQuoted (term : Char) (cs : List Char) :
    Option (List Char × {l : List Char // l.length < cs.length}) :=
  match cs with
  | [] => none
  | c :: cs2 =>
    if c = term then some ([], ⟨cs2, by simp⟩)
    else if c = backslashChar then
      match lexEscapeSeq cs2 with
      | some (d, ⟨rest1, h1⟩) =>
        match lexQuoted term rest1 with
        | some (content, ⟨rest2, h2⟩) =>
          some (d :: content, ⟨rest2, by simp only [List.length_cons]; omega⟩)
        | none => none
      | none => none
    else
      match lexQuoted term cs2 with
      | some (content, ⟨rest2, h2⟩) =>
        some (c :: content, ⟨rest2, by simp only [List.length_cons]; omega⟩)
      | none => none
termination_by cs.length
decreasing_by
  all_goals simp_wf
  all_goals omega

/-- Modelled from the spec: the lexer of the missing `tokenize.ts`. Two
dots lex greedily as one token, a lone `-` before digits is a negative
number, `=`/`!` must pair into an operator, `@` and a lone `$` lex as
the context token, and `true`/`false` lex as boolean tokens. Number
fractions are not modelled (numbers are integers in this model). -/
def tokenize (cs : List Char) : Option (List Token) :=
  match cs with
  | [] => some []
  | c :: cs =>
    if isWhitespaceChar c then tokenize cs
    else if c = '.' then
      match cs with
      | c2 :: cs2 =>
        if c2 = '.' then (tokenize cs2).map (Token.dotdot :: ·)
        else (tokenize (c2 :: cs2)).map (Token.dot :: ·)
      | [] => some [Token.dot]
    else if c = '[' then (tokenize cs).map (Token.lbracket :: ·)
    else if c = ']' then (tokenize cs).map (Token.rbracket :: ·)
    else if c = ',' then (tokenize cs).map (Token.comma :: ·)
    else if c = ':' then (tokenize cs).map (Token.colon :: ·)
    else if c = '?' then (tokenize cs).map (Token.question :: ·)
    else if c = '*' then (tokenize cs).map (Token.star :: ·)
    else if c = '@' then (tokenize cs).map (Token.this :: ·)
    else if c = '=' then
      match cs with
      | c2 :: cs2 =>
        if c2 = '=' then (tokenize cs2).map (Token.op .eq :: ·) else none
      | [] => none
    else if c = '!' then
      match cs with
      | c2 :: cs2 =>
        if c2 = '=' then (tokenize cs2).map (Token.op .ne :: ·) else none
      | [] => none
    else if c = '>' then
      match cs with
      | c2 :: cs2 =>
        if c2 = '=' then (tokenize cs2).map (Token.op .ge :: ·)
        else (tokenize (c2 :: cs2)).map (Token.op .gt :: ·)
      | [] => some [Token.op .gt]
    else if c = '<' then
      match cs with
      | c2 :: cs2 =>
        if c2 = '=' then (tokenize cs2).map (Token.op .le :: ·)
        else (tokenize (c2 :: cs2)).map (Token.op .lt :: ·)
      | [] => some [Token.op .lt]
    else if c = '-' then
      match cs with
      | c2 :: cs2 =>
        if isDigitChar c2 then
          match lexDigits (digitVal c2) cs2 with
          | (n, ⟨rest, _h⟩) => (tokenize rest).map (Token.num (-(n : Int)) :: ·)
        else none
      | [] => none
    else if isDigitChar c then
      match lexDigits (digitVal c) cs with
      | (n, ⟨rest, _h⟩) => (tokenize rest).map (Token.num (n : Int) :: ·)
    else if c = dquoteChar then
      match lexQuoted dquoteChar cs with
      | some (content, ⟨rest, _h⟩) =>
        (tokenize rest).map (Token.str ⟨content⟩ :: ·)
      | none => none
    else if c = squoteChar then
      match lexQuoted squoteChar cs with
      | some (content, ⟨rest, _h⟩) =>
        (tokenize rest).map (Token.ident ⟨content⟩ :: ·)
      | none => none
    else if isIdentStartChar c then
      match lexIdentTail cs with
      | (w, ⟨rest, _h⟩) =>
        if (⟨c :: w⟩ : String) = "$" then (tokenize rest).map (Token.this :: ·)
        else if (⟨c :: w⟩ : String) = "true" then
          (tokenize rest).map (Token.bool true :: ·)
        else if (⟨c :: w⟩ : String) = "false" then
          (tokenize rest).map (Token.bool false :: ·)
        else (tokenize rest).map (Token.ident ⟨c :: w⟩ :: ·)
    else none
termination_by cs.length
decreasing_by
  all_goals simp_wf
  all_goals try omega

/-- Path-opener test of `parseExpression` in `parse.ts`. -/
def isPathOpener : Token → Bool
  | .this | .ident _ | .star | .lbracket | .dot | .dotdot => true
  | _ => false

/-- Implicit `This` base node built by `parsePath` in `parse.ts`. -/
def thisBase : PathNode := .mk none none .this

/-- Node produced by a bare `..` in `parse.ts`: implicit `This` base
with a recursive `Wildcard` segment. -/
def bareDotDotNode : PathNode := .mk (some thisBase) (some true) .wildcard

/-- Follower test of the bare-dot check in `parsePath` in `parse.ts`:
end of input, `]` or `,`. -/
def bareFollows : List Token → Bool
  | [] => true
  | .rbracket :: _ => true
  | .comma :: _ => true
  | _ => false

/-- Embeds `parseIndexOrSlice` from `parse.ts`: a bare number, a slice
with optional bounds, or (for a lone `:`) a wildcard path element. -/
def parseIndexOrSlice (toks : List Token) :
    Option (SubscriptElement × {l : List Token // l.length < toks.length}) :=
  match toks with
  | .num start :: rest =>
    match hr : rest with
    | .colon :: rest2 =>
      match hr2 : rest2 with
      | .num e :: rest3 =>
        some (.slice (some start) (some e),
          ⟨rest3, by subst_vars; simp only [List.length_cons]; omega⟩)
      | _ =>
        some (.slice (some start) none,
          ⟨rest2, by subst_vars; simp only [List.length_cons]; omega⟩)
    | _ =>
      some (.expr (.num start),
        ⟨rest, by subst_vars; simp only [List.length_cons]; omega⟩)
  | .colon :: rest =>
    match hr : rest with
    | .num e :: rest2 =>
      some (.slice none (some e),
        ⟨rest2, by subst_vars; simp only [List.length_cons]; omega⟩)
    | _ =>
      some (.expr (.path (.mk none none .wildcard)),
        ⟨rest, by subst_vars; simp only [List.length_cons]; omega⟩)
  | _ => none

mutual

/-- Embeds `parseExpression` from `parse.ts`. -/
def parseExpression (toks : List Token) :
    Option (ExprNode × {l : List Token // l.length < toks.length}) :=
  match toks with
  | [] => none
  | t :: rest =>
    if isPathOpener t then
      match parsePath (t :: rest) with
      | some (p, ⟨rest2, h2⟩) => some (.path p, ⟨rest2, h2⟩)
      | none => none
    else
      match t with
      | .str s => some (.str s, ⟨rest, by simp only [List.length_cons]; omega⟩)
      | .num n => some (.num n, ⟨rest, by simp only [List.length_cons]; omega⟩)
      | _ => none
termination_by (toks.length, 3)
decreasing_by
  all_goals simp_wf
  all_goals try subst_vars
  all_goals try omega
  all_goals first
    | (apply Prod.Lex.left
       try simp only [List.length_cons] at *
       omega)
    | (apply Prod.Lex.right
       try simp only [List.length_cons] at *
       omega)
    | (try simp only [List.length_cons] at *
       omega)

/-- Embeds `parsePath` from `parse.ts`: implicit-this handling for a
leading dot, bare `..` as recursive wildcard, then the chaining loop. -/
def parsePath (toks : List Token) :
    Option (PathNode × {l : List Token // l.length < toks.length}) :=
  match htk : toks with
  | .dot :: rest =>
    if bareFollows rest then none
    else
      match parseImplicitSeg false rest with
      | some (p, ⟨rest2, h2⟩) =>
        some (p, ⟨rest2, by simp only [List.length_cons]; omega⟩)
      | none => none
  | .dotdot :: rest =>
    if bareFollows rest then
      match parsePathChain bareDotDotNode rest with
      | some (p, ⟨rest2, h2⟩) =>
        some (p, ⟨rest2, by simp only [List.length_cons]; omega⟩)
      | none => none
    else
      match parseImplicitSeg true rest with
      | some (p, ⟨rest2, h2⟩) =>
        some (p, ⟨rest2, by simp only [List.length_cons]; omega⟩)
      | none => none
  | _ =>
    match parsePathSegment toks with
    | some (seg, ⟨rest, h⟩) =>
      match parsePathChain (.mk none none seg) rest with
      | some (p, ⟨rest2, h2⟩) => some (p, ⟨rest2, by subst_vars; omega⟩)
      | none => none
    | none => none
termination_by (toks.length, 2)
decreasing_by
  all_goals simp_wf
  all_goals try subst_vars
  all_goals try omega
  all_goals first
    | (apply Prod.Lex.left
       try simp only [List.length_cons] at *
       omega)
    | (apply Prod.Lex.right
       try simp only [List.length_cons] at *
       omega)
    | (try simp only [List.length_cons] at *
       omega)

/-- Implicit-this branch of `parsePath` in `parse.ts`: parse the
segment after the leading dot(s) and chain from an implicit `This`
base. -/
def parseImplicitSeg (recursive : Bool) (toks : List Token) :
    Option (PathNode × {l : List Token // l.length ≤ toks.length}) :=
  match parsePathSegment toks with
  | some (seg, ⟨rest, h⟩) =>
    match parsePathChain
        (.mk (some thisBase) (some recursive) seg) rest with
    | some (p, ⟨rest2, h2⟩) => some (p, ⟨rest2, by omega⟩)
    | none => none
  | none => none
termination_by (toks.length, 2)
decreasing_by
  all_goals simp_wf
  all_goals try subst_vars
  all_goals try omega
  all_goals first
    | (apply Prod.Lex.left
       try simp only [List.length_cons] at *
       omega)
    | (apply Prod.Lex.right
       try simp only [List.length_cons] at *
       omega)
    | (try simp only [List.length_cons] at *
       omega)

/-- Chaining loop of `parsePath` in `parse.ts`: a directly following
`[` chains a non-recursive subscript, a dot or double dot chains the
next segment. -/
def parsePathChain (acc : PathNode) (toks : List Token) :
    Option (PathNode × {l : List Token // l.length ≤ toks.length}) :=
  match htk : toks with
  | .lbracket :: rest =>
    match parseSubscript (.lbracket :: rest) with
    | some (sub, ⟨rest2, h2⟩) =>
      match parsePathChain (.mk (some acc) (some false) sub) rest2 with
      | some (p, ⟨rest3, h3⟩) => some (p, ⟨rest3, by omega⟩)
      | none => none
    | none => none
  | .dot :: rest =>
    match parsePathSegment rest with
    | some (seg, ⟨rest2, h2⟩) =>
      match parsePathChain (.mk (some acc) (some false) seg) rest2 with
      | some (p, ⟨rest3, h3⟩) =>
        some (p, ⟨rest3, by simp only [List.length_cons]; omega⟩)
      | none => none
    | none => none
  | .dotdot :: rest =>
    match parsePathSegment rest with
    | some (seg, ⟨rest2, h2⟩) =>
      match parsePathChain (.mk (some acc) (some true) seg) rest2 with
      | some (p, ⟨rest3, h3⟩) =>
        some (p, ⟨rest3, by simp only [List.length_cons]; omega⟩)
      | none => none
    | none => none
  | _ => some (acc, ⟨toks, by subst_vars; omega⟩)
termination_by (toks.length, 1)
decreasing_by
  all_goals simp_wf
  all_goals try subst_vars
  all_goals try omega
  all_goals first
    | (apply Prod.Lex.left
       try simp only [List.length_cons] at *
       omega)
    | (apply Prod.Lex.right
       try simp only [List.length_cons] at *
       omega)
    | (try simp only [List.length_cons] at *
       omega)

/-- Embeds `parsePathSegment` from `parse.ts`. -/
def parsePathSegment (toks : List Token) :
    Option (SegmentNode × {l : List Token // l.length < toks.length}) :=
  match toks with
  | .this :: rest => some (.this, ⟨rest, by simp only [List.length_cons]; omega⟩)
  | .ident name :: rest =>
    some (.ident name, ⟨rest, by simp only [List.length_cons]; omega⟩)
  | .star :: rest =>
    some (.wildcard, ⟨rest, by simp only [List.length_cons]; omega⟩)
  | .lbracket :: rest => parseSubscript (.lbracket :: rest)
  | _ => none
termination_by (toks.length, 1)
decreasing_by
  all_goals simp_wf
  all_goals try subst_vars
  all_goals try omega
  all_goals first
    | (apply Prod.Lex.left
       try simp only [List.length_cons] at *
       omega)
    | (apply Prod.Lex.right
       try simp only [List.length_cons] at *
       omega)
    | (try simp only [List.length_cons] at *
       omega)

/-- Embeds `parseSubscript` from `parse.ts`. -/
def parseSubscript (toks : List Token) :
    Option (SegmentNode × {l : List Token // l.length < toks.length}) :=
  match toks with
  | .lbracket :: rest =>
    match parseSubscriptElement rest with
    | some (el, ⟨rest1, h1⟩) =>
      match parseMoreElements rest1 with
      | some (els, ⟨rest2, h2⟩) =>
        match hr2 : rest2 with
        | .rbracket :: rest3 =>
          some (.subscript (el :: els),
            ⟨rest3, by subst_vars; simp only [List.length_cons] at *; omega⟩)
        | _ => none
      | none => none
    | none => none
  | _ => none
termination_by (toks.length, 0)
decreasing_by
  all_goals simp_wf
  all_goals try subst_vars
  all_goals try omega
  all_goals first
    | (apply Prod.Lex.left
       try simp only [List.length_cons] at *
       omega)
    | (apply Prod.Lex.right
       try simp only [List.length_cons] at *
       omega)
    | (try simp only [List.length_cons] at *
       omega)

/-- Comma loop of `parseSubscript` in `parse.ts`. -/
def parseMoreElements (toks : List Token) :
    Option (List SubscriptElement × {l : List Token // l.length ≤ toks.length}) :=
  match htk : toks with
  | .comma :: rest =>
    match parseSubscriptElement rest with
    | some (el, ⟨rest1, h1⟩) =>
      match parseMoreElements rest1 with
      | some (els, ⟨rest2, h2⟩) =>
        some (el :: els, ⟨rest2, by simp only [List.length_cons]; omega⟩)
      | none => none
    | none => none
  | _ => some ([], ⟨toks, by subst_vars; omega⟩)
termination_by (toks.length, 4)
decreasing_by
  all_goals simp_wf
  all_goals try subst_vars
  all_goals try omega
  all_goals first
    | (apply Prod.Lex.left
       try simp only [List.length_cons] at *
       omega)
    | (apply Prod.Lex.right
       try simp only [List.length_cons] at *
       omega)
    | (try simp only [List.length_cons] at *
       omega)

/-- Embeds `parseSubscriptElement` from `parse.ts`: a leading number or
colon parses as index/slice, otherwise a full expression optionally
followed by a comparison operator or, for a path, a `?`. -/
def parseSubscriptElement (toks : List Token) :
    Option (SubscriptElement × {l : List Token // l.length < toks.length}) :=
  match htk : toks with
  | .colon :: rest => parseIndexOrSlice (.colon :: rest)
  | .num n :: rest => parseIndexOrSlice (.num n :: rest)
  | _ =>
    match parseExpression toks with
    | some (e, ⟨rest, h⟩) =>
      match hr : rest with
      | .op o :: rest2 =>
        match parseExpression rest2 with
        | some (r, ⟨rest3, h3⟩) =>
          some (.comparison e o r,
            ⟨rest3, by subst_vars; simp only [List.length_cons] at *; omega⟩)
        | none => none
      | .question :: rest2 =>
        match e with
        | .path p =>
          some (.existence p,
            ⟨rest2, by subst_vars; simp only [List.length_cons] at *; omega⟩)
        | _ => some (.expr e, ⟨rest, by subst_vars; omega⟩)
      | _ => some (.expr e, ⟨rest, by subst_vars; omega⟩)
    | none => none
termination_by (toks.length, 5)
decreasing_by
  all_goals simp_wf
  all_goals try subst_vars
  all_goals try omega
  all_goals first
    | (apply Prod.Lex.left
       try simp only [List.length_cons] at *
       omega)
    | (apply Prod.Lex.right
       try simp only [List.length_cons] at *
       omega)
    | (try simp only [List.length_cons] at *
       omega)

end

/-- Embeds `parse` from `parse.ts`: tokenize, reject an empty token
stream, parse one expression, and require the end of input. -/
def parse (cs : List Char) : Option ExprNode :=
  match tokenize cs with
  | none => none
  | some [] => none
  | some (t :: toks) =>
    match parseExpression (t :: toks) with
    | some (e, ⟨[], _⟩) => some e
    | _ => none

/-- JSON string escaping of one character, as in `JSON.stringify`
(ECMA-262 QuoteJSONString): double quote and backslash escape with a
backslash, the named control escapes, `\u00xx` with lowercase hex
digits for other control characters, every other character verbatim. -/
def jsonEscapeChar (c : Char) : List Char :=
  if c = dquoteChar then [backslashChar, dquoteChar]
  else if c = backslashChar then [backslashChar, backslashChar]
  else if c = Char.ofNat 8 then [backslashChar, 'b']
  else if c = Char.ofNat 9 then [backslashChar, 't']
  else if c = Char.ofNat 10 then [backslashChar, 'n']
  else if c = Char.ofNat 12 then [backslashChar, 'f']
  else if c = Char.ofNat 13 then [backslashChar, 'r']
  else if c.toNat < 32 then
    [backslashChar, 'u', '0', '0',
      lowHexDigit (c.toNat / 16), lowHexDigit (c.toNat % 16)]
  else [c]

/-- `JSON.stringify` of a string, used by `stringifyExpression` in
`path.ts` for string literals. -/
def jsonStringifyString (s : List Char) : List Char :=
  dquoteChar :: (s.flatMap jsonEscapeChar ++ [dquoteChar])

/-- Per-character form of `escapeIdentifier` in `path.ts`: JSON-escape,
then escape single quotes with a backslash and drop the backslash
before double quotes. The two global `replace` passes of the source act
on exactly the characters shown here, because a backslash directly
followed by a double quote only arises in `JSON.stringify` output as
the escape of a double quote. -/
def identEscapeChar (c : Char) : List Char :=
  if c = squoteChar then [backslashChar, squoteChar]
  else if c = dquoteChar then [dquoteChar]
  else jsonEscapeChar c

/-- Embeds `escapeIdentifier` from `path.ts`: the escaped content
wrapped in single quotes. -/
def escapeIdentifier (s : List Char) : List Char :=
  squoteChar :: (s.flatMap identEscapeChar ++ [squoteChar])

/-- The `[a-zA-Z_$][a-zA-Z0-9_$]*` whole-string test of
`stringifySegment` in `path.ts`. -/
def isValidIdent : List Char → Bool
  | [] => false
  | c :: rest => isIdentStartChar c && rest.all isIdentTailChar

/-- Characters of a comparison operator, as interpolated by
`stringifySubscriptElement` in `path.ts`. -/
def opChars : CmpOp → List Char
  | .eq => ['=', '=']
  | .ne => ['!', '=']
  | .lt => ['<']
  | .le => ['<', '=']
  | .gt => ['>']
  | .ge => ['>', '=']

/-- Decimal characters of an integer, as interpolated by the template
literals and `JSON.stringify` in `path.ts` (the two agree on
integers). -/
def intChars (i : Int) : List Char := (intRepr i).data

/-- Head-bracket test backing the `segment.startsWith` check of
`stringifyPath` in `path.ts`. -/
def headIsLBracket : List Char → Bool
  | [] => false
  | c :: _ => c = '[' 

mutual

/-- Embeds `stringifyExpression` from `path.ts`. -/
def stringifyExpression (node : ExprNode) : List Char :=
  match node with
  | .num n => intChars n
  | .str s => jsonStringifyString s.data
  | .path p => stringifyPath (some p)
termination_by (sizeOf node, 1)
decreasing_by
  all_goals simp_wf
  all_goals first
    | omega
    | (apply Prod.Lex.right; omega)
    | (apply Prod.Lex.left; omega)

/-- Embeds `stringifyPath` from `path.ts`: an absent node renders
empty, a root node renders its segment, a chained node joins with `..`
when recursive, nothing before a subscript, and `.` otherwise. -/
def stringifyPath (node : Option PathNode) : List Char :=
  match node with
  | none => []
  | some (.mk base recursive segment) =>
    let b := stringifyPath base
    let s := stringifySegment segment
    if b = [] then s
    else if recursive = some true then b ++ '.' :: '.' :: s
    else if headIsLBracket s then b ++ s
    else b ++ '.' :: s
termination_by (sizeOf node, 0)
decreasing_by
  all_goals simp_wf
  all_goals first
    | omega
    | (apply Prod.Lex.right; omega)
    | (apply Prod.Lex.left; omega)

/-- Embeds `stringifySegment` from `path.ts`: `@`, `*`, a bracketed
element list, or an identifier, escaped unless it matches the
identifier pattern. -/
def stringifySegment (segment : SegmentNode) : List Char :=
  match segment with
  | .this => ['@']
  | .wildcard => ['*']
  | .subscript els => '[' :: (stringifyElements els ++ [']'])
  | .ident name =>
    if isValidIdent name.data then name.data
    else escapeIdentifier name.data
termination_by (sizeOf segment, 0)
decreasing_by
  all_goals simp_wf
  all_goals first
    | omega
    | (apply Prod.Lex.right; omega)
    | (apply Prod.Lex.left; omega)

/-- The comma join of `stringifySegment` in `path.ts` for subscript
element lists. -/
def stringifyElements (els : List SubscriptElement) : List Char :=
  match els with
  | [] => []
  | [e] => stringifySubscriptElement e
  | e :: rest => stringifySubscriptElement e ++ ',' :: stringifyElements rest
termination_by (sizeOf els, 0)
decreasing_by
  all_goals simp_wf
  all_goals first
    | omega
    | (apply Prod.Lex.right; omega)
    | (apply Prod.Lex.left; omega)

/-- Embeds `stringifySubscriptElement` from `path.ts`. -/
def stringifySubscriptElement (el : SubscriptElement) : List Char :=
  match el with
  | .slice st en =>
    (match st with | some n => intChars n | none => []) ++
      ':' :: (match en with | some n => intChars n | none => [])
  | .comparison l o r =>
    stringifyExpression l ++ opChars o ++ stringifyExpression r
  | .existence p => stringifyPath (some p) ++ ['?']
  | .expr e => stringifyExpression e
termination_by (sizeOf el, 2)
decreasing_by
  all_goals simp_wf
  all_goals first
    | omega
    | (apply Prod.Lex.right; omega)
    | (apply Prod.Lex.left; omega)

end

/-- Subscript test on a segment, mirroring the `startsWith` dispatch of
`stringifyPath` at the token level. -/
def segIsSubscript : SegmentNode → Bool
  | .subscript _ => true
  | _ => false

mutual

/-- Token sequence of the canonical rendering of an expression. -/
def tokensOfExpr (node : ExprNode) : List Token :=
  match node with
  | .num n => [.num n]
  | .str s => [.str s]
  | .path p => tokensOfPath p
termination_by sizeOf node

/-- Token sequence of the canonical rendering of a path chain. -/
def tokensOfPath (p : PathNode) : List Token :=
  match p with
  | .mk none _ seg => tokensOfSeg seg
  | .mk (some b) r seg =>
    tokensOfPath b ++
      ((if r = some true then [Token.dotdot]
        else if segIsSubscript seg then [] else [Token.dot]) ++
        tokensOfSeg seg)
termination_by sizeOf p

/-- Token sequence of the canonical rendering of a segment. -/
def tokensOfSeg (seg : SegmentNode) : List Token :=
  match seg with
  | .this => [.this]
  | .ident name => [.ident name]
  | .wildcard => [.star]
  | .subscript els => .lbracket :: (tokensOfEls els ++ [.rbracket])
termination_by sizeOf seg

/-- Token sequence of the canonical rendering of a comma-joined
subscript element list. -/
def tokensOfEls (els : List SubscriptElement) : List Token :=
  match els with
  | [] => []
  | [e] => tokensOfEl e
  | e :: rest => tokensOfEl e ++ .comma :: tokensOfEls rest
termination_by sizeOf els

/-- Token sequence of the canonical rendering of one subscript
element. -/
def tokensOfEl (el : SubscriptElement) : List Token :=
  match el with
  | .slice st en =>
    (match st with | some n => [Token.num n] | none => []) ++
      .colon :: (match en with | some n => [Token.num n] | none => [])
  | .comparison l o r => tokensOfExpr l ++ .op o :: tokensOfExpr r
  | .existence p => tokensOfPath p ++ [.question]
  | .expr e => tokensOfExpr e
termination_by sizeOf el

end

/-- Comparison-left test: the parser can only produce string or path
left operands, because a leading number token dispatches a subscript
element to `parseIndexOrSlice`. -/
def exprIsNum : ExprNode → Bool
  | .num _ => true
  | _ => false

mutual

/-- Shape invariant of parser-produced expressions. -/
def wfExpr (node : ExprNode) : Bool :=
  match node with
  | .num _ => true
  | .str _ => true
  | .path p => wfPath p
termination_by sizeOf node

/-- Shape invariant of parser-produced path chains: the root carries no
base and no recursive flag, every later link carries an explicit
recursive flag. -/
def wfPath (p : PathNode) : Bool :=
  match p with
  | .mk none r seg => r = none && wfSeg seg
  | .mk (some b) r seg => r.isSome && wfPath b && wfSeg seg
termination_by sizeOf p

/-- Shape invariant of parser-produced segments: subscripts hold at
least one element. -/
def wfSeg (seg : SegmentNode) : Bool :=
  match seg with
  | .this => true
  | .ident _ => true
  | .wildcard => true
  | .subscript els => wfEls els
termination_by sizeOf seg

/-- Shape invariant of parser-produced subscript element lists
(nonempty, elementwise well-formed). -/
def wfEls (els : List SubscriptElement) : Bool :=
  match els with
  | [] => false
  | [e] => wfEl e
  | e :: rest => wfEl e && wfEls rest
termination_by sizeOf els

/-- Shape invariant of parser-produced subscript elements: slices keep
at least one bound and comparison left operands are never number
literals. -/
def wfEl (el : SubscriptElement) : Bool :=
  match el with
  | .slice st en => st.isSome || en.isSome
  | .comparison l _ r => !exprIsNum l && wfExpr l && wfExpr r
  | .existence p => wfPath p
  | .expr e => wfExpr e
termination_by sizeOf el

end

/-- The identifier names whose bare rendering re-lexes as a different
token: `$` lexes as the context token, `true` and `false` as boolean
tokens. -/
def badIdentName (name : String) : Bool :=
  name = "$" || name = "true" || name = "false"

mutual

/-- No identifier anywhere in the expression carries a name that
re-lexes as a non-identifier token. -/
def noBadExpr (node : ExprNode) : Bool :=
  match node with
  | .num _ => true
  | .str _ => true
  | .path p => noBadPath p
termination_by sizeOf node

/-- No bad identifier name in a path chain. -/
def noBadPath (p : PathNode) : Bool :=
  match p with
  | .mk none _ seg => noBadSeg seg
  | .mk (some b) _ seg => noBadPath b && noBadSeg seg
termination_by sizeOf p

/-- No bad identifier name in a segment. -/
def noBadSeg (seg : SegmentNode) : Bool :=
  match seg with
  | .this => true
  | .ident name => !badIdentName name
  | .wildcard => true
  | .subscript els => noBadEls els
termination_by sizeOf seg

/-- No bad identifier name in a subscript element list. -/
def noBadEls (els : List SubscriptElement) : Bool :=
  match els with
  | [] => true
  | e :: rest => noBadEl e && noBadEls rest
termination_by sizeOf els

/-- No bad identifier name in a subscript element. -/
def noBadEl (el : SubscriptElement) : Bool :=
  match el with
  | .slice _ _ => true
  | .comparison l _ r => noBadExpr l && noBadExpr r
  | .existence p => noBadPath p
  | .expr e => noBadExpr e
termination_by sizeOf el

end

/-- Links of a path chain from the root outwards: recursive flag and
segment of every non-root node. -/
def pathLinks : PathNode → List (Option Bool × SegmentNode)
  | .mk none _ _ => []
  | .mk (some b) r seg => pathLinks b ++ [(r, seg)]

/-- Root segment of a path chain. -/
def pathRoot : PathNode → SegmentNode
  | .mk none _ seg => seg
  | .mk (some b) _ _ => pathRoot b

/-- Rebuilding a path chain from an accumulator and links, mirroring
the chaining loop of `parsePath`. -/
def rebuildChain (acc : PathNode) : List (Option Bool × SegmentNode) → PathNode
  | [] => acc
  | (r, seg) :: ls => rebuildChain (.mk (some acc) r seg) ls

/-- Tokens of one rendered chain link. -/
def linkToks (l : Option Bool × SegmentNode) : List Token :=
  (if l.1 = some true then [Token.dotdot]
   else if segIsSubscript l.2 then [] else [Token.dot]) ++ tokensOfSeg l.2

/-- Token-level boundary after a rendered path: the chaining loop of
`parsePath` stops exactly when the next token opens no further link. -/
def chainStop (toks : List Token) : Bool :=
  match toks with
  | [] => true
  | .lbracket :: _ => false
  | .dot :: _ => false
  | .dotdot :: _ => false
  | _ => true

/-- Character-level boundary after a rendered token: no decimal digit
(which would extend a number) and no identifier character (which would
extend a bare identifier). -/
def charBoundary (cs : List Char) : Bool :=
  match cs with
  | [] => true
  | c :: _ => !isDigitChar c && !isIdentTailChar c

/-- Projection of the quoted lexer to plain pairs, used to reason
about its results without dependent bounds. -/
def lexQuotedP (term : Char) (cs : List Char) : Option (List Char × List Char) :=
  (lexQuoted term cs).map fun r => (r.1, r.2.1)

/-- Plain-pair projections of the parser functions, used to reason
about their results without dependent bounds. -/
def parseExpressionP (toks : List Token) : Option (ExprNode × List Token) :=
  (parseExpression toks).map fun r => (r.1, r.2.1)

/-- Plain-pair projection of `parsePath`. -/
def parsePathP (toks : List Token) : Option (PathNode × List Token) :=
  (parsePath toks).map fun r => (r.1, r.2.1)

/-- Plain-pair projection of `parsePathChain`. -/
def parsePathChainP (acc : PathNode) (toks : List Token) :
    Option (PathNode × List Token) :=
  (parsePathChain acc toks).map fun r => (r.1, r.2.1)

/-- Plain-pair projection of `parsePathSegment`. -/
def parsePathSegmentP (toks : List Token) :
    Option (SegmentNode × List Token) :=
  (parsePathSegment toks).map fun r => (r.1, r.2.1)

/-- Plain-pair projection of `parseSubscript`. -/
def parseSubscriptP (toks : List Token) :
    Option (SegmentNode × List Token) :=
  (parseSubscript toks).map fun r => (r.1, r.2.1)

/-- Plain-pair projection of `parseMoreElements`. -/
def parseMoreElementsP (toks : List Token) :
    Option (List SubscriptElement × List Token) :=
  (parseMoreElements toks).map fun r => (r.1, r.2.1)

/-- Plain-pair projection of `parseSubscriptElement`. -/
def parseSubscriptElementP (toks : List Token) :
    Option (SubscriptElement × List Token) :=
  (parseSubscriptElement toks).map fun r => (r.1, r.2.1)

/-- Plain-pair projection of `parseIndexOrSlice`. -/
def parseIndexOrSliceP (toks : List Token) :
    Option (SubscriptElement × List Token) :=
  (parseIndexOrSlice toks).map fun r => (r.1, r.2.1)

/-- Tokens of the comma-led continuation of a subscript element
list. -/
def moreToks (els : List SubscriptElement) : List Token :=
  els.flatMap fun e => Token.comma :: tokensOfEl e

/-- Element boundary inside a subscript: the canonical token after a
rendered element is a comma or the closing bracket. -/
def elStop (toks : List Token) : Bool :=
  match toks with
  | .comma :: _ => true
  | .rbracket :: _ => true
  | _ => false

/-! Helper lemmas. -/

theorem natFromDigits_append_single (ds : List Nat) (d : Nat) :
    natFromDigits (ds ++ [d]) = natFromDigits ds * 10 + d := by
  simp [natFromDigits, List.foldl_append]

theorem natFromDigits_natDecimalDigits (n : Nat) :
    natFromDigits (natDecimalDigits n) = n := by
  induction n using Nat.strong_induction_on with
  | _ n ih =>
    rw [natDecimalDigits]
    by_cases h : n < 10
    · rw [dif_pos h]
      simp [natFromDigits]
    · rw [dif_neg h, natFromDigits_append_single,
        ih (n / 10) (Nat.div_lt_self (by omega) (by omega))]
      omega

theorem natDecimalDigits_lt (n : Nat) : ∀ d ∈ natDecimalDigits n, d < 10 := by
  induction n using Nat.strong_induction_on with
  | _ n ih =>
    rw [natDecimalDigits]
    by_cases h : n < 10
    · rw [dif_pos h]; simp [h]
    · rw [dif_neg h]
      intro d hd
      rcases List.mem_append.mp hd with hd | hd
      · exact ih (n / 10) (Nat.div_lt_self (by omega) (by omega)) d hd
      · simp at hd; omega

theorem digitChar_inj :
    ∀ a < 10, ∀ b < 10, Nat.digitChar a = Nat.digitChar b → a = b := by
  decide

theorem map_digitChar_inj (xs : List Nat) :
    ∀ ys : List Nat, (∀ d ∈ xs, d < 10) → (∀ d ∈ ys, d < 10) →
      xs.map Nat.digitChar = ys.map Nat.digitChar → xs = ys := by
  induction xs with
  | nil =>
    intro ys _ _ h
    cases ys with
    | nil => rfl
    | cons b u => simp at h
  | cons a t ih =>
    intro ys hx hy h
    cases ys with
    | nil => simp at h
    | cons b u =>
      simp only [List.map_cons, List.cons.injEq] at h
      obtain ⟨h1, h2⟩ := h
      have hab := digitChar_inj a (hx a (by simp)) b (hy b (by simp)) h1
      rw [hab, ih u (fun d hd => hx d (by simp [hd]))
        (fun d hd => hy d (by simp [hd])) h2]

theorem natDecimalDigits_inj {a b : Nat}
    (h : natDecimalDigits a = natDecimalDigits b) : a = b := by
  have h2 := congrArg natFromDigits h
  rwa [natFromDigits_natDecimalDigits, natFromDigits_natDecimalDigits] at h2

theorem digitChar_ne_dash : ∀ d < 10, Nat.digitChar d ≠ '-' := by
  decide

theorem natDecimalDigits_ne_nil (n : Nat) : natDecimalDigits n ≠ [] := by
  rw [natDecimalDigits]
  by_cases h : n < 10
  · rw [dif_pos h]; simp
  · rw [dif_neg h]; simp

theorem map_digitChar_ne_dash_cons (n : Nat) (l : List Char) :
    (natDecimalDigits n).map Nat.digitChar ≠ '-' :: l := by
  intro h
  cases hd : natDecimalDigits n with
  | nil => exact natDecimalDigits_ne_nil n hd
  | cons d t =>
    rw [hd] at h
    simp only [List.map_cons, List.cons.injEq] at h
    exact digitChar_ne_dash d (natDecimalDigits_lt n d (by rw [hd]; simp)) h.1

theorem intRepr_inj {i j : Int} (h : intRepr i = intRepr j) : i = j := by
  by_cases hi : i < 0 <;> by_cases hj : j < 0 <;>
    rw [intRepr, intRepr] at h
  · rw [if_pos hi, if_pos hj] at h
    have hd := congrArg String.data h
    simp only [List.cons.injEq] at hd
    have := natDecimalDigits_inj
      (map_digitChar_inj _ _ (natDecimalDigits_lt _) (natDecimalDigits_lt _)
        hd.2)
    omega
  · rw [if_pos hi, if_neg hj] at h
    have hd := congrArg String.data h
    exact absurd hd.symm (map_digitChar_ne_dash_cons _ _)
  · rw [if_neg hi, if_pos hj] at h
    have hd := congrArg String.data h
    exact absurd hd (map_digitChar_ne_dash_cons _ _)
  · rw [if_neg hi, if_neg hj] at h
    have hd := congrArg String.data h
    have := natDecimalDigits_inj
      (map_digitChar_inj _ _ (natDecimalDigits_lt _) (natDecimalDigits_lt _)
        hd)
    omega

theorem getKey_inj : ∀ s t : PathSegment, getKey s = getKey t → s = t := by
  have hkey : "key:".data = ['k', 'e', 'y', ':'] := rfl
  have hfield : "field:".data = ['f', 'i', 'e', 'l', 'd', ':'] := rfl
  have hindex : "index:".data = ['i', 'n', 'd', 'e', 'x', ':'] := rfl
  intro s t h
  cases s <;> cases t <;>
    simp only [getKey] at h <;>
    have hd := congrArg String.data h <;>
    simp [String.data_append, hkey, hfield, hindex] at hd
  · rw [String.ext hd]
  · rw [intRepr_inj (String.ext hd)]
  · rw [String.ext hd]

theorem PathMap.mk_entries (m : PathMap) : PathMap.mk m.entries = m := by
  cases m; rfl

theorem lookup_cons_self (k : String) (v : Option PathMap)
    (es : List (String × Option PathMap)) :
    List.lookup k ((k, v) :: es) = some v := by
  simp [List.lookup]

theorem lookup_cons_ne (k k0 : String) (v0 : Option PathMap)
    (es : List (String × Option PathMap)) (h : k0 ≠ k) :
    List.lookup k ((k0, v0) :: es) = List.lookup k es := by
  have hb : (k == k0) = false := by simp [Ne.symm h]
  simp [List.lookup, hb]

theorem setEntry_lookup_self (es : List (String × Option PathMap))
    (k : String) (v : Option PathMap) :
    (setEntry es k v).lookup k = some v := by
  induction es with
  | nil => exact lookup_cons_self k v []
  | cons e rest ih =>
    obtain ⟨k0, v0⟩ := e
    by_cases h : k0 = k
    · subst h
      rw [setEntry, if_pos rfl]
      exact lookup_cons_self _ _ _
    · rw [setEntry, if_neg h, lookup_cons_ne _ _ _ _ h]
      exact ih

theorem setEntry_lookup_ne (es : List (String × Option PathMap))
    (k k' : String) (v : Option PathMap) (h : k' ≠ k) :
    (setEntry es k v).lookup k' = es.lookup k' := by
  induction es with
  | nil =>
    rw [setEntry, lookup_cons_ne _ _ _ _ (Ne.symm h)]
  | cons e rest ih =>
    obtain ⟨k0, v0⟩ := e
    by_cases h0 : k0 = k
    · subst h0
      rw [setEntry, if_pos rfl, lookup_cons_ne _ _ _ _ (Ne.symm h),
        lookup_cons_ne _ _ _ _ (Ne.symm h)]
    · rw [setEntry, if_neg h0]
      by_cases h1 : k0 = k'
      · subst h1
        rw [lookup_cons_self, lookup_cons_self]
      · rw [lookup_cons_ne _ _ _ _ h1, lookup_cons_ne _ _ _ _ h1, ih]

theorem setEntry_self (es : List (String × Option PathMap)) (k : String)
    (v : Option PathMap) (h : es.lookup k = some v) : setEntry es k v = es := by
  induction es with
  | nil => simp [List.lookup] at h
  | cons e rest ih =>
    obtain ⟨k0, v0⟩ := e
    by_cases h0 : k0 = k
    · subst h0
      rw [lookup_cons_self] at h
      injection h with h
      rw [setEntry, if_pos rfl, h]
    · rw [lookup_cons_ne _ _ _ _ h0] at h
      rw [setEntry, if_neg h0, ih h]

theorem get_mk_setEntry_self (es : List (String × Option PathMap))
    (k : String) (v : Option PathMap) :
    (PathMap.mk (setEntry es k v)).get k = some v := by
  simpa [PathMap.get, PathMap.entries] using setEntry_lookup_self es k v

theorem get_mk_setEntry_ne (es : List (String × Option PathMap))
    (k k' : String) (v : Option PathMap) (h : k' ≠ k) :
    (PathMap.mk (setEntry es k v)).get k' = List.lookup k' es := by
  simpa [PathMap.get, PathMap.entries] using setEntry_lookup_ne es k k' v h

theorem hasPath_pathMapEmpty (q : Path) :
    (PathMap.mk []).hasPath q = false := by
  cases q with
  | nil => rfl
  | cons h t =>
    simp [PathMap.hasPath, PathMap.get, PathMap.entries, List.lookup]

theorem addPath_nil (m : PathMap) : m.addPath [] = m := rfl

theorem addPath_single (m : PathMap) (h : PathSegment) :
    m.addPath [h] = .mk (setEntry m.entries (getKey h) none) := by
  simp [PathMap.addPath]

theorem addPath_cons_term (m : PathMap) (h : PathSegment) (t : Path)
    (ht : t ≠ []) (hget : m.get (getKey h) = some none) :
    m.addPath (h :: t) = m := by
  have hte : t.isEmpty = false := by simp [ht]
  rw [PathMap.addPath]
  simp only [hte, Bool.false_eq_true, if_false, hget]

theorem addPath_cons_child (m : PathMap) (h : PathSegment) (t : Path)
    (cached : PathMap) (ht : t ≠ [])
    (hget : m.get (getKey h) = some (some cached)) :
    m.addPath (h :: t) =
      .mk (setEntry m.entries (getKey h) (some (cached.addPath t))) := by
  have hte : t.isEmpty = false := by simp [ht]
  rw [PathMap.addPath]
  simp only [hte, Bool.false_eq_true, if_false, hget]

theorem addPath_cons_none (m : PathMap) (h : PathSegment) (t : Path)
    (ht : t ≠ []) (hget : m.get (getKey h) = none) :
    m.addPath (h :: t) =
      .mk (setEntry m.entries (getKey h)
        (some ((PathMap.mk []).addPath t))) := by
  have hte : t.isEmpty = false := by simp [ht]
  rw [PathMap.addPath]
  simp only [hte, Bool.false_eq_true, if_false, hget]

theorem hasPath_cons_none (m : PathMap) (h : PathSegment) (t : Path)
    (hget : m.get (getKey h) = none) : m.hasPath (h :: t) = false := by
  rw [PathMap.hasPath]
  simp only [hget]

theorem hasPath_cons_term (m : PathMap) (h : PathSegment) (t : Path)
    (hget : m.get (getKey h) = some none) :
    m.hasPath (h :: t) = t.isEmpty := by
  rw [PathMap.hasPath]
  simp only [hget]

theorem hasPath_cons_child (m : PathMap) (h : PathSegment) (t : Path)
    (cached : PathMap) (hget : m.get (getKey h) = some (some cached)) :
    m.hasPath (h :: t) = if t.isEmpty then false else cached.hasPath t := by
  rw [PathMap.hasPath]
  simp only [hget]

theorem get_addPath_ne (m : PathMap) (h : PathSegment) (t : Path)
    (k : String) (hk : k ≠ getKey h) :
    (m.addPath (h :: t)).get k = m.get k := by
  rcases ht : t with _ | ⟨x, xs⟩
  · rw [addPath_single, get_mk_setEntry_ne _ _ _ _ hk]
    rfl
  · rw [← ht]
    have htne : t ≠ [] := by simp [ht]
    cases hget : m.get (getKey h) with
    | none => rw [addPath_cons_none m h t htne hget,
        get_mk_setEntry_ne _ _ _ _ hk]; rfl
    | some o =>
      cases o with
      | none => rw [addPath_cons_term m h t htne hget]
      | some cached => rw [addPath_cons_child m h t cached htne hget,
          get_mk_setEntry_ne _ _ _ _ hk]; rfl

theorem addPath_append_of_terminal (p : Path) :
    ∀ (m : PathMap) (q : Path), m.hasPath p = true → q ≠ [] →
      m.addPath (p ++ q) = m := by
  induction p with
  | nil =>
    intro m q hp _
    exact absurd hp (by simp [PathMap.hasPath])
  | cons h t ih =>
    intro m q hq hqne
    cases hget : m.get (getKey h) with
    | none => rw [hasPath_cons_none m h t hget] at hq; simp at hq
    | some o =>
      cases o with
      | none =>
        rw [hasPath_cons_term m h t hget] at hq
        have ht : t = [] := by
          rcases t with _ | _
          · rfl
          · simp at hq
        subst ht
        show m.addPath (h :: q) = m
        exact addPath_cons_term m h q hqne hget
      | some cached =>
        rw [hasPath_cons_child m h t cached hget] at hq
        have ht : t ≠ [] := by
          intro h'
          subst h'
          simp at hq
        have hcp : cached.hasPath t = true := by
          rw [if_neg (by simp [ht])] at hq
          exact hq
        show m.addPath (h :: (t ++ q)) = m
        rw [addPath_cons_child m h (t ++ q) cached (by simp [ht]) hget,
          ih cached q hcp hqne]
        have : m.entries.lookup (getKey h) = some (some cached) := hget
        rw [setEntry_self _ _ _ this, PathMap.mk_entries]

theorem hasPath_addPath_preserve (q : Path) :
    ∀ (m : PathMap) (p : Path), m.hasPath p = true →
      ¬(q <+: p ∧ q ≠ p) → (m.addPath q).hasPath p = true := by
  induction q with
  | nil => intro m p h _; exact h
  | cons qh qt ih =>
    intro m p h hq
    cases p with
    | nil => exact absurd h (by simp [PathMap.hasPath])
    | cons ph pt =>
      by_cases hkey : getKey qh = getKey ph
      · have hqp : qh = ph := getKey_inj _ _ hkey
        subst hqp
        cases hget : m.get (getKey qh) with
        | none => rw [hasPath_cons_none m qh pt hget] at h; simp at h
        | some o =>
          cases o with
          | none =>
            rw [hasPath_cons_term m qh pt hget] at h
            have hpt : pt = [] := by
              rcases pt with _ | _
              · rfl
              · simp at h
            subst hpt
            cases qt with
            | nil =>
              rw [addPath_single, hasPath_cons_term _ _ _
                (get_mk_setEntry_self _ _ _)]
              rfl
            | cons x xs =>
              rw [addPath_cons_term m qh (x :: xs) (by simp) hget,
                hasPath_cons_term m qh [] hget]
              rfl
          | some cached =>
            rw [hasPath_cons_child m qh pt cached hget] at h
            have hpt : pt ≠ [] := by
              intro h1
              subst h1
              simp at h
            have hcp : cached.hasPath pt = true := by
              rw [if_neg (by simp [hpt])] at h
              exact h
            cases qt with
            | nil =>
              exact absurd ⟨⟨pt, by simp⟩, by simpa using Ne.symm hpt⟩ hq
            | cons x xs =>
              rw [addPath_cons_child m qh (x :: xs) cached (by simp) hget,
                hasPath_cons_child _ _ _ _ (get_mk_setEntry_self _ _ _),
                if_neg (by simp [hpt])]
              refine ih cached pt hcp ?_
              rintro ⟨hpre, hne⟩
              exact hq ⟨List.cons_prefix_cons.mpr ⟨rfl, hpre⟩, by simp [hne]⟩
      · cases hget : m.get (getKey ph) with
        | none => rw [hasPath_cons_none m ph pt hget] at h; simp at h
        | some o =>
          have hget2 : (m.addPath (qh :: qt)).get (getKey ph) = some o := by
            rw [get_addPath_ne m qh qt (getKey ph) (Ne.symm hkey), hget]
          cases o with
          | none =>
            rw [hasPath_cons_term m ph pt hget] at h
            rw [hasPath_cons_term _ ph pt hget2]
            exact h
          | some cached =>
            rw [hasPath_cons_child m ph pt cached hget] at h
            rw [hasPath_cons_child _ ph pt cached hget2]
            exact h

theorem hasPath_addPath_self (p : Path) :
    ∀ m : PathMap, p ≠ [] →
      (∀ q, q <+: p → q ≠ p → m.hasPath q = false) →
      (m.addPath p).hasPath p = true := by
  induction p with
  | nil => intro m h _; exact absurd rfl h
  | cons h t ih =>
    intro m _ hfree
    rcases ht : t with _ | ⟨x, xs⟩
    · rw [addPath_single, hasPath_cons_term _ _ _
        (get_mk_setEntry_self _ _ _)]
      rfl
    · rw [← ht]
      have htne : t ≠ [] := by simp [ht]
      have hh : m.hasPath [h] = false := by
        refine hfree [h] ⟨t, rfl⟩ ?_
        simp [ht]
      cases hget : m.get (getKey h) with
      | none =>
        rw [addPath_cons_none m h t htne hget, hasPath_cons_child _ _ _ _
          (get_mk_setEntry_self _ _ _), if_neg (by simp [htne])]
        exact ih (PathMap.mk []) htne (fun q _ _ => hasPath_pathMapEmpty q)
      | some o =>
        cases o with
        | none => rw [hasPath_cons_term m h [] hget] at hh; simp at hh
        | some cached =>
          have hfree2 : ∀ q, q <+: t → q ≠ t → cached.hasPath q = false := by
            intro q hpre hne
            cases q with
            | nil => rfl
            | cons y ys =>
              have hm := hfree (h :: y :: ys)
                (List.cons_prefix_cons.mpr ⟨rfl, hpre⟩)
                (by simp [hne])
              rw [hasPath_cons_child m h (y :: ys) cached hget,
                if_neg (by simp)] at hm
              exact hm
          rw [addPath_cons_child m h t cached htne hget,
            hasPath_cons_child _ _ _ _ (get_mk_setEntry_self _ _ _),
            if_neg (by simp [htne])]
          exact ih cached htne hfree2

theorem hasPath_addPath_cases (q : Path) :
    ∀ (m : PathMap) (p : Path), (m.addPath q).hasPath p = true →
      p = q ∨ m.hasPath p = true := by
  induction q with
  | nil => intro m p h; right; exact h
  | cons qh qt ih =>
    intro m p h
    cases p with
    | nil => exact absurd h (by simp [PathMap.hasPath])
    | cons ph pt =>
      by_cases hkey : getKey qh = getKey ph
      · have hqp : qh = ph := getKey_inj _ _ hkey
        subst hqp
        cases qt with
        | nil =>
          rw [addPath_single, hasPath_cons_term _ _ _
            (get_mk_setEntry_self _ _ _)] at h
          cases pt with
          | nil => left; rfl
          | cons y ys => simp at h
        | cons x xs =>
          cases hget : m.get (getKey qh) with
          | none =>
            rw [addPath_cons_none m qh (x :: xs) (by simp) hget,
              hasPath_cons_child _ _ _ _ (get_mk_setEntry_self _ _ _)] at h
            cases pt with
            | nil => simp at h
            | cons y ys =>
              rw [if_neg (by simp)] at h
              rcases ih (PathMap.mk []) (y :: ys) h with h1 | h1
              · left; rw [h1]
              · rw [hasPath_pathMapEmpty] at h1; simp at h1
          | some o =>
            cases o with
            | none =>
              right
              rw [addPath_cons_term m qh (x :: xs) (by simp) hget] at h
              exact h
            | some cached =>
              rw [addPath_cons_child m qh (x :: xs) cached (by simp) hget,
                hasPath_cons_child _ _ _ _ (get_mk_setEntry_self _ _ _)] at h
              cases pt with
              | nil => simp at h
              | cons y ys =>
                rw [if_neg (by simp)] at h
                rcases ih cached (y :: ys) h with h1 | h1
                · left; rw [h1]
                · right
                  rw [hasPath_cons_child m qh (y :: ys) cached hget,
                    if_neg (by simp)]
                  exact h1
      · right
        cases hget : m.get (getKey ph) with
        | none =>
          rw [hasPath_cons_none _ ph pt (by
            rw [get_addPath_ne m qh qt (getKey ph) (Ne.symm hkey), hget])] at h
          simp at h
        | some o =>
          have hget2 : (m.addPath (qh :: qt)).get (getKey ph) = some o := by
            rw [get_addPath_ne m qh qt (getKey ph) (Ne.symm hkey), hget]
          cases o with
          | none =>
            rw [hasPath_cons_term _ ph pt hget2] at h
            rw [hasPath_cons_term m ph pt hget]
            exact h
          | some cached =>
            rw [hasPath_cons_child _ ph pt cached hget2] at h
            rw [hasPath_cons_child m ph pt cached hget]
            exact h

theorem hasPath_foldl_mem (ps : List Path) (q : Path) :
    ∀ m : PathMap, (ps.foldl PathMap.addPath m).hasPath q = true →
      q ∈ ps ∨ m.hasPath q = true := by
  induction ps with
  | nil => intro m h; right; exact h
  | cons p rest ih =>
    intro m h
    rw [List.foldl_cons] at h
    rcases ih (m.addPath p) h with h1 | h1
    · left; exact List.mem_cons_of_mem p h1
    · rcases hasPath_addPath_cases p m q h1 with h2 | h2
      · left; rw [h2]; exact List.mem_cons_self p rest
      · right; exact h2

theorem addPath_prefix_evicts (p : Path) :
    ∀ (m : PathMap) (q : Path), p ≠ [] → q ≠ [] →
      (m.addPath p).hasPath (p ++ q) = false := by
  induction p with
  | nil => intro m q hp _; exact absurd rfl hp
  | cons h t ih =>
    intro m q _ hq
    rcases ht : t with _ | ⟨x, xs⟩
    · show ((m.addPath [h]).hasPath (h :: q)) = false
      rw [addPath_single, hasPath_cons_term _ _ _
        (get_mk_setEntry_self _ _ _)]
      simp [hq]
    · rw [← ht]
      have htne : t ≠ [] := by simp [ht]
      show ((m.addPath (h :: t)).hasPath (h :: (t ++ q))) = false
      cases hget : m.get (getKey h) with
      | none =>
        rw [addPath_cons_none m h t htne hget, hasPath_cons_child _ _ _ _
          (get_mk_setEntry_self _ _ _), if_neg (by simp [htne])]
        exact ih (PathMap.mk []) q htne hq
      | some o =>
        cases o with
        | none =>
          rw [addPath_cons_term m h t htne hget,
            hasPath_cons_term m h (t ++ q) hget]
          simp [htne]
        | some cached =>
          rw [addPath_cons_child m h t cached htne hget,
            hasPath_cons_child _ _ _ _ (get_mk_setEntry_self _ _ _),
            if_neg (by simp [htne])]
          exact ih cached q htne hq

theorem hasPath_prefix_of_append (p : Path) :
    ∀ (m : PathMap) (q : Path), q ≠ [] → m.hasPath (p ++ q) = true →
      m.hasPath p = false := by
  induction p with
  | nil => intro m q _ _; rfl
  | cons h t ih =>
    intro m q hq hp
    cases hget : m.get (getKey h) with
    | none =>
      rw [show ((h :: t) ++ q) = h :: (t ++ q) from rfl,
        hasPath_cons_none m h (t ++ q) hget] at hp
      simp at hp
    | some o =>
      cases o with
      | none =>
        rw [show ((h :: t) ++ q) = h :: (t ++ q) from rfl,
          hasPath_cons_term m h (t ++ q) hget] at hp
        rw [List.isEmpty_eq_true, List.append_eq_nil] at hp
        exact absurd hp.2 hq
      | some cached =>
        rw [show ((h :: t) ++ q) = h :: (t ++ q) from rfl,
          hasPath_cons_child m h (t ++ q) cached hget,
          if_neg (by simp [hq])] at hp
        rw [hasPath_cons_child m h t cached hget]
        cases t with
        | nil => rfl
        | cons x xs =>
          rw [if_neg (by simp)]
          exact ih cached q hq hp

theorem dedupLoop_no_more (es : List MatchEntry) :
    ∀ (visited : PathMap) (p : Path), visited.hasPath p = true →
      (∀ e ∈ es, ¬(e.path <+: p ∧ e.path ≠ p)) →
      ∀ e2 ∈ dedupLoop visited es, e2.path ≠ p := by
  induction es with
  | nil => intro visited p _ _ e2 he2; simp [dedupLoop] at he2
  | cons e rest ih =>
    intro visited p hp hfree e2 he2
    rw [dedupLoop] at he2
    by_cases hv : visited.hasPath e.path = true
    · rw [if_pos hv] at he2
      exact ih visited p hp
        (fun x hx => hfree x (List.mem_cons_of_mem e hx)) e2 he2
    · rw [if_neg hv] at he2
      rcases List.mem_cons.mp he2 with rfl | he2
      · intro hep
        rw [hep] at hv
        exact hv hp
      · refine ih (visited.addPath e.path) p ?_
          (fun x hx => hfree x (List.mem_cons_of_mem e hx)) e2 he2
        exact hasPath_addPath_preserve e.path visited p hp
          (hfree e (List.mem_cons_self e rest))

theorem dedupLoop_count (es : List MatchEntry) :
    ∀ (visited : PathMap) (p : Path), p ≠ [] →
      (∀ e ∈ es, ¬(e.path <+: p ∧ e.path ≠ p)) →
      (∀ q, q <+: p → q ≠ p → visited.hasPath q = false) →
      (dedupLoop visited es).countP (fun e => decide (e.path = p)) ≤ 1 := by
  induction es with
  | nil => intro visited p _ _ _; simp [dedupLoop]
  | cons e rest ih =>
    intro visited p hp hfree hvfree
    rw [dedupLoop]
    by_cases hv : visited.hasPath e.path = true
    · rw [if_pos hv]
      exact ih visited p hp
        (fun x hx => hfree x (List.mem_cons_of_mem e hx)) hvfree
    · rw [if_neg hv]
      by_cases hep : e.path = p
      · rw [List.countP_cons_of_pos _ _ (by simp [hep])]
        have hzero :
            (dedupLoop (visited.addPath e.path) rest).countP
              (fun x => decide (x.path = p)) = 0 := by
          rw [List.countP_eq_zero]
          intro x hx
          simp only [decide_eq_true_eq]
          refine dedupLoop_no_more rest (visited.addPath e.path) p ?_
            (fun y hy => hfree y (List.mem_cons_of_mem e hy)) x hx
          rw [hep]
          exact hasPath_addPath_self p visited hp hvfree
        omega
      · rw [List.countP_cons_of_neg _ _ (by simp [hep])]
        refine ih (visited.addPath e.path) p hp
          (fun x hx => hfree x (List.mem_cons_of_mem e hx)) ?_
        intro q hq hqe
        cases hqv : (visited.addPath e.path).hasPath q with
        | false => rfl
        | true =>
          rcases hasPath_addPath_cases e.path visited q hqv with h1 | h1
          · exact absurd ⟨h1 ▸ hq, h1 ▸ hqe⟩
              (hfree e (List.mem_cons_self e rest))
          · rw [hvfree q hq hqe] at h1
            exact h1.symm

theorem itemEntry_keyedShape (item : JSValue) (p : Path) (i : Int) :
    keyedShape (itemEntry item p i) p := by
  constructor
  · intro k hk
    simp [itemEntry] at hk
    simp [itemEntry, itemSeg, hk]
  · intro hk
    simp [itemEntry] at hk
    exact ⟨i, by simp [itemEntry, itemSeg, hk]⟩

theorem mem_wildcardItems {items : List JSValue} {p : Path} {i : Int}
    {e : MatchEntry} (h : e ∈ wildcardItems items p i) :
    ∃ j : Int, e = itemEntry e.value p j := by
  induction items generalizing i with
  | nil => simp [wildcardItems] at h
  | cons item rest ih =>
    rw [wildcardItems] at h
    rcases List.mem_cons.mp h with h | h
    · exact ⟨i, by simp [h, itemEntry]⟩
    · exact ih h

theorem mem_comparisonItems {l : ExprNode} {op : CmpOp} {r : ExprNode}
    {items : List JSValue} {p : Path} {i : Int} {e : MatchEntry}
    (h : e ∈ comparisonItems l op r items p i) :
    ∃ j : Int, e = itemEntry e.value p j := by
  induction items generalizing i with
  | nil => simp [comparisonItems] at h
  | cons item rest ih =>
    rw [comparisonItems] at h
    rcases List.mem_append.mp h with h | h
    · rcases hb : evaluateComparison l op r item with _ | _ <;> rw [hb] at h
      · simp at h
      · simp at h
        exact ⟨i, by simp [h, itemEntry]⟩
    · exact ih h

theorem mem_existenceItems {b : PathNode} {items : List JSValue} {p : Path}
    {i : Int} {e : MatchEntry} (h : e ∈ existenceItems b items p i) :
    ∃ j : Int, e = itemEntry e.value p j := by
  induction items generalizing i with
  | nil => simp [existenceItems] at h
  | cons item rest ih =>
    rw [existenceItems] at h
    rcases List.mem_append.mp h with h | h
    · rcases hb : (matchPathExpression (some b) item
          (itemEntry item p i).path).isEmpty with _ | _ <;> rw [hb] at h
      · simp at h
        exact ⟨i, by simp [h, itemEntry]⟩
      · simp at h
    · exact ih h

theorem keyedShape_of_itemEntry_eq {e : MatchEntry} {p : Path}
    (h : ∃ j : Int, e = itemEntry e.value p j) : keyedShape e p := by
  rcases h with ⟨j, hj⟩
  rw [hj]
  exact itemEntry_keyedShape e.value p j

theorem items_loop_eq_spec (seg : SegmentNode) (items : List JSValue)
    (h : ∀ item ∈ items, ∀ q, recursiveMatch seg item q =
      specRecursiveDescent seg item q) :
    ∀ p i, recursiveMatchItems seg items p i = specDescentItems seg items p i := by
  induction items with
  | nil => intro p i; rw [recursiveMatchItems, specDescentItems]
  | cons item rest ih =>
    intro p i
    rw [recursiveMatchItems, specDescentItems,
      h item (List.mem_cons_self item rest),
      ih (fun x hx q => h x (List.mem_cons_of_mem item hx) q)]

theorem fields_loop_eq_spec (seg : SegmentNode)
    (fields : List (String × JSValue))
    (h : ∀ f ∈ fields, ∀ q, recursiveMatch seg f.2 q =
      specRecursiveDescent seg f.2 q) :
    ∀ p, recursiveMatchFields seg fields p = specDescentFields seg fields p := by
  induction fields with
  | nil => intro p; rw [recursiveMatchFields, specDescentFields]
  | cons f rest ih =>
    intro p
    obtain ⟨key, nested⟩ := f
    rw [recursiveMatchFields, specDescentFields,
      h (key, nested) (List.mem_cons_self _ rest),
      ih (fun x hx q => h x (List.mem_cons_of_mem _ hx) q)]

theorem recursiveMatch_eq_spec (seg : SegmentNode) (v : JSValue)
    (p : Path) : recursiveMatch seg v p = specRecursiveDescent seg v p := by
  generalize hn : sizeOf v = n
  induction n using Nat.strong_induction_on generalizing v p with
  | _ n ih =>
    subst hn
    cases v with
    | arr tag items =>
      have hitems : ∀ item ∈ items, ∀ q,
          recursiveMatch seg item q = specRecursiveDescent seg item q := by
        intro item hmem q
        exact ih (sizeOf item)
          (by
            have := List.sizeOf_lt_of_mem hmem
            simp only [JSValue.arr.sizeOf_spec]
            omega)
          item q rfl
      simp only [recursiveMatch, specRecursiveDescent,
        items_loop_eq_spec seg items hitems]
    | obj tag fields =>
      have hfields : ∀ f ∈ fields, ∀ q,
          recursiveMatch seg f.2 q = specRecursiveDescent seg f.2 q := by
        intro f hmem q
        refine ih (sizeOf f.2) ?_ f.2 q rfl
        have h1 := List.sizeOf_lt_of_mem hmem
        obtain ⟨a, b⟩ := f
        simp only [JSValue.obj.sizeOf_spec]
        simp only [Prod.mk.sizeOf_spec] at h1 ⊢
        omega
      simp only [recursiveMatch, specRecursiveDescent,
        fields_loop_eq_spec seg fields hfields]
    | null => simp [recursiveMatch, specRecursiveDescent]
    | bool b => simp [recursiveMatch, specRecursiveDescent]
    | num m => simp [recursiveMatch, specRecursiveDescent]
    | str s => simp [recursiveMatch, specRecursiveDescent]

/-! Claim theorems. -/

/-- C1 (counterexample): a recursive Path node whose segment is
`Wildcard` does not perform the recursive-descent step. On the document
`{a: {b: 1}}` the expression `a..*` yields the candidate `{b: 1}` at
path `["a"]` unchanged, not the recursive-descent result (which would be
the value `1` at path `["a", "b"]`). -/
theorem c1_counterexample :
    matchPathExpression
        (some (.mk (some (.mk none none (.ident "a"))) (some true) .wildcard))
        (.obj 0 [("a", .obj 1 [("b", .num 1)])]) [] ≠
      (matchPathExpression (some (.mk none none (.ident "a")))
          (.obj 0 [("a", .obj 1 [("b", .num 1)])]) []).flatMap
        fun c => specRecursiveDescent .wildcard c.value c.path := by
  intro h
  simp [matchPathExpression, matchPathSegment, specRecursiveDescent,
    specDescentFields, SegmentNode.isWildcard, List.lookup, itemEntry,
    itemSeg, keyOf] at h

/-- C1 (amended): for every Path node whose recursive flag is set and
whose segment is not `Wildcard`, every candidate produced by its base
undergoes the pre-order depth-first recursive-descent step (direct
matches at the current level first, then every child in natural order,
recursively); a recursive node whose segment is `Wildcard` instead
yields every base candidate unchanged. -/
theorem c1_amended :
    (∀ (base : Option PathNode) (segment : SegmentNode) (v : JSValue)
        (p : Path), segment.isWildcard = false →
        matchPathExpression (some (.mk base (some true) segment)) v p =
          (matchPathExpression base v p).flatMap
            fun c => specRecursiveDescent segment c.value c.path) ∧
    (∀ (base : Option PathNode) (v : JSValue) (p : Path),
        matchPathExpression (some (.mk base (some true) .wildcard)) v p =
          matchPathExpression base v p) := by
  constructor
  · intro base segment v p hseg
    rw [matchPathExpression]
    simp [hseg, recursiveMatch_eq_spec]
  · intro base v p
    rw [matchPathExpression]
    simp [SegmentNode.isWildcard]

/-- C1 (witness): the amended statement applied to the recursive
identifier segment `b` on the document `{b: 2}`. -/
theorem c1_witness :
    matchPathExpression (some (.mk none (some true) (.ident "b")))
        (.obj 0 [("b", .num 2)]) [] =
      (matchPathExpression (none : Option PathNode)
          (.obj 0 [("b", .num 2)]) []).flatMap
        fun c => specRecursiveDescent (.ident "b") c.value c.path :=
  c1_amended.1 none (.ident "b") (.obj 0 [("b", .num 2)]) [] rfl

/-- C5: whenever one of the five array addressing operations (Wildcard,
Number, Slice, Comparison, Existence) yields a sequence element, the
result path extends the candidate path by the keyed reference
`key <that string>` whenever the element is a record carrying a
string-valued `_key` field, and by a numeric index otherwise. -/
theorem c5_keyed_addressing :
    (∀ (tag : Nat) (items : List JSValue) (p : Path) (e : MatchEntry),
        e ∈ matchPathSegment .wildcard (.arr tag items) p →
        keyedShape e p) ∧
    (∀ (tag : Nat) (items : List JSValue) (n : Int) (p : Path)
        (e : MatchEntry),
        e ∈ matchSubscriptElement (.expr (.num n)) (.arr tag items) p →
        keyedShape e p) ∧
    (∀ (tag : Nat) (items : List JSValue) (a b : Option Int) (p : Path)
        (e : MatchEntry),
        e ∈ matchSubscriptElement (.slice a b) (.arr tag items) p →
        keyedShape e p) ∧
    (∀ (tag : Nat) (items : List JSValue) (l : ExprNode) (op : CmpOp)
        (r : ExprNode) (p : Path) (e : MatchEntry),
        e ∈ matchSubscriptElement (.comparison l op r) (.arr tag items) p →
        keyedShape e p) ∧
    (∀ (tag : Nat) (items : List JSValue) (b : PathNode) (p : Path)
        (e : MatchEntry),
        e ∈ matchSubscriptElement (.existence b) (.arr tag items) p →
        keyedShape e p) := by
  refine ⟨?_, ?_, ?_, ?_, ?_⟩
  · intro tag items p e h
    simp only [matchPathSegment] at h
    exact keyedShape_of_itemEntry_eq (mem_wildcardItems h)
  · intro tag items n p e h
    simp only [matchSubscriptElement] at h
    cases hj : jsAt items n with
    | none => rw [hj] at h; simp at h
    | some item =>
      rw [hj] at h
      simp at h
      rw [h]
      exact itemEntry_keyedShape item p n
  · intro tag items a b p e h
    simp only [matchSubscriptElement] at h
    exact keyedShape_of_itemEntry_eq (mem_wildcardItems h)
  · intro tag items l op r p e h
    simp only [matchSubscriptElement] at h
    exact keyedShape_of_itemEntry_eq (mem_comparisonItems h)
  · intro tag items b p e h
    simp only [matchSubscriptElement] at h
    exact keyedShape_of_itemEntry_eq (mem_existenceItems h)

/-- C5 (witness): wildcard over a one-element keyed array reports the
keyed reference in place of the index. -/
theorem c5_witness :
    keyedShape ⟨.obj 7 [("_key", .str "x")], [.key "x"]⟩ [] :=
  c5_keyed_addressing.1 0 [.obj 7 [("_key", .str "x")]] []
    ⟨.obj 7 [("_key", .str "x")], [.key "x"]⟩
    (by simp [matchPathSegment, wildcardItems, itemEntry, itemSeg, keyOf,
      List.lookup])

/-- C9: subscript elements are evaluated independently with union
semantics: the matches of a concatenation of element lists are the
concatenation of the matches, so a branch that yields nothing never
suppresses its siblings, and a data-level mismatch (wrong value kind,
missing field, out-of-range index) contributes an empty result for just
its own branch. -/
theorem c9_branch_independence :
    (∀ (els1 els2 : List SubscriptElement) (v : JSValue) (p : Path),
        matchSubscript (els1 ++ els2) v p =
          matchSubscript els1 v p ++ matchSubscript els2 v p) ∧
    (∀ (el : SubscriptElement) (els : List SubscriptElement) (v : JSValue)
        (p : Path) (m : MatchEntry), el ∈ els →
        m ∈ matchSubscriptElement el v p → m ∈ matchSubscript els v p) ∧
    (∀ (name : String) (v : JSValue) (p : Path), isRecord v = false →
        matchPathSegment (.ident name) v p = []) ∧
    (∀ (tag : Nat) (items : List JSValue) (n : Int) (p : Path),
        jsAt items n = none →
        matchSubscriptElement (.expr (.num n)) (.arr tag items) p = []) ∧
    (∀ (name : String) (tag : Nat) (fields : List (String × JSValue))
        (p : Path), fields.lookup name = none →
        matchPathSegment (.ident name) (.obj tag fields) p = []) := by
  refine ⟨?_, ?_, ?_, ?_, ?_⟩
  · intro els1 els2 v p
    induction els1 with
    | nil => simp [matchSubscript]
    | cons el rest ih => simp [matchSubscript, ih, List.append_assoc]
  · intro el els v p m hel hm
    induction els with
    | nil => simp at hel
    | cons e rest ih =>
      rw [matchSubscript]
      rcases List.mem_cons.mp hel with h | h
      · subst h; exact List.mem_append_left _ hm
      · exact List.mem_append_right _ (ih h)
  · intro name v p hv
    cases v <;> simp_all [matchPathSegment, isRecord]
  · intro tag items n p hj
    simp [matchSubscriptElement, hj]
  · intro name tag fields p hl
    simp [matchPathSegment, hl]

/-- C9 (witness): a mismatching first union branch (field `b` missing)
does not suppress the second branch on `{a: 1}`. -/
theorem c9_witness :
    (⟨.num 1, [.field "a"]⟩ : MatchEntry) ∈
      matchSubscript
        [.expr (.path (.mk none none (.ident "b"))),
          .expr (.path (.mk none none (.ident "a")))]
        (.obj 0 [("a", .num 1)]) [] :=
  c9_branch_independence.2.1 (.expr (.path (.mk none none (.ident "a"))))
    [.expr (.path (.mk none none (.ident "b"))),
      .expr (.path (.mk none none (.ident "a")))]
    (.obj 0 [("a", .num 1)]) [] ⟨.num 1, [.field "a"]⟩ (by simp)
    (by simp [matchSubscriptElement, matchPathExpression, matchPathSegment,
      List.lookup])

/-- C10: the `==` and `!=` operators compare by strict reference
identity for non-scalar operands: when both operands resolve to arrays
or objects, `==` holds exactly when the two identity tags coincide (the
very same reference), so structurally equal but distinct values compare
unequal; an array never equals an object; and a freshly built operand
array equals nothing. -/
theorem c10_reference_equality :
    (∀ (l r : ExprNode) (ctx : JSValue) (t1 t2 : Nat)
        (xs ys : List JSValue),
        evaluateOperand l ctx = .val (.arr t1 xs) →
        evaluateOperand r ctx = .val (.arr t2 ys) →
        evaluateComparison l .eq r ctx = (t1 == t2) ∧
          evaluateComparison l .ne r ctx = !(t1 == t2)) ∧
    (∀ (l r : ExprNode) (ctx : JSValue) (t1 t2 : Nat)
        (fs gs : List (String × JSValue)),
        evaluateOperand l ctx = .val (.obj t1 fs) →
        evaluateOperand r ctx = .val (.obj t2 gs) →
        evaluateComparison l .eq r ctx = (t1 == t2) ∧
          evaluateComparison l .ne r ctx = !(t1 == t2)) ∧
    (∀ (l r : ExprNode) (ctx : JSValue) (t1 t2 : Nat) (xs : List JSValue)
        (gs : List (String × JSValue)),
        evaluateOperand l ctx = .val (.arr t1 xs) →
        evaluateOperand r ctx = .val (.obj t2 gs) →
        evaluateComparison l .eq r ctx = false ∧
          evaluateComparison l .ne r ctx = true) ∧
    (∀ (l r : ExprNode) (ctx : JSValue) (vs : List JSValue),
        evaluateOperand l ctx = .fresh vs →
        evaluateComparison l .eq r ctx = false ∧
          evaluateComparison l .ne r ctx = true) := by
  refine ⟨?_, ?_, ?_, ?_⟩
  · intro l r ctx t1 t2 xs ys h1 h2
    constructor <;> simp [evaluateComparison, h1, h2, strictEq, jsStrictEq]
  · intro l r ctx t1 t2 fs gs h1 h2
    constructor <;> simp [evaluateComparison, h1, h2, strictEq, jsStrictEq]
  · intro l r ctx t1 t2 xs gs h1 h2
    constructor <;> simp [evaluateComparison, h1, h2, strictEq, jsStrictEq]
  · intro l r ctx vs h1
    constructor <;> simp [evaluateComparison, h1, strictEq]

/-- C2 (counterexample): `users[-1]` on a three-element array yields the
last element, but with result path `["users", -1]`: the array-index
segment in the yielded path is the original negative number, not the
resolved index 2. -/
theorem c2_counterexample :
    jsonMatch
        (.path (.mk (some (.mk none none (.ident "users"))) (some false)
          (.subscript [.expr (.num (-1))])))
        (.obj 0 [("users", .arr 1 [.str "a", .str "b", .str "c"])]) =
      [⟨.str "c", [.field "users", .index (-1)]⟩] := by
  simp [jsonMatch, dedupLoop, matchPathExpression, matchPathSegment,
    matchSubscript, matchSubscriptElement, jsAt, itemEntry, itemSeg, keyOf,
    List.lookup, PathMap.hasPath, PathMap.get, PathMap.entries]

/-- C2 (amended): a negative Number subscript selects the element at the
position resolved by adding the sequence length (nothing when still out
of range), and a negative Slice start selects as if the start had the
length added and were clamped; but the array-index segment recorded in
every yielded path is the original, possibly negative, number (the path
count for a slice starts at the raw start value). -/
theorem c2_amended :
    (∀ (tag : Nat) (items : List JSValue) (n : Int) (p : Path)
        (item : JSValue), n < 0 → 0 ≤ n + (items.length : Int) →
        items.get? (n + (items.length : Int)).toNat = some item →
        matchSubscriptElement (.expr (.num n)) (.arr tag items) p =
          [itemEntry item p n]) ∧
    (∀ (tag : Nat) (items : List JSValue) (s : Int) (stop : Option Int)
        (p : Path), s < 0 → 0 ≤ s + (items.length : Int) →
        matchSubscriptElement (.slice (some s) stop) (.arr tag items) p =
          wildcardItems (jsSlice items (some (s + items.length)) stop) p s) := by
  constructor
  · intro tag items n p item h1 h2 h3
    simp only [matchSubscriptElement, jsAt]
    rw [if_pos h1, if_neg (by omega), h3]
  · intro tag items s stop p h1 h2
    have hb : jsSliceBound items.length s =
        jsSliceBound items.length (s + items.length) := by
      simp only [jsSliceBound]
      rw [if_pos h1, if_neg (by omega)]
      omega
    simp only [matchSubscriptElement, jsSlice, Option.getD, hb]

/-- C2 (witness): the amended statement applied to `[-1]` on the array
`["a", "b", "c"]`. -/
theorem c2_witness :
    matchSubscriptElement (.expr (.num (-1)))
        (.arr 1 [.str "a", .str "b", .str "c"]) [] =
      [itemEntry (.str "c") [] (-1)] :=
  c2_amended.1 1 [.str "a", .str "b", .str "c"] (-1) [] (.str "c")
    (by decide) (by decide) rfl

/-- C4 (counterexample): on the non-sequence value `{x: 1}`, the
comparison `[missing != 1]` matches (the whole value is yielded) even
though the operand `missing` produces no value: the claim that such a
comparison yields nothing, including for `!=`, is false. -/
theorem c4_counterexample :
    jsonMatch
        (.path (.mk none none (.subscript [.comparison
          (.path (.mk none none (.ident "missing"))) .ne (.num 1)])))
        (.obj 0 [("x", .num 1)]) =
      [⟨.obj 0 [("x", .num 1)], []⟩] := by
  simp [jsonMatch, dedupLoop, matchPathExpression, matchPathSegment,
    matchSubscript, matchSubscriptElement, evaluateComparison,
    evaluateOperand, operandMatches, collectOperand, strictEq,
    List.lookup, PathMap.hasPath, PathMap.get, PathMap.entries]

/-- C4 (amended): a general path operand collects all its produced
values: exactly one gives that value, zero or several give a freshly
allocated array of the values; a fresh array is strictly equal to
nothing, so a comparison whose operand produces no value never matches
under `==`, `<`, `<=`, `>`, `>=`, but always matches under `!=`. -/
theorem c4_amended :
    (∀ (p : PathNode) (ctx : JSValue) (m : MatchEntry),
        isContextOperand p = false →
        matchPathExpression (some p) ctx [] = [m] →
        evaluateOperand (.path p) ctx = .val m.value) ∧
    (∀ (p : PathNode) (ctx : JSValue) (ms : List MatchEntry),
        isContextOperand p = false →
        matchPathExpression (some p) ctx [] = ms → ms.length ≠ 1 →
        evaluateOperand (.path p) ctx = .fresh (ms.map (·.value))) ∧
    (∀ (l r : ExprNode) (ctx : JSValue) (vs : List JSValue),
        evaluateOperand l ctx = .fresh vs →
        evaluateComparison l .eq r ctx = false ∧
          evaluateComparison l .ne r ctx = true ∧
          evaluateComparison l .gt r ctx = false ∧
          evaluateComparison l .lt r ctx = false ∧
          evaluateComparison l .ge r ctx = false ∧
          evaluateComparison l .le r ctx = false) ∧
    (∀ (l r : ExprNode) (ctx : JSValue) (vs : List JSValue),
        evaluateOperand r ctx = .fresh vs →
        evaluateComparison l .eq r ctx = false ∧
          evaluateComparison l .ne r ctx = true ∧
          evaluateComparison l .gt r ctx = false ∧
          evaluateComparison l .lt r ctx = false ∧
          evaluateComparison l .ge r ctx = false ∧
          evaluateComparison l .le r ctx = false) := by
  have hgen : ∀ (p : PathNode) (ctx : JSValue), isContextOperand p = false →
      evaluateOperand (.path p) ctx = operandMatches p ctx := by
    intro p ctx hspec
    obtain ⟨base, r, seg⟩ := p
    cases base with
    | some b => rw [evaluateOperand] <;> simp
    | none =>
      cases seg with
      | this => simp [isContextOperand] at hspec
      | ident name =>
        simp only [isContextOperand, Bool.or_eq_false_iff, beq_eq_false_iff_ne,
          ne_eq] at hspec
        rw [evaluateOperand, if_neg (by tauto)]
      | wildcard => rw [evaluateOperand] <;> simp
      | subscript els => rw [evaluateOperand] <;> simp
  refine ⟨?_, ?_, ?_, ?_⟩
  · intro p ctx m hspec hm
    rw [hgen p ctx hspec, operandMatches, hm, collectOperand]
  · intro p ctx ms hspec hm hlen
    rw [hgen p ctx hspec, operandMatches, hm]
    match ms, hlen with
    | [], _ => rfl
    | a :: b :: t, _ => rfl
    | [a], h => exact absurd rfl h
  · intro l r ctx vs h1
    refine ⟨?_, ?_, ?_, ?_, ?_, ?_⟩ <;>
      simp [evaluateComparison, h1, strictEq, Operand.asNum]
  · intro l r ctx vs h1
    have hs : ∀ lv, strictEq lv (.fresh vs) = false := by
      intro lv; cases lv <;> rfl
    refine ⟨?_, ?_, ?_, ?_, ?_, ?_⟩ <;>
      simp [evaluateComparison, h1, hs, Operand.asNum]

/-- C4 (witness): the operand `missing` on `{x: 1}` produces no value,
and `!=` then matches. -/
theorem c4_witness :
    evaluateComparison (.path (.mk none none (.ident "missing"))) .ne
        (.num 1) (.obj 0 [("x", .num 1)]) = true :=
  ((c4_amended.2.2.1 (.path (.mk none none (.ident "missing"))) (.num 1)
    (.obj 0 [("x", .num 1)]) []
    (by simp [evaluateOperand, operandMatches, matchPathExpression,
      matchPathSegment, collectOperand, List.lookup])).2).1

/-- C6 (counterexample): a top-level String literal is not invisible: on
the document `{a: 1}` the expression `"a"` yields the located entry for
field `a`, contradicting the claim that literals produce no located
entries. -/
theorem c6_counterexample :
    jsonMatch (.str "a") (.obj 0 [("a", .num 1)]) =
      [⟨.num 1, [.field "a"]⟩] := by
  simp [jsonMatch, List.lookup]

/-- C6 (amended): there is no "no location" marker: a top-level Number
literal acts as an array-index lookup (resolved via `Array.prototype.at`)
or an object-key lookup and yields a located entry; a top-level String
literal acts as an object-key lookup and yields a located field entry;
a bare String subscript element yields the located record field when
present and nothing on sequences. -/
theorem c6_amended :
    (∀ (s : String) (tag : Nat) (fields : List (String × JSValue))
        (v : JSValue), fields.lookup s = some v →
        jsonMatch (.str s) (.obj tag fields) = [⟨v, [.field s]⟩]) ∧
    (∀ (n : Int) (tag : Nat) (items : List JSValue) (item : JSValue),
        jsAt items n = some item →
        jsonMatch (.num n) (.arr tag items) = [itemEntry item [] n]) ∧
    (∀ (n : Int) (tag : Nat) (fields : List (String × JSValue))
        (v : JSValue), fields.lookup (intRepr n) = some v →
        jsonMatch (.num n) (.obj tag fields) = [⟨v, [.index n]⟩]) ∧
    (∀ (s : String) (tag : Nat) (fields : List (String × JSValue))
        (v : JSValue) (p : Path), fields.lookup s = some v →
        matchSubscriptElement (.expr (.str s)) (.obj tag fields) p =
          [⟨v, p ++ [.field s]⟩]) ∧
    (∀ (s : String) (tag : Nat) (items : List JSValue) (p : Path),
        matchSubscriptElement (.expr (.str s)) (.arr tag items) p = []) := by
  refine ⟨?_, ?_, ?_, ?_, ?_⟩
  · intro s tag fields v h; simp [jsonMatch, h]
  · intro n tag items item h; simp [jsonMatch, h]
  · intro n tag fields v h; simp [jsonMatch, h]
  · intro s tag fields v p h; simp [matchSubscriptElement, h]
  · intro s tag items p; simp [matchSubscriptElement]

/-- C6 (witness): the amended statement applied to the literal `"b"` on
the document with field `b`. -/
theorem c6_witness :
    jsonMatch (.str "b") (.obj 5 [("b", .str "v")]) =
      [⟨.str "v", [.field "b"]⟩] :=
  c6_amended.1 "b" 5 [("b", .str "v")] (.str "v") rfl

/-- C3 (counterexample): the union `[a, a.b, a.b]` on the document
`{a: {b: 1}}` yields the path `["a", "b"]` twice at top level: once the
prefix `["a"]` has been recorded as terminal, later candidates at
`["a", "b"]` are neither found in the set nor recorded, so the
deduplication invariant fails. -/
theorem c3_counterexample :
    jsonMatch
        (.path (.mk none none (.subscript
          [.expr (.path (.mk none none (.ident "a"))),
            .expr (.path (.mk (some (.mk none none (.ident "a")))
              (some false) (.ident "b"))),
            .expr (.path (.mk (some (.mk none none (.ident "a")))
              (some false) (.ident "b")))])))
        (.obj 0 [("a", .obj 1 [("b", .num 1)])]) =
      [⟨.obj 1 [("b", .num 1)], [.field "a"]⟩,
        ⟨.num 1, [.field "a", .field "b"]⟩,
        ⟨.num 1, [.field "a", .field "b"]⟩] := by
  simp [jsonMatch, dedupLoop, matchPathExpression, matchPathSegment,
    matchSubscript, matchSubscriptElement, List.lookup, PathMap.hasPath,
    PathMap.addPath, PathMap.get, PathMap.entries, setEntry, getKey]

/-- C3 (amended): the top-level match sequence never yields two entries
with the same non-empty path, provided no other candidate path produced
by the raw traversal is a strict prefix of it; entries whose path is
empty, or one of whose strict prefixes is also produced, may repeat
(the visited set cannot record them). -/
theorem c3_amended :
    ∀ (pn : PathNode) (v : JSValue) (p : Path), p ≠ [] →
      (∀ e ∈ matchPathExpression (some pn) v [],
        ¬(e.path <+: p ∧ e.path ≠ p)) →
      (jsonMatch (.path pn) v).countP (fun e => decide (e.path = p)) ≤ 1 := by
  intro pn v p hp hfree
  simp only [jsonMatch]
  exact dedupLoop_count (matchPathExpression (some pn) v []) (PathMap.mk [])
    p hp hfree (fun q _ _ => hasPath_pathMapEmpty q)

/-- C3 (witness): the amended statement applied to `x` on `{x: 1}` and
the path `["x"]`. -/
theorem c3_witness :
    (jsonMatch (.path (.mk none none (.ident "x"))) (.obj 0 [("x", .num 1)])).countP
        (fun e => decide (e.path = [.field "x"])) ≤ 1 :=
  c3_amended (.mk none none (.ident "x")) (.obj 0 [("x", .num 1)])
    [.field "x"] (by decide)
    (by
      intro e he
      simp [matchPathExpression, matchPathSegment, List.lookup] at he
      simp [he])

/-- C8 (counterexample): adding a strict prefix of an already-stored
path is not a no-op: after adding `["a", "b"]`, adding `["a"]` stores
`["a"]` as terminal and evicts `["a", "b"]` from the set. -/
theorem c8_counterexample :
    ((PathMap.mk []).addPath [.field "a", .field "b"]).hasPath
        [.field "a", .field "b"] = true ∧
      (((PathMap.mk []).addPath [.field "a", .field "b"]).addPath
          [.field "a"]).hasPath [.field "a"] = true ∧
      (((PathMap.mk []).addPath [.field "a", .field "b"]).addPath
          [.field "a"]).hasPath [.field "a", .field "b"] = false :=
  ⟨by decide, by decide, by decide⟩

/-- C8 (amended): the Path-Identity Set honours exact-match membership:
adding a strict extension of an already-terminal path is a no-op (one
cannot extend past a terminal), while adding a strict prefix of a
stored path stores the prefix as terminal and evicts the stored
extensions; `has` returns false on every strict prefix and strict
extension of a stored path; only exactly-added paths are reported
present; the empty path is never stored (adding it is a no-op, querying
it always false); and the three segment key spaces are pairwise
disjoint, so a field named "0" and the index 0 are never confused. -/
theorem c8_amended :
    (∀ (m : PathMap) (p q : Path), m.hasPath p = true → q ≠ [] →
        m.addPath (p ++ q) = m) ∧
    (∀ (m : PathMap) (p q : Path), q ≠ [] → m.hasPath (p ++ q) = true →
        m.hasPath p = false) ∧
    (∀ (m : PathMap) (p q : Path), q ≠ [] → m.hasPath p = true →
        m.hasPath (p ++ q) = false) ∧
    (∀ (m : PathMap) (p q : Path), p ≠ [] → q ≠ [] →
        (m.addPath p).hasPath (p ++ q) = false) ∧
    (∀ (ps : List Path) (q : Path),
        (ps.foldl PathMap.addPath (PathMap.mk [])).hasPath q = true →
        q ∈ ps) ∧
    (∀ m : PathMap, m.addPath [] = m ∧ m.hasPath [] = false) ∧
    (∀ (s k : String) (i : Int),
        getKey (.field s) ≠ getKey (.index i) ∧
        getKey (.field s) ≠ getKey (.key k) ∧
        getKey (.index i) ≠ getKey (.key k)) := by
  refine ⟨fun m p q => addPath_append_of_terminal p m q,
    fun m p q => hasPath_prefix_of_append p m q,
    ?_, fun m p q => addPath_prefix_evicts p m q, ?_, ?_, ?_⟩
  · intro m p q hq hp
    cases hpq : m.hasPath (p ++ q) with
    | false => rfl
    | true =>
      rw [hasPath_prefix_of_append p m q hq hpq] at hp
      exact hp.symm
  · intro ps q h
    rcases hasPath_foldl_mem ps q (PathMap.mk []) h with h1 | h1
    · exact h1
    · rw [hasPath_pathMapEmpty] at h1; simp at h1
  · intro m
    exact ⟨rfl, rfl⟩
  · intro s k i
    refine ⟨fun h => ?_, fun h => ?_, fun h => ?_⟩ <;>
      cases getKey_inj _ _ h

/-- C8 (witness): once `["a"]` is terminal, adding the strict extension
`["a", "b"]` is a no-op on the set. -/
theorem c8_witness :
    ((PathMap.mk []).addPath [.field "a"]).addPath
        ([.field "a"] ++ [.field "b"]) =
      (PathMap.mk []).addPath [.field "a"] :=
  c8_amended.1 ((PathMap.mk []).addPath [.field "a"]) [.field "a"]
    [.field "b"] (by decide) (by decide)

/-- C10 (witness): comparing the context array with itself via `@ == @`
compares the identity tags. -/
theorem c10_witness :
    evaluateComparison (.path (.mk none none .this)) .eq
        (.path (.mk none none .this)) (.arr 3 []) = (3 == 3) :=
  (c10_reference_equality.1 (.path (.mk none none .this))
    (.path (.mk none none .this)) (.arr 3 []) 3 3 [] []
    (by simp [evaluateOperand]) (by simp [evaluateOperand])).1

/-! Lexer-level lemmas for the round-trip analysis. -/

/-- A character differs from another whose code it misses. -/
theorem charNeLit (c d : Char) (n : Nat) (hd : d.toNat = n)
    (h : c.toNat ≠ n) : c ≠ d :=
  fun he => h (by rw [he, hd])

/-- An identifier-start character reaches the identifier branch of the
lexer: it fails every earlier test of the ladder. -/
theorem identStart_not_special {c : Char} (h : isIdentStartChar c = true) :
    isWhitespaceChar c = false ∧ c ≠ '.' ∧ c ≠ '[' ∧ c ≠ ']' ∧ c ≠ ',' ∧
      c ≠ ':' ∧ c ≠ '?' ∧ c ≠ '*' ∧ c ≠ '@' ∧ c ≠ '=' ∧ c ≠ '!' ∧ c ≠ '>' ∧
      c ≠ '<' ∧ c ≠ '-' ∧ isDigitChar c = false ∧ c ≠ dquoteChar ∧
      c ≠ squoteChar := by
  simp only [isIdentStartChar, Bool.or_eq_true, Bool.and_eq_true,
    decide_eq_true_eq] at h
  refine ⟨?_, charNeLit _ _ 46 rfl (by omega), charNeLit _ _ 91 rfl (by omega),
    charNeLit _ _ 93 rfl (by omega), charNeLit _ _ 44 rfl (by omega),
    charNeLit _ _ 58 rfl (by omega), charNeLit _ _ 63 rfl (by omega),
    charNeLit _ _ 42 rfl (by omega), charNeLit _ _ 64 rfl (by omega),
    charNeLit _ _ 61 rfl (by omega), charNeLit _ _ 33 rfl (by omega),
    charNeLit _ _ 62 rfl (by omega), charNeLit _ _ 60 rfl (by omega),
    charNeLit _ _ 45 rfl (by omega), ?_, charNeLit _ _ 34 rfl (by omega),
    charNeLit _ _ 39 rfl (by omega)⟩
  · cases hw : isWhitespaceChar c with
    | false => rfl
    | true =>
      simp only [isWhitespaceChar, Bool.or_eq_true, decide_eq_true_eq] at hw
      rcases hw with ((h1 | h1) | h1) | h1 <;> rw [h1] at h <;> revert h <;>
        decide
  · simp only [isDigitChar, Bool.and_eq_false_iff]
    simp
    omega

/-- A decimal-digit character reaches the number branch of the lexer:
it fails every earlier test of the ladder. -/
theorem digit_not_special {c : Char} (h : isDigitChar c = true) :
    isWhitespaceChar c = false ∧ c ≠ '.' ∧ c ≠ '[' ∧ c ≠ ']' ∧ c ≠ ',' ∧
      c ≠ ':' ∧ c ≠ '?' ∧ c ≠ '*' ∧ c ≠ '@' ∧ c ≠ '=' ∧ c ≠ '!' ∧ c ≠ '>' ∧
      c ≠ '<' ∧ c ≠ '-' := by
  simp only [isDigitChar, Bool.and_eq_true, decide_eq_true_eq] at h
  refine ⟨?_, charNeLit _ _ 46 rfl (by omega), charNeLit _ _ 91 rfl (by omega),
    charNeLit _ _ 93 rfl (by omega), charNeLit _ _ 44 rfl (by omega),
    charNeLit _ _ 58 rfl (by omega), charNeLit _ _ 63 rfl (by omega),
    charNeLit _ _ 42 rfl (by omega), charNeLit _ _ 64 rfl (by omega),
    charNeLit _ _ 61 rfl (by omega), charNeLit _ _ 33 rfl (by omega),
    charNeLit _ _ 62 rfl (by omega), charNeLit _ _ 60 rfl (by omega),
    charNeLit _ _ 45 rfl (by omega)⟩
  cases hw : isWhitespaceChar c with
  | false => rfl
  | true =>
    simp only [isWhitespaceChar, Bool.or_eq_true, decide_eq_true_eq] at hw
    rcases hw with ((h1 | h1) | h1) | h1 <;> rw [h1] at h <;> revert h <;>
      decide

/-- Digit characters of digits below ten lex as digits with the right
value. -/
theorem digitChar_facts : ∀ d < 10, isDigitChar (Nat.digitChar d) = true ∧
    digitVal (Nat.digitChar d) = d := by decide

/-- Lowercase hex digits below sixteen read back their value. -/
theorem hexVal_lowHexDigit : ∀ n < 16, hexVal (lowHexDigit n) = some n := by
  decide

/-- Lexing a `[`. -/
theorem tokenize_lbracket (cs : List Char) :
    tokenize ('[' :: cs) = (tokenize cs).map (Token.lbracket :: ·) := by
  rw [tokenize.eq_def]
  simp [isWhitespaceChar, isDigitChar, isIdentStartChar, dquoteChar, squoteChar]

/-- Lexing a `]`. -/
theorem tokenize_rbracket (cs : List Char) :
    tokenize (']' :: cs) = (tokenize cs).map (Token.rbracket :: ·) := by
  rw [tokenize.eq_def]
  simp [isWhitespaceChar, isDigitChar, isIdentStartChar, dquoteChar, squoteChar]

/-- Lexing a `,`. -/
theorem tokenize_comma (cs : List Char) :
    tokenize (',' :: cs) = (tokenize cs).map (Token.comma :: ·) := by
  rw [tokenize.eq_def]
  simp [isWhitespaceChar, isDigitChar, isIdentStartChar, dquoteChar, squoteChar]

/-- Lexing a `:`. -/
theorem tokenize_colon (cs : List Char) :
    tokenize (':' :: cs) = (tokenize cs).map (Token.colon :: ·) := by
  rw [tokenize.eq_def]
  simp [isWhitespaceChar, isDigitChar, isIdentStartChar, dquoteChar, squoteChar]

/-- Lexing a `?`. -/
theorem tokenize_question (cs : List Char) :
    tokenize ('?' :: cs) = (tokenize cs).map (Token.question :: ·) := by
  rw [tokenize.eq_def]
  simp [isWhitespaceChar, isDigitChar, isIdentStartChar, dquoteChar, squoteChar]

/-- Lexing a `*`. -/
theorem tokenize_star (cs : List Char) :
    tokenize ('*' :: cs) = (tokenize cs).map (Token.star :: ·) := by
  rw [tokenize.eq_def]
  simp [isWhitespaceChar, isDigitChar, isIdentStartChar, dquoteChar, squoteChar]

/-- Lexing a `@`. -/
theorem tokenize_at (cs : List Char) :
    tokenize ('@' :: cs) = (tokenize cs).map (Token.this :: ·) := by
  rw [tokenize.eq_def]
  simp [isWhitespaceChar, isDigitChar, isIdentStartChar, dquoteChar, squoteChar]

/-- Lexing a `..`: the two dots lex greedily as one token. -/
theorem tokenize_dotdot (cs : List Char) :
    tokenize ('.' :: '.' :: cs) = (tokenize cs).map (Token.dotdot :: ·) := by
  rw [tokenize.eq_def]
  simp [isWhitespaceChar]

/-- Lexing a `.` before anything that is not a dot. -/
theorem tokenize_dot (c2 : Char) (cs : List Char) (h : c2 ≠ '.') :
    tokenize ('.' :: c2 :: cs) = (tokenize (c2 :: cs)).map (Token.dot :: ·) := by
  rw [tokenize.eq_def]
  simp [isWhitespaceChar, h]

/-- Lexing a `==`. -/
theorem tokenize_eqeq (cs : List Char) :
    tokenize ('=' :: '=' :: cs) = (tokenize cs).map (Token.op .eq :: ·) := by
  rw [tokenize.eq_def]
  simp [isWhitespaceChar, isDigitChar, isIdentStartChar, dquoteChar, squoteChar]

/-- Lexing a `!=`. -/
theorem tokenize_bangeq (cs : List Char) :
    tokenize ('!' :: '=' :: cs) = (tokenize cs).map (Token.op .ne :: ·) := by
  rw [tokenize.eq_def]
  simp [isWhitespaceChar, isDigitChar, isIdentStartChar, dquoteChar, squoteChar]

/-- Lexing a `>=`. -/
theorem tokenize_ge (cs : List Char) :
    tokenize ('>' :: '=' :: cs) = (tokenize cs).map (Token.op .ge :: ·) := by
  rw [tokenize.eq_def]
  simp [isWhitespaceChar, isDigitChar, isIdentStartChar, dquoteChar, squoteChar]

/-- Lexing a `<=`. -/
theorem tokenize_le (cs : List Char) :
    tokenize ('<' :: '=' :: cs) = (tokenize cs).map (Token.op .le :: ·) := by
  rw [tokenize.eq_def]
  simp [isWhitespaceChar, isDigitChar, isIdentStartChar, dquoteChar, squoteChar]

/-- Lexing a `>` before anything that is not `=`. -/
theorem tokenize_gt (c2 : Char) (cs : List Char) (h : c2 ≠ '=') :
    tokenize ('>' :: c2 :: cs) =
      (tokenize (c2 :: cs)).map (Token.op .gt :: ·) := by
  rw [tokenize.eq_def]
  simp [isWhitespaceChar, isDigitChar, isIdentStartChar, dquoteChar,
    squoteChar, h]

/-- Lexing a `<` before anything that is not `=`. -/
theorem tokenize_lt (c2 : Char) (cs : List Char) (h : c2 ≠ '=') :
    tokenize ('<' :: c2 :: cs) =
      (tokenize (c2 :: cs)).map (Token.op .lt :: ·) := by
  rw [tokenize.eq_def]
  simp [isWhitespaceChar, isDigitChar, isIdentStartChar, dquoteChar,
    squoteChar, h]

/-- The identifier-tail scanner consumes exactly a run of identifier
characters ending at a boundary. -/
theorem lexIdentTail_append (w cs : List Char)
    (hw : ∀ c ∈ w, isIdentTailChar c = true) (hb : charBoundary cs = true) :
    lexIdentTail (w ++ cs) = (w, ⟨cs, by simp⟩) := by
  induction w with
  | nil =>
    cases cs with
    | nil => rfl
    | cons c cs2 =>
      have hc : isIdentTailChar c = false := by
        simp only [charBoundary, Bool.and_eq_true, Bool.not_eq_true] at hb
        simpa using hb.2
      simp [lexIdentTail, hc]
  | cons c w ih =>
    have hc : isIdentTailChar c = true := hw c (by simp)
    have ihw := ih (fun d hd => hw d (by simp [hd]))
    simp [lexIdentTail, hc, ihw]

/-- The digit scanner consumes exactly a run of digit characters ending
at a boundary, folding up their value. -/
theorem lexDigits_append (ds : List Nat) (acc : Nat) (cs : List Char)
    (hd : ∀ d ∈ ds, d < 10) (hb : charBoundary cs = true) :
    lexDigits acc (ds.map Nat.digitChar ++ cs) =
      (ds.foldl (fun a d => a * 10 + d) acc, ⟨cs, by simp⟩) := by
  induction ds generalizing acc with
  | nil =>
    cases cs with
    | nil => rfl
    | cons c cs2 =>
      have hc : isDigitChar c = false := by
        simp only [charBoundary, Bool.and_eq_true, Bool.not_eq_true] at hb
        simpa using hb.1
      simp [lexDigits, hc]
  | cons d ds ih =>
    have hd10 : d < 10 := hd d (by simp)
    have h1 : isDigitChar (Nat.digitChar d) = true := (digitChar_facts d hd10).1
    have h2 : digitVal (Nat.digitChar d) = d := (digitChar_facts d hd10).2
    have ihw := ih (acc * 10 + d) (fun e he => hd e (by simp [he]))
    simp [lexDigits, h1, h2, ihw]

/-- Reading the decimal digits of a number starting from the leading
digit gives the number back. -/
theorem natFromDigits_cons (d : Nat) (ds : List Nat) :
    natFromDigits (d :: ds) = ds.foldl (fun a e => a * 10 + e) d := by
  simp [natFromDigits]

/-- Lexing the decimal rendering of a natural number at a boundary. -/
theorem tokenize_natChars (m : Nat) (cs : List Char)
    (hb : charBoundary cs = true) :
    tokenize ((natDecimalDigits m).map Nat.digitChar ++ cs) =
      (tokenize cs).map (Token.num (m : Int) :: ·) := by
  cases hds : natDecimalDigits m with
  | nil => exact absurd hds (natDecimalDigits_ne_nil m)
  | cons d ds =>
    have hd10 : d < 10 := natDecimalDigits_lt m d (by rw [hds]; simp)
    have h1 : isDigitChar (Nat.digitChar d) = true := (digitChar_facts d hd10).1
    have h2 : digitVal (Nat.digitChar d) = d := (digitChar_facts d hd10).2
    obtain ⟨f1, f2, f3, f4, f5, f6, f7, f8, f9, f10, f11, f12, f13, f14⟩ :=
      digit_not_special h1
    have hfold := lexDigits_append ds d cs
      (fun e he => natDecimalDigits_lt m e (by rw [hds]; simp [he])) hb
    have hval : ds.foldl (fun a e => a * 10 + e) d = m := by
      rw [← natFromDigits_cons, ← hds, natFromDigits_natDecimalDigits]
    rw [tokenize.eq_def]
    simp [f1, f2, f3, f4, f5, f6, f7, f8, f9, f10, f11, f12, f13, f14, h1, h2,
      hfold, hval]

/-- Lexing the decimal rendering of an integer at a boundary. -/
theorem tokenize_intChars (n : Int) (cs : List Char)
    (hb : charBoundary cs = true) :
    tokenize (intChars n ++ cs) = (tokenize cs).map (Token.num n :: ·) := by
  by_cases hneg : n < 0
  · have hdata : intChars n =
        '-' :: (natDecimalDigits (-n).toNat).map Nat.digitChar := by
      simp [intChars, intRepr, hneg]
    cases hds : natDecimalDigits (-n).toNat with
    | nil => exact absurd hds (natDecimalDigits_ne_nil _)
    | cons d ds =>
      have hd10 : d < 10 := natDecimalDigits_lt _ d (by rw [hds]; simp)
      have h1 : isDigitChar (Nat.digitChar d) = true :=
        (digitChar_facts d hd10).1
      have h2 : digitVal (Nat.digitChar d) = d := (digitChar_facts d hd10).2
      have hfold := lexDigits_append ds d cs
        (fun e he => natDecimalDigits_lt _ e (by rw [hds]; simp [he])) hb
      have hval : ds.foldl (fun a e => a * 10 + e) d = (-n).toNat := by
        rw [← natFromDigits_cons, ← hds, natFromDigits_natDecimalDigits]
      rw [hdata, hds, tokenize.eq_def]
      simp [isWhitespaceChar, dquoteChar, squoteChar, h1, h2, hfold, hval]
      have hmax : (-(-n ⊔ 0) : Int) = n := by omega
      simp only [hmax]
  · have hdata : intChars n = (natDecimalDigits n.toNat).map Nat.digitChar := by
      simp [intChars, intRepr, hneg]
    have hn : ((n.toNat : Nat) : Int) = n := Int.toNat_of_nonneg (by omega)
    rw [hdata, ← hn]
    exact tokenize_natChars n.toNat cs hb

/-- Lexing a bare identifier at a boundary: a name that is not `$`,
`true` or `false` lexes as one identifier token. -/
theorem tokenize_ident (c0 : Char) (w cs : List Char)
    (h0 : isIdentStartChar c0 = true)
    (hw : ∀ c ∈ w, isIdentTailChar c = true)
    (hb : charBoundary cs = true)
    (hbad : badIdentName ⟨c0 :: w⟩ = false) :
    tokenize (c0 :: (w ++ cs)) =
      (tokenize cs).map (Token.ident ⟨c0 :: w⟩ :: ·) := by
  obtain ⟨f1, f2, f3, f4, f5, f6, f7, f8, f9, f10, f11, f12, f13, f14, f15,
    f16, f17⟩ := identStart_not_special h0
  have hnb : ¬((⟨c0 :: w⟩ : String) = "$") ∧
      ¬((⟨c0 :: w⟩ : String) = "true") ∧
      ¬((⟨c0 :: w⟩ : String) = "false") := by
    simp only [badIdentName, Bool.or_eq_false_iff, decide_eq_false_iff_not]
      at hbad
    exact ⟨hbad.1.1, hbad.1.2, hbad.2⟩
  have hlex := lexIdentTail_append w cs hw hb
  rw [tokenize.eq_def]
  simp [f1, f2, f3, f4, f5, f6, f7, f8, f9, f10, f11, f12, f13, f14, f15, f16,
    f17, h0, hlex, hnb.1, hnb.2.1, hnb.2.2]

/-- Decoding a short escape sequence. -/
theorem lexEscapeSeq_short (e d : Char) (tail : List Char) (hne : ¬e = 'u')
    (hesc : escShortChar e = some d) :
    lexEscapeSeq (e :: tail) = some (d, ⟨tail, by simp⟩) := by
  rw [lexEscapeSeq]
  simp only [if_neg hne, hesc]

/-- Decoding the `u` escape of a control character. -/
theorem lexUniEscape_control (c : Char) (tail : List Char)
    (hlt : c.toNat < 32) :
    lexUniEscape ('0' :: '0' :: lowHexDigit (c.toNat / 16) ::
        lowHexDigit (c.toNat % 16) :: tail) =
      some (c, ⟨tail, by simp only [List.length_cons]; omega⟩) := by
  have hhi := hexVal_lowHexDigit (c.toNat / 16) (by omega)
  have hlo := hexVal_lowHexDigit (c.toNat % 16) (by omega)
  have hz : hexVal '0' = some 0 := by decide
  have hs1 : ¬(55296 ≤ c.toNat ∧ c.toNat ≤ 56319) := by omega
  have hs2 : ¬(56320 ≤ c.toNat ∧ c.toNat ≤ 57343) := by omega
  rw [lexUniEscape]
  simp only [hz, hhi, hlo]
  have hdm : c.toNat / 16 * 16 + c.toNat % 16 = c.toNat := by omega
  simp only [Nat.zero_mul, Nat.zero_add, Nat.mul_zero, Nat.add_zero]
  simp [hdm, hs1, hs2, Char.ofNat_toNat]

/-- Decoding the whole `u` escape sequence of a control character. -/
theorem lexEscapeSeq_u (c : Char) (tail : List Char) (hlt : c.toNat < 32) :
    lexEscapeSeq ('u' :: '0' :: '0' :: lowHexDigit (c.toNat / 16) ::
        lowHexDigit (c.toNat % 16) :: tail) =
      some (c, ⟨tail, by simp only [List.length_cons]; omega⟩) := by
  rw [lexEscapeSeq]
  simp [lexUniEscape_control c tail hlt]

/-- One raw character inside a quoted literal. -/
theorem escStep_raw (term c : Char) (h1 : ¬c = term) (h2 : ¬c = backslashChar)
    (tail content rest : List Char) (h : rest.length < tail.length)
    (hr : lexQuoted term tail = some (content, ⟨rest, h⟩)) :
    ∃ pf : rest.length < (c :: tail).length,
      lexQuoted term (c :: tail) = some (c :: content, ⟨rest, pf⟩) := by
  refine ⟨by simp only [List.length_cons]; omega, ?_⟩
  rw [lexQuoted]
  simp only [if_neg h1, if_neg h2, hr]

/-- One short escape sequence inside a quoted literal. -/
theorem escStep_short (term e d : Char) (hterm : ¬backslashChar = term)
    (hne : ¬e = 'u') (hesc : escShortChar e = some d)
    (tail content rest : List Char) (h : rest.length < tail.length)
    (hr : lexQuoted term tail = some (content, ⟨rest, h⟩)) :
    ∃ pf : rest.length < (backslashChar :: e :: tail).length,
      lexQuoted term (backslashChar :: e :: tail) =
        some (d :: content, ⟨rest, pf⟩) := by
  refine ⟨by simp only [List.length_cons]; omega, ?_⟩
  rw [lexQuoted]
  simp only [if_neg hterm, if_pos rfl, lexEscapeSeq_short e d tail hne hesc, hr]
  simp

/-- One `u` escape of a control character inside a quoted literal. -/
theorem escStep_u (term c : Char) (hterm : ¬backslashChar = term)
    (hlt : c.toNat < 32)
    (tail content rest : List Char) (h : rest.length < tail.length)
    (hr : lexQuoted term tail = some (content, ⟨rest, h⟩)) :
    ∃ pf,
      lexQuoted term (backslashChar :: 'u' :: '0' :: '0' ::
          lowHexDigit (c.toNat / 16) :: lowHexDigit (c.toNat % 16) :: tail) =
        some (c :: content, ⟨rest, pf⟩) := by
  refine ⟨by simp only [List.length_cons]; omega, ?_⟩
  rw [lexQuoted]
  simp only [if_neg hterm, if_pos rfl, lexEscapeSeq_u c tail hlt, hr]
  simp

/-- One JSON-escaped character inside a double-quoted literal. -/
theorem jsonEscStep (c : Char) (tail content rest : List Char)
    (h : rest.length < tail.length)
    (hr : lexQuoted dquoteChar tail = some (content, ⟨rest, h⟩)) :
    ∃ pf : rest.length < (jsonEscapeChar c ++ tail).length,
      lexQuoted dquoteChar (jsonEscapeChar c ++ tail) =
        some (c :: content, ⟨rest, pf⟩) := by
  by_cases h1 : c = dquoteChar
  · subst h1
    rw [show jsonEscapeChar dquoteChar = [backslashChar, dquoteChar] from
      by decide]
    exact escStep_short dquoteChar dquoteChar dquoteChar (by decide) (by decide)
      (by decide) tail content rest h hr
  · by_cases h2 : c = backslashChar
    · subst h2
      rw [show jsonEscapeChar backslashChar = [backslashChar, backslashChar]
        from by decide]
      exact escStep_short dquoteChar backslashChar backslashChar (by decide)
        (by decide) (by decide) tail content rest h hr
    · by_cases h3 : c = Char.ofNat 8
      · subst h3
        rw [show jsonEscapeChar (Char.ofNat 8) = [backslashChar, 'b'] from
          by decide]
        exact escStep_short dquoteChar 'b' (Char.ofNat 8) (by decide)
          (by decide) (by decide) tail content rest h hr
      · by_cases h4 : c = Char.ofNat 9
        · subst h4
          rw [show jsonEscapeChar (Char.ofNat 9) = [backslashChar, 't'] from
            by decide]
          exact escStep_short dquoteChar 't' (Char.ofNat 9) (by decide)
            (by decide) (by decide) tail content rest h hr
        · by_cases h5 : c = Char.ofNat 10
          · subst h5
            rw [show jsonEscapeChar (Char.ofNat 10) = [backslashChar, 'n'] from
              by decide]
            exact escStep_short dquoteChar 'n' (Char.ofNat 10) (by decide)
              (by decide) (by decide) tail content rest h hr
          · by_cases h6 : c = Char.ofNat 12
            · subst h6
              rw [show jsonEscapeChar (Char.ofNat 12) = [backslashChar, 'f']
                from by decide]
              exact escStep_short dquoteChar 'f' (Char.ofNat 12) (by decide)
                (by decide) (by decide) tail content rest h hr
            · by_cases h7 : c = Char.ofNat 13
              · subst h7
                rw [show jsonEscapeChar (Char.ofNat 13) = [backslashChar, 'r']
                  from by decide]
                exact escStep_short dquoteChar 'r' (Char.ofNat 13) (by decide)
                  (by decide) (by decide) tail content rest h hr
              · by_cases h8 : c.toNat < 32
                · rw [show jsonEscapeChar c = [backslashChar, 'u', '0', '0',
                      lowHexDigit (c.toNat / 16), lowHexDigit (c.toNat % 16)]
                    from by
                      rw [jsonEscapeChar]
                      simp only [if_neg h1, if_neg h2, if_neg h3, if_neg h4,
                        if_neg h5, if_neg h6, if_neg h7, if_pos h8]]
                  exact escStep_u dquoteChar c (by decide) h8 tail content rest
                    h hr
                · rw [show jsonEscapeChar c = [c] from by
                      rw [jsonEscapeChar]
                      simp only [if_neg h1, if_neg h2, if_neg h3, if_neg h4,
                        if_neg h5, if_neg h6, if_neg h7, if_neg h8]]
                  exact escStep_raw dquoteChar c h1 h2 tail content rest h hr

/-- One identifier-escaped character inside a single-quoted literal. -/
theorem identEscStep (c : Char) (tail content rest : List Char)
    (h : rest.length < tail.length)
    (hr : lexQuoted squoteChar tail = some (content, ⟨rest, h⟩)) :
    ∃ pf : rest.length < (identEscapeChar c ++ tail).length,
      lexQuoted squoteChar (identEscapeChar c ++ tail) =
        some (c :: content, ⟨rest, pf⟩) := by
  by_cases h0 : c = squoteChar
  · subst h0
    rw [show identEscapeChar squoteChar = [backslashChar, squoteChar] from
      by decide]
    exact escStep_short squoteChar squoteChar squoteChar (by decide) (by decide)
      (by decide) tail content rest h hr
  · by_cases h1 : c = dquoteChar
    · subst h1
      rw [show identEscapeChar dquoteChar = [dquoteChar] from by decide]
      exact escStep_raw squoteChar dquoteChar (by decide) (by decide)
        tail content rest h hr
    · have hid : identEscapeChar c = jsonEscapeChar c := by
        rw [identEscapeChar]
        simp only [if_neg h0, if_neg h1]
      rw [hid]
      by_cases h2 : c = backslashChar
      · subst h2
        rw [show jsonEscapeChar backslashChar = [backslashChar, backslashChar]
          from by decide]
        exact escStep_short squoteChar backslashChar backslashChar (by decide)
          (by decide) (by decide) tail content rest h hr
      · by_cases h3 : c = Char.ofNat 8
        · subst h3
          rw [show jsonEscapeChar (Char.ofNat 8) = [backslashChar, 'b'] from
            by decide]
          exact escStep_short squoteChar 'b' (Char.ofNat 8) (by decide)
            (by decide) (by decide) tail content rest h hr
        · by_cases h4 : c = Char.ofNat 9
          · subst h4
            rw [show jsonEscapeChar (Char.ofNat 9) = [backslashChar, 't'] from
              by decide]
            exact escStep_short squoteChar 't' (Char.ofNat 9) (by decide)
              (by decide) (by decide) tail content rest h hr
          · by_cases h5 : c = Char.ofNat 10
            · subst h5
              rw [show jsonEscapeChar (Char.ofNat 10) = [backslashChar, 'n']
                from by decide]
              exact escStep_short squoteChar 'n' (Char.ofNat 10) (by decide)
                (by decide) (by decide) tail content rest h hr
            · by_cases h6 : c = Char.ofNat 12
              · subst h6
                rw [show jsonEscapeChar (Char.ofNat 12) = [backslashChar, 'f']
                  from by decide]
                exact escStep_short squoteChar 'f' (Char.ofNat 12) (by decide)
                  (by decide) (by decide) tail content rest h hr
              · by_cases h7 : c = Char.ofNat 13
                · subst h7
                  rw [show jsonEscapeChar (Char.ofNat 13) = [backslashChar, 'r']
                    from by decide]
                  exact escStep_short squoteChar 'r' (Char.ofNat 13) (by decide)
                    (by decide) (by decide) tail content rest h hr
                · by_cases h8 : c.toNat < 32
                  · rw [show jsonEscapeChar c = [backslashChar, 'u', '0', '0',
                        lowHexDigit (c.toNat / 16), lowHexDigit (c.toNat % 16)]
                      from by
                        rw [jsonEscapeChar]
                        simp only [if_neg h1, if_neg h2, if_neg h3, if_neg h4,
                          if_neg h5, if_neg h6, if_neg h7, if_pos h8]]
                    exact escStep_u squoteChar c (by decide) h8 tail content
                      rest h hr
                  · rw [show jsonEscapeChar c = [c] from by
                        rw [jsonEscapeChar]
                        simp only [if_neg h1, if_neg h2, if_neg h3, if_neg h4,
                          if_neg h5, if_neg h6, if_neg h7, if_neg h8]]
                    exact escStep_raw squoteChar c h0 h2 tail content rest h hr

/-- A plain-pair result of the quoted lexer lifts to the dependent
form. -/
theorem lexQuoted_of_P (term : Char) (X content rest : List Char)
    (h : lexQuotedP term X = some (content, rest)) :
    ∃ pf, lexQuoted term X = some (content, ⟨rest, pf⟩) := by
  cases hq : lexQuoted term X with
  | none => simp [lexQuotedP, hq] at h
  | some r =>
    obtain ⟨cont, rv, rp⟩ := r
    simp [lexQuotedP, hq] at h
    obtain ⟨h1, h2⟩ := h
    subst h1
    subst h2
    exact ⟨rp, rfl⟩

/-- The quoted lexer undoes JSON escaping up to a closing double
quote. -/
theorem lexQuotedP_flat_json (s cs : List Char) :
    lexQuotedP dquoteChar (s.flatMap jsonEscapeChar ++ dquoteChar :: cs) =
      some (s, cs) := by
  induction s with
  | nil =>
    simp only [List.flatMap_nil, List.nil_append]
    rw [lexQuotedP, lexQuoted.eq_def]
    simp
  | cons c s ih =>
    obtain ⟨pf, hsub⟩ := lexQuoted_of_P _ _ _ _ ih
    obtain ⟨pf2, hh⟩ := jsonEscStep c _ s cs pf hsub
    have hP : lexQuotedP dquoteChar
        (jsonEscapeChar c ++ (s.flatMap jsonEscapeChar ++ dquoteChar :: cs)) =
        some (c :: s, cs) := by
      simp [lexQuotedP, hh]
    simpa [List.flatMap_cons, List.append_assoc] using hP

/-- The quoted lexer undoes identifier escaping up to a closing single
quote. -/
theorem lexQuotedP_flat_ident (s cs : List Char) :
    lexQuotedP squoteChar (s.flatMap identEscapeChar ++ squoteChar :: cs) =
      some (s, cs) := by
  induction s with
  | nil =>
    simp only [List.flatMap_nil, List.nil_append]
    rw [lexQuotedP, lexQuoted.eq_def]
    simp
  | cons c s ih =>
    obtain ⟨pf, hsub⟩ := lexQuoted_of_P _ _ _ _ ih
    obtain ⟨pf2, hh⟩ := identEscStep c _ s cs pf hsub
    have hP : lexQuotedP squoteChar
        (identEscapeChar c ++
          (s.flatMap identEscapeChar ++ squoteChar :: cs)) =
        some (c :: s, cs) := by
      simp [lexQuotedP, hh]
    simpa [List.flatMap_cons, List.append_assoc] using hP

/-- Lexing a JSON string literal. -/
theorem tokenize_string (s cs : List Char) :
    tokenize (jsonStringifyString s ++ cs) =
      (tokenize cs).map (Token.str ⟨s⟩ :: ·) := by
  obtain ⟨pf, hq⟩ :=
    lexQuoted_of_P _ _ _ _ (lexQuotedP_flat_json s cs)
  have hform : jsonStringifyString s ++ cs =
      dquoteChar :: (s.flatMap jsonEscapeChar ++ dquoteChar :: cs) := by
    simp [jsonStringifyString]
  rw [hform, tokenize.eq_def]
  simp only [dquoteChar] at hq ⊢
  simp [isWhitespaceChar, isDigitChar, squoteChar, hq]

/-- Lexing an escaped (single-quoted) identifier. -/
theorem tokenize_escIdent (s cs : List Char) :
    tokenize (escapeIdentifier s ++ cs) =
      (tokenize cs).map (Token.ident ⟨s⟩ :: ·) := by
  obtain ⟨pf, hq⟩ :=
    lexQuoted_of_P _ _ _ _ (lexQuotedP_flat_ident s cs)
  have hform : escapeIdentifier s ++ cs =
      squoteChar :: (s.flatMap identEscapeChar ++ squoteChar :: cs) := by
    simp [escapeIdentifier]
  rw [hform, tokenize.eq_def]
  simp only [squoteChar] at hq ⊢
  simp [isWhitespaceChar, isDigitChar, dquoteChar, hq]

/-- Head character classes of a rendered segment. -/
theorem stringifySegment_head (seg : SegmentNode) :
    ∃ c t, stringifySegment seg = c :: t ∧
      (c = '@' ∨ c = '*' ∨ c = '[' ∨ isIdentStartChar c = true ∨
        c = squoteChar) := by
  cases seg with
  | this => exact ⟨'@', [], by simp [stringifySegment], by simp⟩
  | wildcard => exact ⟨'*', [], by simp [stringifySegment], by simp⟩
  | subscript els =>
    refine ⟨'[', stringifyElements els ++ [']'], by simp [stringifySegment],
      by simp⟩
  | ident name =>
    by_cases hv : isValidIdent name.data = true
    · cases hd : name.data with
      | nil => rw [hd] at hv; exact absurd hv (by decide)
      | cons c0 w =>
        rw [hd] at hv
        refine ⟨c0, w, ?_, ?_⟩
        · rw [stringifySegment, hd]
          simp [hv]
        · simp only [isValidIdent, Bool.and_eq_true] at hv
          simp [hv.1]
    · refine ⟨squoteChar, name.data.flatMap identEscapeChar ++ [squoteChar],
        ?_, by simp⟩
      rw [stringifySegment]
      simp [hv, escapeIdentifier]

/-- Head character classes of a rendered path; in particular the
rendering of a present path is never empty. -/
theorem stringifyPath_head :
    ∀ (n : Nat) (p : PathNode), sizeOf p ≤ n →
      ∃ c t, stringifyPath (some p) = c :: t ∧
        (c = '@' ∨ c = '*' ∨ c = '[' ∨ isIdentStartChar c = true ∨
          c = squoteChar) := by
  intro n
  induction n using Nat.strong_induction_on with
  | _ n ih =>
    intro p hp
    obtain ⟨base, r, seg⟩ := p
    cases base with
    | none =>
      obtain ⟨c, t, hrender, hclass⟩ := stringifySegment_head seg
      exact ⟨c, t, by simp [stringifyPath, hrender], hclass⟩
    | some b =>
      have hblt : sizeOf b < n := by
        have : sizeOf b < sizeOf (PathNode.mk (some b) r seg) := by
          simp
          omega
        omega
      obtain ⟨c, t, hrender, hclass⟩ := ih (sizeOf b) hblt b (Nat.le_refl _)
      rw [stringifyPath]
      simp only [hrender]
      rw [if_neg (by simp : ¬(c :: t : List Char) = [])]
      by_cases h2 : r = some true
      · rw [if_pos h2]
        exact ⟨c, t ++ '.' :: '.' :: stringifySegment seg, by simp, hclass⟩
      · rw [if_neg h2]
        by_cases h3 : headIsLBracket (stringifySegment seg) = true
        · rw [if_pos h3]
          exact ⟨c, t ++ stringifySegment seg, by simp, hclass⟩
        · rw [if_neg h3]
          exact ⟨c, t ++ '.' :: stringifySegment seg, by simp, hclass⟩

/-- A rendered segment starts with `[` exactly when it is a
subscript. -/
theorem headIsLBracket_segment (seg : SegmentNode) :
    headIsLBracket (stringifySegment seg) = segIsSubscript seg := by
  cases seg with
  | this =>
    have h : stringifySegment SegmentNode.this = ['@'] := by
      simp [stringifySegment]
    rw [h]
    decide
  | wildcard =>
    have h : stringifySegment SegmentNode.wildcard = ['*'] := by
      simp [stringifySegment]
    rw [h]
    decide
  | subscript els =>
    have h : stringifySegment (SegmentNode.subscript els) =
        '[' :: (stringifyElements els ++ [']']) := by
      simp [stringifySegment]
    rw [h]
    simp [headIsLBracket, segIsSubscript]
  | ident name =>
    by_cases hv : isValidIdent name.data = true
    · cases hd : name.data with
      | nil => rw [hd] at hv; exact absurd hv (by decide)
      | cons c0 w =>
        rw [hd] at hv
        have h : stringifySegment (SegmentNode.ident name) = c0 :: w := by
          rw [stringifySegment, hd]
          simp [hv]
        rw [h]
        simp only [isValidIdent, Bool.and_eq_true] at hv
        have hne := (identStart_not_special hv.1).2.2.1
        simp [headIsLBracket, segIsSubscript, hne]
    · have h : stringifySegment (SegmentNode.ident name) =
          squoteChar :: (name.data.flatMap identEscapeChar ++
            [squoteChar]) := by
        rw [stringifySegment]
        simp [hv, escapeIdentifier]
      rw [h]
      simp [headIsLBracket, segIsSubscript,
        (by decide : ¬squoteChar = '[')]

/-- A rendered expression is nonempty and never starts with `=` or a
dot. -/
theorem stringifyExpression_head (e : ExprNode) :
    ∃ c t, stringifyExpression e = c :: t ∧ ¬c = '=' := by
  cases e with
  | num n =>
    by_cases hneg : n < 0
    · refine ⟨'-', (natDecimalDigits (-n).toNat).map Nat.digitChar, ?_,
        by decide⟩
      rw [stringifyExpression]
      simp [intChars, intRepr, hneg]
    · cases hds : natDecimalDigits n.toNat with
      | nil => exact absurd hds (natDecimalDigits_ne_nil _)
      | cons d ds =>
        have hd10 : d < 10 := natDecimalDigits_lt _ d (by rw [hds]; simp)
        refine ⟨Nat.digitChar d, ds.map Nat.digitChar, ?_, ?_⟩
        · rw [stringifyExpression]
          simp [intChars, intRepr, hneg, hds]
        · have : ∀ e < 10, ¬Nat.digitChar e = '=' := by decide
          exact this d hd10
  | str s =>
    refine ⟨dquoteChar, s.data.flatMap jsonEscapeChar ++ [dquoteChar], ?_,
      by decide⟩
    rw [stringifyExpression]
    simp [jsonStringifyString]
  | path p =>
    obtain ⟨c, t, hrender, hclass⟩ :=
      stringifyPath_head (sizeOf p) p (Nat.le_refl _)
    refine ⟨c, t, by rw [stringifyExpression]; exact hrender, ?_⟩
    rcases hclass with h | h | h | h | h
    · subst h; decide
    · subst h; decide
    · subst h; decide
    · exact (identStart_not_special h).2.2.2.2.2.2.2.2.2.1
    · subst h; decide

/-- A segment-head character is not a dot. -/
theorem segHead_ne_dot {c : Char}
    (h : c = '@' ∨ c = '*' ∨ c = '[' ∨ isIdentStartChar c = true ∨
      c = squoteChar) : ¬c = '.' := by
  rcases h with h | h | h | h | h
  · subst h; decide
  · subst h; decide
  · subst h; decide
  · exact (identStart_not_special h).2.1
  · subst h; decide

/-- Rendering and then lexing an AST piece produces exactly its token
sequence before the tokens of the rest, whenever the rest starts at a
character boundary and the piece holds no bad identifier name. -/
theorem tokenize_render (n : Nat) :
    (∀ e : ExprNode, sizeOf e ≤ n → noBadExpr e = true →
      ∀ cs, charBoundary cs = true →
        tokenize (stringifyExpression e ++ cs) =
          (tokenize cs).map (tokensOfExpr e ++ ·)) ∧
    (∀ p : PathNode, sizeOf p ≤ n → noBadPath p = true →
      ∀ cs, charBoundary cs = true →
        tokenize (stringifyPath (some p) ++ cs) =
          (tokenize cs).map (tokensOfPath p ++ ·)) ∧
    (∀ seg : SegmentNode, sizeOf seg ≤ n → noBadSeg seg = true →
      ∀ cs, charBoundary cs = true →
        tokenize (stringifySegment seg ++ cs) =
          (tokenize cs).map (tokensOfSeg seg ++ ·)) ∧
    (∀ els : List SubscriptElement, sizeOf els ≤ n → noBadEls els = true →
      ∀ cs, charBoundary cs = true →
        tokenize (stringifyElements els ++ cs) =
          (tokenize cs).map (tokensOfEls els ++ ·)) ∧
    (∀ el : SubscriptElement, sizeOf el ≤ n → noBadEl el = true →
      ∀ cs, charBoundary cs = true →
        tokenize (stringifySubscriptElement el ++ cs) =
          (tokenize cs).map (tokensOfEl el ++ ·)) := by
  induction n using Nat.strong_induction_on with
  | _ n ih =>
    refine ⟨?_, ?_, ?_, ?_, ?_⟩
    · -- expressions
      intro e he hnb cs hb
      cases e with
      | num m =>
        rw [show stringifyExpression (.num m) = intChars m from
          by simp [stringifyExpression]]
        rw [tokenize_intChars m cs hb]
        simp [tokensOfExpr]
      | str s =>
        cases s with
        | mk sd =>
          rw [show stringifyExpression (.str ⟨sd⟩) = jsonStringifyString sd
            from by simp [stringifyExpression]]
          rw [tokenize_string sd cs]
          simp [tokensOfExpr]
      | path p =>
        have hp : sizeOf p < n := by
          have : sizeOf p < sizeOf (ExprNode.path p) := by simp_arith
          omega
        rw [show stringifyExpression (.path p) = stringifyPath (some p) from
          by simp [stringifyExpression]]
        rw [show tokensOfExpr (.path p) = tokensOfPath p from
          by simp [tokensOfExpr]]
        exact (ih (sizeOf p) hp).2.1 p (Nat.le_refl _)
          (by simpa [noBadExpr] using hnb) cs hb
    · -- paths
      intro p hp hnb cs hb
      obtain ⟨base, r, seg⟩ := p
      have hseglt : sizeOf seg < n := by
        have : sizeOf seg < sizeOf (PathNode.mk base r seg) := by simp_arith
        omega
      cases base with
      | none =>
        rw [show stringifyPath (some (.mk none r seg)) = stringifySegment seg
          from by simp [stringifyPath]]
        rw [show tokensOfPath (.mk none r seg) = tokensOfSeg seg from
          by simp [tokensOfPath]]
        exact (ih (sizeOf seg) hseglt).2.2.1 seg (Nat.le_refl _)
          (by simpa [noBadPath] using hnb) cs hb
      | some b =>
        have hblt : sizeOf b < n := by
          have : sizeOf b < sizeOf (PathNode.mk (some b) r seg) := by
            simp_arith
          omega
        have hnbb : noBadPath b = true ∧ noBadSeg seg = true := by
          simpa [noBadPath] using hnb
        have IHb := (ih (sizeOf b) hblt).2.1 b (Nat.le_refl _) hnbb.1
        have IHseg := (ih (sizeOf seg) hseglt).2.2.1 seg (Nat.le_refl _)
          hnbb.2
        obtain ⟨cb, tb, hbr, hbcl⟩ := stringifyPath_head (sizeOf b) b
          (Nat.le_refl _)
        obtain ⟨cg, tg, hgr, hgcl⟩ := stringifySegment_head seg
        by_cases h2 : r = some true
        · have hrender : stringifyPath (some (.mk (some b) r seg)) =
              stringifyPath (some b) ++ '.' :: '.' :: stringifySegment seg
              := by
            rw [stringifyPath]
            simp only [hbr]
            rw [if_neg (by simp), if_pos h2]
          rw [hrender]
          simp only [List.append_assoc, List.cons_append]
          rw [IHb ('.' :: '.' :: (stringifySegment seg ++ cs)) rfl]
          rw [tokenize_dotdot]
          rw [IHseg cs hb]
          simp [tokensOfPath, h2, Option.map_map, Function.comp,
            List.append_assoc]
          try rfl
        · have hnotsub :
              headIsLBracket (stringifySegment seg) = segIsSubscript seg :=
            headIsLBracket_segment seg
          by_cases h3 : segIsSubscript seg = true
          · have hrender : stringifyPath (some (.mk (some b) r seg)) =
                stringifyPath (some b) ++ stringifySegment seg := by
              rw [stringifyPath]
              simp only [hbr]
              rw [if_neg (by simp), if_neg h2, if_pos (by
                rw [hnotsub]
                exact h3)]
            have hcg : cg = '[' := by
              have hbr2 := hnotsub
              rw [hgr, h3] at hbr2
              simpa [headIsLBracket] using hbr2
            rw [hrender]
            simp only [List.append_assoc]
            rw [IHb (stringifySegment seg ++ cs) (by
              rw [hgr, hcg]
              rfl)]
            rw [IHseg cs hb]
            simp [tokensOfPath, h2, h3, Option.map_map, Function.comp,
              List.append_assoc]
            try rfl
          · have hrender : stringifyPath (some (.mk (some b) r seg)) =
                stringifyPath (some b) ++ '.' :: stringifySegment seg := by
              rw [stringifyPath]
              simp only [hbr]
              rw [if_neg (by simp), if_neg h2, if_neg (by
                rw [hnotsub]
                exact h3)]
            rw [hrender]
            simp only [List.append_assoc, List.cons_append]
            rw [IHb ('.' :: (stringifySegment seg ++ cs)) rfl]
            rw [hgr]
            simp only [List.cons_append]
            rw [tokenize_dot cg (tg ++ cs) (segHead_ne_dot hgcl)]
            rw [show (cg :: (tg ++ cs)) = (cg :: tg) ++ cs from by simp,
              ← hgr]
            rw [IHseg cs hb]
            simp [tokensOfPath, h2, h3, Option.map_map, Function.comp,
              List.append_assoc]
            try rfl
    · -- segments
      intro seg hs hnb cs hb
      cases seg with
      | this =>
        rw [show stringifySegment SegmentNode.this ++ cs = '@' :: cs from
          by simp [stringifySegment]]
        rw [tokenize_at]
        simp [tokensOfSeg]
      | wildcard =>
        rw [show stringifySegment SegmentNode.wildcard ++ cs = '*' :: cs from
          by simp [stringifySegment]]
        rw [tokenize_star]
        simp [tokensOfSeg]
      | ident name =>
        cases name with
        | mk nd =>
          by_cases hv : isValidIdent nd = true
          · cases hd : nd with
            | nil => rw [hd] at hv; exact absurd hv (by decide)
            | cons c0 w =>
              subst hd
              simp only [isValidIdent, Bool.and_eq_true] at hv
              have hbad : badIdentName ⟨c0 :: w⟩ = false := by
                have := hnb
                simp only [noBadSeg, Bool.not_eq_true] at this
                simpa using this
              rw [show stringifySegment (.ident ⟨c0 :: w⟩) ++ cs =
                  c0 :: (w ++ cs) from by
                rw [stringifySegment]
                simp [isValidIdent, hv.1, hv.2]]
              rw [tokenize_ident c0 w cs hv.1 (by
                intro c hc
                exact List.all_eq_true.mp hv.2 c hc) hb hbad]
              simp [tokensOfSeg]
          · rw [show stringifySegment (.ident ⟨nd⟩) ++ cs =
                escapeIdentifier nd ++ cs from by
              rw [stringifySegment]
              simp [hv]]
            rw [tokenize_escIdent nd cs]
            simp [tokensOfSeg]
      | subscript els =>
        have helslt : sizeOf els < n := by
          have : sizeOf els < sizeOf (SegmentNode.subscript els) := by
            simp_arith
          omega
        have IHels := (ih (sizeOf els) helslt).2.2.2.1 els (Nat.le_refl _)
          (by simpa [noBadSeg] using hnb)
        rw [show stringifySegment (.subscript els) ++ cs =
            '[' :: (stringifyElements els ++ (']' :: cs)) from by
          rw [stringifySegment]
          simp]
        rw [tokenize_lbracket]
        rw [IHels (']' :: cs) rfl]
        rw [tokenize_rbracket]
        simp [tokensOfSeg, Option.map_map, Function.comp, List.append_assoc]
        try rfl
    · -- element lists
      intro els hs hnb cs hb
      cases els with
      | nil => simp [stringifyElements, tokensOfEls]
      | cons e rest =>
        have helt : sizeOf e < n := by
          have : sizeOf e < sizeOf (e :: rest) := by simp_arith
          omega
        have hnbe : noBadEl e = true ∧ noBadEls rest = true := by
          simpa [noBadEls] using hnb
        have IHe := (ih (sizeOf e) helt).2.2.2.2 e (Nat.le_refl _) hnbe.1
        cases rest with
        | nil =>
          rw [show stringifyElements [e] = stringifySubscriptElement e from
            by simp [stringifyElements]]
          rw [show tokensOfEls [e] = tokensOfEl e from by simp [tokensOfEls]]
          exact IHe cs hb
        | cons e2 rest2 =>
          have hrlt : sizeOf (e2 :: rest2) < n := by
            have : sizeOf (e2 :: rest2) < sizeOf (e :: e2 :: rest2) := by
              simp_arith
            omega
          have IHr := (ih (sizeOf (e2 :: rest2)) hrlt).2.2.2.1 (e2 :: rest2)
            (Nat.le_refl _) hnbe.2
          rw [show stringifyElements (e :: e2 :: rest2) ++ cs =
              stringifySubscriptElement e ++
                (',' :: (stringifyElements (e2 :: rest2) ++ cs)) from by
            simp [stringifyElements]]
          rw [IHe (',' :: (stringifyElements (e2 :: rest2) ++ cs)) rfl]
          rw [tokenize_comma]
          rw [IHr cs hb]
          simp [tokensOfEls, Option.map_map, Function.comp, List.append_assoc]
          try rfl
    · -- elements
      intro el hl hnb cs hb
      cases el with
      | slice st en =>
        cases st with
        | some a =>
          cases en with
          | some b2 =>
            rw [show stringifySubscriptElement (.slice (some a) (some b2)) ++
                cs = intChars a ++ (':' :: (intChars b2 ++ cs)) from by
              rw [stringifySubscriptElement]
              simp]
            rw [tokenize_intChars a (':' :: (intChars b2 ++ cs)) rfl]
            rw [tokenize_colon]
            rw [tokenize_intChars b2 cs hb]
            simp [tokensOfEl, Option.map_map, Function.comp]
            try rfl
          | none =>
            rw [show stringifySubscriptElement (.slice (some a) none) ++ cs =
                intChars a ++ (':' :: cs) from by
              rw [stringifySubscriptElement]
              simp]
            rw [tokenize_intChars a (':' :: cs) rfl]
            rw [tokenize_colon]
            simp [tokensOfEl, Option.map_map, Function.comp]
            try rfl
        | none =>
          cases en with
          | some b2 =>
            rw [show stringifySubscriptElement (.slice none (some b2)) ++ cs =
                ':' :: (intChars b2 ++ cs) from by
              rw [stringifySubscriptElement]
              simp]
            rw [tokenize_colon]
            rw [tokenize_intChars b2 cs hb]
            simp [tokensOfEl, Option.map_map, Function.comp]
            try rfl
          | none =>
            rw [show stringifySubscriptElement (.slice none none) ++ cs =
                ':' :: cs from by
              rw [stringifySubscriptElement]
              simp]
            rw [tokenize_colon]
            simp [tokensOfEl]
      | comparison l o r =>
        have hllt : sizeOf l < n := by
          have : sizeOf l < sizeOf (SubscriptElement.comparison l o r) := by
            simp_arith
          omega
        have hrlt : sizeOf r < n := by
          have : sizeOf r < sizeOf (SubscriptElement.comparison l o r) := by
            simp_arith
          omega
        have hnbc : noBadExpr l = true ∧ noBadExpr r = true := by
          simpa [noBadEl] using hnb
        have IHl := (ih (sizeOf l) hllt).1 l (Nat.le_refl _) hnbc.1
        have IHr := (ih (sizeOf r) hrlt).1 r (Nat.le_refl _) hnbc.2
        obtain ⟨cr, tr, hrr, hrne⟩ := stringifyExpression_head r
        have hrender : stringifySubscriptElement (.comparison l o r) ++ cs =
            stringifyExpression l ++
              (opChars o ++ (stringifyExpression r ++ cs)) := by
          rw [stringifySubscriptElement]
          simp [List.append_assoc]
        rw [hrender]
        cases o with
        | eq =>
          rw [show opChars CmpOp.eq ++ (stringifyExpression r ++ cs) =
            '=' :: '=' :: (stringifyExpression r ++ cs) from by
            simp [opChars]]
          rw [IHl ('=' :: '=' :: (stringifyExpression r ++ cs)) rfl]
          rw [tokenize_eqeq, IHr cs hb]
          simp [tokensOfEl, opChars, Option.map_map, Function.comp,
            List.append_assoc]
          try rfl
        | ne =>
          rw [show opChars CmpOp.ne ++ (stringifyExpression r ++ cs) =
            '!' :: '=' :: (stringifyExpression r ++ cs) from by
            simp [opChars]]
          rw [IHl ('!' :: '=' :: (stringifyExpression r ++ cs)) rfl]
          rw [tokenize_bangeq, IHr cs hb]
          simp [tokensOfEl, opChars, Option.map_map, Function.comp,
            List.append_assoc]
          try rfl
        | ge =>
          rw [show opChars CmpOp.ge ++ (stringifyExpression r ++ cs) =
            '>' :: '=' :: (stringifyExpression r ++ cs) from by
            simp [opChars]]
          rw [IHl ('>' :: '=' :: (stringifyExpression r ++ cs)) rfl]
          rw [tokenize_ge, IHr cs hb]
          simp [tokensOfEl, opChars, Option.map_map, Function.comp,
            List.append_assoc]
          try rfl
        | le =>
          rw [show opChars CmpOp.le ++ (stringifyExpression r ++ cs) =
            '<' :: '=' :: (stringifyExpression r ++ cs) from by
            simp [opChars]]
          rw [IHl ('<' :: '=' :: (stringifyExpression r ++ cs)) rfl]
          rw [tokenize_le, IHr cs hb]
          simp [tokensOfEl, opChars, Option.map_map, Function.comp,
            List.append_assoc]
          try rfl
        | gt =>
          rw [show opChars CmpOp.gt ++ (stringifyExpression r ++ cs) =
            '>' :: (stringifyExpression r ++ cs) from by simp [opChars]]
          rw [IHl ('>' :: (stringifyExpression r ++ cs)) rfl]
          rw [hrr]
          rw [show ('>' :: (cr :: tr ++ cs)) = '>' :: cr :: (tr ++ cs) from
            by simp]
          rw [tokenize_gt cr (tr ++ cs) hrne]
          rw [show (cr :: (tr ++ cs)) = (cr :: tr) ++ cs from by simp, ← hrr]
          rw [IHr cs hb]
          simp [tokensOfEl, opChars, Option.map_map, Function.comp,
            List.append_assoc]
          try rfl
        | lt =>
          rw [show opChars CmpOp.lt ++ (stringifyExpression r ++ cs) =
            '<' :: (stringifyExpression r ++ cs) from by simp [opChars]]
          rw [IHl ('<' :: (stringifyExpression r ++ cs)) rfl]
          rw [hrr]
          rw [show ('<' :: (cr :: tr ++ cs)) = '<' :: cr :: (tr ++ cs) from
            by simp]
          rw [tokenize_lt cr (tr ++ cs) hrne]
          rw [show (cr :: (tr ++ cs)) = (cr :: tr) ++ cs from by simp, ← hrr]
          rw [IHr cs hb]
          simp [tokensOfEl, opChars, Option.map_map, Function.comp,
            List.append_assoc]
          try rfl
      | existence p =>
        have hplt : sizeOf p < n := by
          have : sizeOf p < sizeOf (SubscriptElement.existence p) := by
            simp_arith
          omega
        have IHp := (ih (sizeOf p) hplt).2.1 p (Nat.le_refl _)
          (by simpa [noBadEl] using hnb)
        rw [show stringifySubscriptElement (.existence p) ++ cs =
            stringifyPath (some p) ++ ('?' :: cs) from by
          rw [stringifySubscriptElement]
          simp]
        rw [IHp ('?' :: cs) rfl]
        rw [tokenize_question]
        simp [tokensOfEl, Option.map_map, Function.comp, List.append_assoc]
        try rfl
      | expr e =>
        have helt : sizeOf e < n := by
          have : sizeOf e < sizeOf (SubscriptElement.expr e) := by simp_arith
          omega
        rw [show stringifySubscriptElement (.expr e) = stringifyExpression e
          from by simp [stringifySubscriptElement]]
        rw [show tokensOfEl (.expr e) = tokensOfExpr e from by
          simp [tokensOfEl]]
        exact (ih (sizeOf e) helt).1 e (Nat.le_refl _)
          (by simpa [noBadEl] using hnb) cs hb

/-- A plain-pair result of parseExpression lifts to the dependent form. -/
theorem parseExpression_of_P (toks : List Token) (v : ExprNode) (rest : List Token)
    (h : parseExpressionP toks = some (v, rest)) :
    ∃ pf, parseExpression toks = some (v, ⟨rest, pf⟩) := by
  cases hq : parseExpression toks with
  | none => simp [parseExpressionP, hq] at h
  | some r =>
    obtain ⟨rv, rl, rp⟩ := r
    simp [parseExpressionP, hq] at h
    obtain ⟨h1, h2⟩ := h
    subst h1
    subst h2
    exact ⟨rp, rfl⟩

/-- A plain-pair result of parsePath lifts to the dependent form. -/
theorem parsePath_of_P (toks : List Token) (v : PathNode) (rest : List Token)
    (h : parsePathP toks = some (v, rest)) :
    ∃ pf, parsePath toks = some (v, ⟨rest, pf⟩) := by
  cases hq : parsePath toks with
  | none => simp [parsePathP, hq] at h
  | some r =>
    obtain ⟨rv, rl, rp⟩ := r
    simp [parsePathP, hq] at h
    obtain ⟨h1, h2⟩ := h
    subst h1
    subst h2
    exact ⟨rp, rfl⟩

/-- A plain-pair result of parsePathSegment lifts to the dependent form. -/
theorem parsePathSegment_of_P (toks : List Token) (v : SegmentNode) (rest : List Token)
    (h : parsePathSegmentP toks = some (v, rest)) :
    ∃ pf, parsePathSegment toks = some (v, ⟨rest, pf⟩) := by
  cases hq : parsePathSegment toks with
  | none => simp [parsePathSegmentP, hq] at h
  | some r =>
    obtain ⟨rv, rl, rp⟩ := r
    simp [parsePathSegmentP, hq] at h
    obtain ⟨h1, h2⟩ := h
    subst h1
    subst h2
    exact ⟨rp, rfl⟩

/-- A plain-pair result of parseSubscript lifts to the dependent form. -/
theorem parseSubscript_of_P (toks : List Token) (v : SegmentNode) (rest : List Token)
    (h : parseSubscriptP toks = some (v, rest)) :
    ∃ pf, parseSubscript toks = some (v, ⟨rest, pf⟩) := by
  cases hq : parseSubscript toks with
  | none => simp [parseSubscriptP, hq] at h
  | some r =>
    obtain ⟨rv, rl, rp⟩ := r
    simp [parseSubscriptP, hq] at h
    obtain ⟨h1, h2⟩ := h
    subst h1
    subst h2
    exact ⟨rp, rfl⟩

/-- A plain-pair result of parseMoreElements lifts to the dependent form. -/
theorem parseMoreElements_of_P (toks : List Token) (v : List SubscriptElement) (rest : List Token)
    (h : parseMoreElementsP toks = some (v, rest)) :
    ∃ pf, parseMoreElements toks = some (v, ⟨rest, pf⟩) := by
  cases hq : parseMoreElements toks with
  | none => simp [parseMoreElementsP, hq] at h
  | some r =>
    obtain ⟨rv, rl, rp⟩ := r
    simp [parseMoreElementsP, hq] at h
    obtain ⟨h1, h2⟩ := h
    subst h1
    subst h2
    exact ⟨rp, rfl⟩

/-- A plain-pair result of parseSubscriptElement lifts to the dependent form. -/
theorem parseSubscriptElement_of_P (toks : List Token) (v : SubscriptElement) (rest : List Token)
    (h : parseSubscriptElementP toks = some (v, rest)) :
    ∃ pf, parseSubscriptElement toks = some (v, ⟨rest, pf⟩) := by
  cases hq : parseSubscriptElement toks with
  | none => simp [parseSubscriptElementP, hq] at h
  | some r =>
    obtain ⟨rv, rl, rp⟩ := r
    simp [parseSubscriptElementP, hq] at h
    obtain ⟨h1, h2⟩ := h
    subst h1
    subst h2
    exact ⟨rp, rfl⟩

/-- A plain-pair result of parseIndexOrSlice lifts to the dependent form. -/
theorem parseIndexOrSlice_of_P (toks : List Token) (v : SubscriptElement) (rest : List Token)
    (h : parseIndexOrSliceP toks = some (v, rest)) :
    ∃ pf, parseIndexOrSlice toks = some (v, ⟨rest, pf⟩) := by
  cases hq : parseIndexOrSlice toks with
  | none => simp [parseIndexOrSliceP, hq] at h
  | some r =>
    obtain ⟨rv, rl, rp⟩ := r
    simp [parseIndexOrSliceP, hq] at h
    obtain ⟨h1, h2⟩ := h
    subst h1
    subst h2
    exact ⟨rp, rfl⟩

/-- A plain-pair result of the chaining loop lifts to the dependent
form. -/
theorem parsePathChain_of_P (acc : PathNode) (toks : List Token)
    (v : PathNode) (rest : List Token)
    (h : parsePathChainP acc toks = some (v, rest)) :
    ∃ pf, parsePathChain acc toks = some (v, ⟨rest, pf⟩) := by
  cases hq : parsePathChain acc toks with
  | none => simp [parsePathChainP, hq] at h
  | some r =>
    obtain ⟨rv, rl, rp⟩ := r
    simp [parsePathChainP, hq] at h
    obtain ⟨h1, h2⟩ := h
    subst h1
    subst h2
    exact ⟨rp, rfl⟩

/-- Tokens of a nonempty element list split into the first element and
the comma-led continuation. -/
theorem tokensOfEls_decomp (e : SubscriptElement)
    (rest : List SubscriptElement) :
    tokensOfEls (e :: rest) = tokensOfEl e ++ moreToks rest := by
  induction rest generalizing e with
  | nil => simp [tokensOfEls, moreToks]
  | cons e2 r2 ih =>
    rw [show tokensOfEls (e :: e2 :: r2) =
      tokensOfEl e ++ Token.comma :: tokensOfEls (e2 :: r2) from by
        simp [tokensOfEls]]
    rw [ih e2]
    simp [moreToks]

/-- Sizes add over list append, up to the nil constructor. -/
theorem sizeOf_list_append {α : Type} [SizeOf α] (l1 l2 : List α) :
    sizeOf (l1 ++ l2) + 1 = sizeOf l1 + sizeOf l2 := by
  induction l1 with
  | nil => simp_arith
  | cons a l ih => simp at ih ⊢; omega

/-- The links of a path chain are smaller than the chain itself. -/
theorem pathLinks_sizeOf : ∀ (n : Nat) (p : PathNode), sizeOf p ≤ n →
    sizeOf (pathLinks p) < sizeOf p := by
  intro n
  induction n using Nat.strong_induction_on with
  | _ n ih =>
    intro p hp
    obtain ⟨base, r, seg⟩ := p
    cases base with
    | none =>
      rw [show pathLinks (.mk none r seg) = [] from by simp [pathLinks]]
      simp_arith
    | some b =>
      have hblt : sizeOf b < n := by
        have : sizeOf b < sizeOf (PathNode.mk (some b) r seg) := by simp_arith
        omega
      have hrec := ih (sizeOf b) hblt b (Nat.le_refl _)
      rw [show pathLinks (.mk (some b) r seg) =
        pathLinks b ++ [(r, seg)] from by simp [pathLinks]]
      have := sizeOf_list_append (pathLinks b) [(r, seg)]
      simp_arith at this ⊢
      omega

/-- Rebuilding from an extended link list nests one more chain node. -/
theorem rebuildChain_append (acc : PathNode)
    (ls : List (Option Bool × SegmentNode)) (l : Option Bool × SegmentNode) :
    rebuildChain acc (ls ++ [l]) =
      .mk (some (rebuildChain acc ls)) l.1 l.2 := by
  induction ls generalizing acc with
  | nil => simp [rebuildChain]
  | cons x ls ih =>
    obtain ⟨xr, xs⟩ := x
    rw [show ((xr, xs) :: ls) ++ [l] = (xr, xs) :: (ls ++ [l]) from rfl]
    rw [rebuildChain, rebuildChain]
    exact ih _

/-- A well-formed chain is rebuilt from its root and links. -/
theorem rebuild_links : ∀ (n : Nat) (p : PathNode), sizeOf p ≤ n →
    wfPath p = true →
    rebuildChain (.mk none none (pathRoot p)) (pathLinks p) = p := by
  intro n
  induction n using Nat.strong_induction_on with
  | _ n ih =>
    intro p hp hwf
    obtain ⟨base, r, seg⟩ := p
    cases base with
    | none =>
      have hr : r = none := by
        simp [wfPath] at hwf
        exact hwf.1
      subst hr
      simp [pathLinks, pathRoot, rebuildChain]
    | some b =>
      have hblt : sizeOf b < n := by
        have : sizeOf b < sizeOf (PathNode.mk (some b) r seg) := by simp_arith
        omega
      have hwfb : wfPath b = true := by
        simp [wfPath] at hwf
        exact hwf.1.2
      have hrec := ih (sizeOf b) hblt b (Nat.le_refl _) hwfb
      rw [show pathLinks (.mk (some b) r seg) =
        pathLinks b ++ [(r, seg)] from by simp [pathLinks]]
      rw [show pathRoot (.mk (some b) r seg) = pathRoot b from by
        simp [pathRoot]]
      rw [rebuildChain_append]
      rw [hrec]

/-- Links of a well-formed chain carry present flags and well-formed
segments. -/
theorem pathLinks_wf : ∀ (n : Nat) (p : PathNode), sizeOf p ≤ n →
    wfPath p = true →
    ∀ l ∈ pathLinks p, l.1.isSome = true ∧ wfSeg l.2 = true := by
  intro n
  induction n using Nat.strong_induction_on with
  | _ n ih =>
    intro p hp hwf l hl
    obtain ⟨base, r, seg⟩ := p
    cases base with
    | none =>
      rw [show pathLinks (.mk none r seg) = [] from by simp [pathLinks]]
        at hl
      simp at hl
    | some b =>
      have hblt : sizeOf b < n := by
        have : sizeOf b < sizeOf (PathNode.mk (some b) r seg) := by simp_arith
        omega
      simp [wfPath] at hwf
      rw [show pathLinks (.mk (some b) r seg) =
        pathLinks b ++ [(r, seg)] from by simp [pathLinks]] at hl
      rw [List.mem_append] at hl
      cases hl with
      | inl h => exact ih (sizeOf b) hblt b (Nat.le_refl _) hwf.1.2 l h
      | inr h =>
        simp at h
        subst h
        exact ⟨hwf.1.1, hwf.2⟩

/-- The root segment of a well-formed chain is well-formed and no
larger than the chain. -/
theorem pathRoot_wf : ∀ (n : Nat) (p : PathNode), sizeOf p ≤ n →
    wfPath p = true →
    wfSeg (pathRoot p) = true ∧ sizeOf (pathRoot p) < sizeOf p := by
  intro n
  induction n using Nat.strong_induction_on with
  | _ n ih =>
    intro p hp hwf
    obtain ⟨base, r, seg⟩ := p
    cases base with
    | none =>
      refine ⟨?_, ?_⟩
      · simp [wfPath] at hwf
        simpa [pathRoot] using hwf.2
      · rw [show pathRoot (.mk none r seg) = seg from by simp [pathRoot]]
        simp_arith
    | some b =>
      have hblt : sizeOf b < n := by
        have : sizeOf b < sizeOf (PathNode.mk (some b) r seg) := by simp_arith
        omega
      simp [wfPath] at hwf
      have hrec := ih (sizeOf b) hblt b (Nat.le_refl _) hwf.1.2
      rw [show pathRoot (.mk (some b) r seg) = pathRoot b from by
        simp [pathRoot]]
      refine ⟨hrec.1, ?_⟩
      have : sizeOf b < sizeOf (PathNode.mk (some b) r seg) := by simp_arith
      omega

/-- Tokens of a path split into its root segment and its links. -/
theorem tokensOfPath_decomp : ∀ (n : Nat) (p : PathNode), sizeOf p ≤ n →
    tokensOfPath p =
      tokensOfSeg (pathRoot p) ++ (pathLinks p).flatMap linkToks := by
  intro n
  induction n using Nat.strong_induction_on with
  | _ n ih =>
    intro p hp
    obtain ⟨base, r, seg⟩ := p
    cases base with
    | none =>
      simp [tokensOfPath, pathRoot, pathLinks]
    | some b =>
      have hblt : sizeOf b < n := by
        have : sizeOf b < sizeOf (PathNode.mk (some b) r seg) := by simp_arith
        omega
      have hrec := ih (sizeOf b) hblt b (Nat.le_refl _)
      rw [show tokensOfPath (.mk (some b) r seg) = tokensOfPath b ++
          ((if r = some true then [Token.dotdot]
            else if segIsSubscript seg then [] else [Token.dot]) ++
            tokensOfSeg seg) from by
        rw [tokensOfPath]]
      rw [show pathLinks (.mk (some b) r seg) =
        pathLinks b ++ [(r, seg)] from by simp [pathLinks]]
      rw [show pathRoot (.mk (some b) r seg) = pathRoot b from by
        simp [pathRoot]]
      rw [hrec]
      simp [linkToks, List.append_assoc]

/-- The first token of a rendered segment. -/
theorem tokensOfSeg_head (seg : SegmentNode) :
    ∃ tk tks, tokensOfSeg seg = tk :: tks ∧
      (tk = .this ∨ (∃ nm, tk = .ident nm) ∨ tk = .star ∨ tk = .lbracket) := by
  cases seg with
  | this => exact ⟨.this, [], by simp [tokensOfSeg], by simp⟩
  | ident name => exact ⟨.ident name, [], by simp [tokensOfSeg], by simp⟩
  | wildcard => exact ⟨.star, [], by simp [tokensOfSeg], by simp⟩
  | subscript els =>
    exact ⟨.lbracket, tokensOfEls els ++ [.rbracket],
      by simp [tokensOfSeg], by simp⟩

/-- The chaining loop stops at a chain boundary. -/
theorem parsePathChainP_stop (acc : PathNode) (trest : List Token)
    (h : chainStop trest = true) :
    parsePathChainP acc trest = some (acc, trest) := by
  cases trest with
  | nil =>
    rw [parsePathChainP, parsePathChain]
    all_goals simp
  | cons tk rest =>
    cases tk
    case dot => exact absurd h (by simp [chainStop])
    case dotdot => exact absurd h (by simp [chainStop])
    case lbracket => exact absurd h (by simp [chainStop])
    all_goals rw [parsePathChainP, parsePathChain]
    all_goals simp

/-- An element boundary is in particular a chain boundary. -/
theorem chainStop_of_elStop (toks : List Token) (h : elStop toks = true) :
    chainStop toks = true := by
  cases toks with
  | nil => simp [elStop] at h
  | cons tk r => cases tk <;> simp_all [elStop, chainStop]

/-- The continuation of an element list always starts at an element
boundary. -/
theorem elStop_moreToks (els : List SubscriptElement) (trest : List Token) :
    elStop (moreToks els ++ (Token.rbracket :: trest)) = true := by
  cases els with
  | nil => simp [moreToks, elStop]
  | cons e r => simp [moreToks, elStop]

/-- A present flag that is not `some true` is `some false`. -/
theorem opt_bool_cases (lr : Option Bool) (h1 : lr.isSome = true)
    (h2 : ¬lr = some true) : lr = some false := by
  cases lr with
  | none => simp at h1
  | some b =>
    cases b with
    | false => rfl
    | true => exact absurd rfl h2

/-- A path segment starting with `[` parses as a subscript. -/
theorem parsePathSegmentP_lbracket (X : List Token) :
    parsePathSegmentP (Token.lbracket :: X) =
      parseSubscriptP (Token.lbracket :: X) := by
  rw [parsePathSegmentP, parseSubscriptP, parsePathSegment]
  all_goals simp

/-- Elementwise well-formedness of a well-formed element list. -/
theorem wfEls_mem : ∀ els : List SubscriptElement, wfEls els = true →
    ∀ e ∈ els, wfEl e = true := by
  intro els
  induction els with
  | nil => intro h e he; simp at he
  | cons e rest ih =>
    intro h e2 he2
    cases rest with
    | nil =>
      simp at he2
      subst he2
      simpa [wfEls] using h
    | cons e3 r3 =>
      rw [show wfEls (e :: e3 :: r3) = (wfEl e && wfEls (e3 :: r3)) from by
        simp [wfEls]] at h
      simp only [Bool.and_eq_true] at h
      rcases List.mem_cons.mp he2 with h2 | h2
      · subst h2; exact h.1
      · exact ih h.2 e2 h2

/-- The first token of a rendered path. -/
theorem tokensOfPath_head (p : PathNode) :
    ∃ tk tks, tokensOfPath p = tk :: tks ∧
      (tk = .this ∨ (∃ nm, tk = .ident nm) ∨ tk = .star ∨ tk = .lbracket) := by
  have hdecomp := tokensOfPath_decomp (sizeOf p) p (Nat.le_refl _)
  obtain ⟨tk, tks, hh, hcl⟩ := tokensOfSeg_head (pathRoot p)
  exact ⟨tk, tks ++ (pathLinks p).flatMap linkToks,
    by rw [hdecomp, hh]; simp, hcl⟩

/-- The first token of the rendering of a non-number expression is
neither a number nor a colon. -/
theorem tokensOfExpr_head_nonNum (e : ExprNode) (h : exprIsNum e = false) :
    ∃ tk tks, tokensOfExpr e = tk :: tks ∧ (∀ m, ¬tk = Token.num m) ∧
      ¬tk = Token.colon := by
  cases e with
  | num m => simp [exprIsNum] at h
  | str s =>
    exact ⟨Token.str s, [], by simp [tokensOfExpr], by simp, by simp⟩
  | path p =>
    obtain ⟨tk, tks, hh, hcl⟩ := tokensOfPath_head p
    refine ⟨tk, tks, by simp [tokensOfExpr, hh], ?_, ?_⟩
    · rcases hcl with h | ⟨nm, h⟩ | h | h <;> subst h <;> simp
    · rcases hcl with h | ⟨nm, h⟩ | h | h <;> subst h <;> simp

/-- Parsing the token rendering of a well-formed AST piece recovers the
piece exactly, leaving the rest untouched. -/
theorem parse_render (n : Nat) :
    (∀ t : ExprNode, sizeOf t ≤ n → wfExpr t = true →
      ∀ trest, chainStop trest = true →
        parseExpressionP (tokensOfExpr t ++ trest) = some (t, trest)) ∧
    (∀ p : PathNode, sizeOf p ≤ n → wfPath p = true →
      ∀ trest, chainStop trest = true →
        parsePathP (tokensOfPath p ++ trest) = some (p, trest)) ∧
    (∀ seg : SegmentNode, sizeOf seg ≤ n → wfSeg seg = true →
      ∀ trest, parsePathSegmentP (tokensOfSeg seg ++ trest) =
        some (seg, trest)) ∧
    (∀ els : List SubscriptElement, sizeOf els ≤ n →
      (∀ e ∈ els, wfEl e = true) →
      ∀ trest, parseMoreElementsP (moreToks els ++ (Token.rbracket :: trest)) =
        some (els, Token.rbracket :: trest)) ∧
    (∀ el : SubscriptElement, sizeOf el ≤ n → wfEl el = true →
      ∀ trest, elStop trest = true →
        parseSubscriptElementP (tokensOfEl el ++ trest) = some (el, trest)) ∧
    (∀ ls : List (Option Bool × SegmentNode), sizeOf ls ≤ n →
      (∀ l ∈ ls, l.1.isSome = true ∧ wfSeg l.2 = true) →
      ∀ acc trest, chainStop trest = true →
        parsePathChainP acc (ls.flatMap linkToks ++ trest) =
          some (rebuildChain acc ls, trest)) ∧
    (∀ p : PathNode, sizeOf p ≤ n → wfPath p = true →
      ∀ trest, chainStop trest = true →
        parseExpressionP (tokensOfPath p ++ trest) =
          some (.path p, trest)) := by
  induction n using Nat.strong_induction_on with
  | _ n ih =>
    have hB : ∀ p : PathNode, sizeOf p ≤ n → wfPath p = true →
        ∀ trest, chainStop trest = true →
          parsePathP (tokensOfPath p ++ trest) = some (p, trest) := by
      intro p hp hwf trest hstop
      obtain ⟨hrootwf, hrootlt⟩ := pathRoot_wf (sizeOf p) p (Nat.le_refl _) hwf
      have hlinkslt := pathLinks_sizeOf (sizeOf p) p (Nat.le_refl _)
      have hlinkswf := pathLinks_wf (sizeOf p) p (Nat.le_refl _) hwf
      have hCP := (ih (sizeOf (pathRoot p)) (by omega)).2.2.1 (pathRoot p)
        (Nat.le_refl _) hrootwf ((pathLinks p).flatMap linkToks ++ trest)
      have hFP := (ih (sizeOf (pathLinks p)) (by omega)).2.2.2.2.2.1
        (pathLinks p) (Nat.le_refl _) hlinkswf (.mk none none (pathRoot p))
        trest hstop
      rw [rebuild_links (sizeOf p) p (Nat.le_refl _) hwf] at hFP
      obtain ⟨tk, tks, hhead, hcl⟩ := tokensOfSeg_head (pathRoot p)
      have hdecomp := tokensOfPath_decomp (sizeOf p) p (Nat.le_refl _)
      have hlist : tokensOfPath p ++ trest =
          tk :: (tks ++ ((pathLinks p).flatMap linkToks ++ trest)) := by
        rw [hdecomp, hhead]
        simp [List.append_assoc]
      rw [hhead] at hCP
      simp only [List.cons_append] at hCP
      obtain ⟨pf1, hCsub⟩ := parsePathSegment_of_P _ _ _ hCP
      obtain ⟨pf2, hFsub⟩ := parsePathChain_of_P _ _ _ _ hFP
      rcases hcl with h | ⟨nm, h⟩ | h | h <;> subst h <;>
        (rw [parsePathP, hlist, parsePath]
         all_goals try simp only [hCsub, hFsub]
         all_goals simp)
    have hG : ∀ p : PathNode, sizeOf p ≤ n → wfPath p = true →
        ∀ trest, chainStop trest = true →
          parseExpressionP (tokensOfPath p ++ trest) =
            some (.path p, trest) := by
      intro p hp hwf trest hstop
      have hBP := hB p hp hwf trest hstop
      obtain ⟨tk, tks, hhead, hcl⟩ := tokensOfPath_head p
      have hlist : tokensOfPath p ++ trest = tk :: (tks ++ trest) := by
        rw [hhead]
        simp
      rw [hlist] at hBP
      obtain ⟨pf, hBsub⟩ := parsePath_of_P _ _ _ hBP
      have hop : isPathOpener tk = true := by
        rcases hcl with h | ⟨nm, h⟩ | h | h <;> subst h <;> simp [isPathOpener]
      rw [parseExpressionP, hlist, parseExpression, if_pos hop]
      all_goals try simp only [hBsub]
      all_goals try simp
      all_goals (rcases hcl with h | ⟨nm, h⟩ | h | h <;> subst h <;> simp)
    refine ⟨?_, hB, ?_, ?_, ?_, ?_, hG⟩
    · -- expressions
      intro t ht hwf trest hstop
      cases t with
      | num m =>
        rw [show tokensOfExpr (.num m) ++ trest = Token.num m :: trest from by
          simp [tokensOfExpr]]
        rw [parseExpressionP, parseExpression]
        all_goals simp [isPathOpener]
      | str s =>
        rw [show tokensOfExpr (.str s) ++ trest = Token.str s :: trest from by
          simp [tokensOfExpr]]
        rw [parseExpressionP, parseExpression]
        all_goals simp [isPathOpener]
      | path p =>
        have hplt : sizeOf p < n := by
          have : sizeOf p < sizeOf (ExprNode.path p) := by simp_arith
          omega
        rw [show tokensOfExpr (.path p) = tokensOfPath p from by
          simp [tokensOfExpr]]
        exact (ih (sizeOf p) hplt).2.2.2.2.2.2 p (Nat.le_refl _)
          (by simpa [wfExpr] using hwf) trest hstop
    · -- segments
      intro seg hs hwf trest
      cases seg with
      | this =>
        rw [show tokensOfSeg SegmentNode.this ++ trest = Token.this :: trest
          from by simp [tokensOfSeg]]
        rw [parsePathSegmentP, parsePathSegment]
        all_goals simp
      | ident name =>
        rw [show tokensOfSeg (SegmentNode.ident name) ++ trest =
          Token.ident name :: trest from by simp [tokensOfSeg]]
        rw [parsePathSegmentP, parsePathSegment]
        all_goals simp
      | wildcard =>
        rw [show tokensOfSeg SegmentNode.wildcard ++ trest =
          Token.star :: trest from by simp [tokensOfSeg]]
        rw [parsePathSegmentP, parsePathSegment]
        all_goals simp
      | subscript els =>
        have hwfe : wfEls els = true := by simpa [wfSeg] using hwf
        cases els with
        | nil => simp [wfEls] at hwfe
        | cons e rest =>
          have hewf : wfEl e = true := wfEls_mem _ hwfe e (by simp)
          have hrwf : ∀ x ∈ rest, wfEl x = true := fun x hx =>
            wfEls_mem _ hwfe x (by simp [hx])
          have helt : sizeOf e < n := by
            have h1 : sizeOf e < sizeOf (e :: rest) := by simp_arith
            have h2 : sizeOf (e :: rest) <
                sizeOf (SegmentNode.subscript (e :: rest)) := by simp_arith
            omega
          have hrlt : sizeOf rest < n := by
            have h1 : sizeOf rest < sizeOf (e :: rest) := by simp_arith
            have h2 : sizeOf (e :: rest) <
                sizeOf (SegmentNode.subscript (e :: rest)) := by simp_arith
            omega
          have hEP := (ih (sizeOf e) helt).2.2.2.2.1 e (Nat.le_refl _) hewf
            (moreToks rest ++ (Token.rbracket :: trest))
            (elStop_moreToks rest trest)
          have hDP := (ih (sizeOf rest) hrlt).2.2.2.1 rest (Nat.le_refl _)
            hrwf trest
          obtain ⟨pf1, hEsub⟩ := parseSubscriptElement_of_P _ _ _ hEP
          obtain ⟨pf2, hDsub⟩ := parseMoreElements_of_P _ _ _ hDP
          have hlist : tokensOfSeg (.subscript (e :: rest)) ++ trest =
              Token.lbracket :: (tokensOfEl e ++
                (moreToks rest ++ (Token.rbracket :: trest))) := by
            rw [show tokensOfSeg (SegmentNode.subscript (e :: rest)) =
              Token.lbracket :: (tokensOfEls (e :: rest) ++ [Token.rbracket])
              from by simp [tokensOfSeg]]
            rw [tokensOfEls_decomp]
            simp [List.append_assoc]
          rw [hlist, parsePathSegmentP, parsePathSegment, parseSubscript]
          all_goals try simp only [hEsub, hDsub]
          all_goals simp
    · -- element-list continuations
      intro els hs hmem trest
      cases els with
      | nil =>
        rw [show moreToks ([] : List SubscriptElement) ++
            (Token.rbracket :: trest) = Token.rbracket :: trest from by
          simp [moreToks]]
        rw [parseMoreElementsP, parseMoreElements]
        all_goals simp
      | cons e rest =>
        have helt : sizeOf e < n := by
          have h1 : sizeOf e < sizeOf (e :: rest) := by simp_arith
          omega
        have hrlt : sizeOf rest < n := by
          have h1 : sizeOf rest < sizeOf (e :: rest) := by simp_arith
          omega
        have hEP := (ih (sizeOf e) helt).2.2.2.2.1 e (Nat.le_refl _)
          (hmem e (by simp)) (moreToks rest ++ (Token.rbracket :: trest))
          (elStop_moreToks rest trest)
        have hDP := (ih (sizeOf rest) hrlt).2.2.2.1 rest (Nat.le_refl _)
          (fun x hx => hmem x (by simp [hx])) trest
        obtain ⟨pf1, hEsub⟩ := parseSubscriptElement_of_P _ _ _ hEP
        obtain ⟨pf2, hDsub⟩ := parseMoreElements_of_P _ _ _ hDP
        have hlist : moreToks (e :: rest) ++ (Token.rbracket :: trest) =
            Token.comma :: (tokensOfEl e ++
              (moreToks rest ++ (Token.rbracket :: trest))) := by
          simp [moreToks, List.append_assoc]
        rw [hlist, parseMoreElementsP, parseMoreElements]
        all_goals try simp only [hEsub, hDsub]
        all_goals simp
    · -- subscript elements
      intro el hl hwf trest hstop
      cases el with
      | slice st en =>
        cases st with
        | some a =>
          cases en with
          | some b2 =>
            rw [show tokensOfEl (.slice (some a) (some b2)) ++ trest =
              Token.num a :: Token.colon :: Token.num b2 :: trest from by
              simp [tokensOfEl]]
            rw [parseSubscriptElementP, parseSubscriptElement,
              parseIndexOrSlice]
            all_goals simp
          | none =>
            cases trest with
            | nil => simp [elStop] at hstop
            | cons tk0 tr0 =>
              cases tk0
              case comma =>
                rw [show tokensOfEl (.slice (some a) none) ++
                  (Token.comma :: tr0) =
                  Token.num a :: Token.colon :: Token.comma :: tr0 from by
                  simp [tokensOfEl]]
                rw [parseSubscriptElementP, parseSubscriptElement,
                  parseIndexOrSlice]
                all_goals simp
              case rbracket =>
                rw [show tokensOfEl (.slice (some a) none) ++
                  (Token.rbracket :: tr0) =
                  Token.num a :: Token.colon :: Token.rbracket :: tr0 from by
                  simp [tokensOfEl]]
                rw [parseSubscriptElementP, parseSubscriptElement,
                  parseIndexOrSlice]
                all_goals simp
              all_goals exact absurd hstop (by simp [elStop])
        | none =>
          cases en with
          | some b2 =>
            rw [show tokensOfEl (.slice none (some b2)) ++ trest =
              Token.colon :: Token.num b2 :: trest from by simp [tokensOfEl]]
            rw [parseSubscriptElementP, parseSubscriptElement,
              parseIndexOrSlice]
            all_goals simp
          | none => simp [wfEl] at hwf
      | comparison l o r =>
        have hwf2 : exprIsNum l = false ∧ wfExpr l = true ∧ wfExpr r = true
            := by
          simp [wfEl] at hwf
          exact ⟨hwf.1.1, hwf.1.2, hwf.2⟩
        have hllt : sizeOf l < n := by
          have : sizeOf l < sizeOf (SubscriptElement.comparison l o r) := by
            simp_arith
          omega
        have hrlt : sizeOf r < n := by
          have : sizeOf r < sizeOf (SubscriptElement.comparison l o r) := by
            simp_arith
          omega
        have hlP := (ih (sizeOf l) hllt).1 l (Nat.le_refl _) hwf2.2.1
          (Token.op o :: (tokensOfExpr r ++ trest)) rfl
        have hrP := (ih (sizeOf r) hrlt).1 r (Nat.le_refl _) hwf2.2.2 trest
          (chainStop_of_elStop trest hstop)
        obtain ⟨pfr, hrsub⟩ := parseExpression_of_P _ _ _ hrP
        obtain ⟨tk, tks, hhead, hnum, hcol⟩ :=
          tokensOfExpr_head_nonNum l hwf2.1
        rw [hhead] at hlP
        simp only [List.cons_append] at hlP
        obtain ⟨pfl, hlsub⟩ := parseExpression_of_P _ _ _ hlP
        have hlist : tokensOfEl (.comparison l o r) ++ trest =
            tk :: (tks ++ (Token.op o :: (tokensOfExpr r ++ trest))) := by
          rw [show tokensOfEl (.comparison l o r) =
            tokensOfExpr l ++ Token.op o :: tokensOfExpr r from by
            simp [tokensOfEl]]
          rw [hhead]
          simp [List.append_assoc]
        rw [hlist, parseSubscriptElementP, parseSubscriptElement]
        all_goals try simp only [hlsub, hrsub]
        all_goals simp [hnum, hcol]
      | existence p =>
        have hplt : sizeOf p < n := by
          have : sizeOf p < sizeOf (SubscriptElement.existence p) := by
            simp_arith
          omega
        have hGP := (ih (sizeOf p) hplt).2.2.2.2.2.2 p (Nat.le_refl _)
          (by simpa [wfEl] using hwf) (Token.question :: trest) rfl
        obtain ⟨tk, tks, hhead, hcl⟩ := tokensOfPath_head p
        have hnum : ∀ m, ¬tk = Token.num m := by
          rcases hcl with h | ⟨nm, h⟩ | h | h <;> subst h <;> simp
        have hcol : ¬tk = Token.colon := by
          rcases hcl with h | ⟨nm, h⟩ | h | h <;> subst h <;> simp
        rw [hhead] at hGP
        simp only [List.cons_append] at hGP
        obtain ⟨pfg, hGsub⟩ := parseExpression_of_P _ _ _ hGP
        have hlist : tokensOfEl (.existence p) ++ trest =
            tk :: (tks ++ (Token.question :: trest)) := by
          rw [show tokensOfEl (.existence p) =
            tokensOfPath p ++ [Token.question] from by simp [tokensOfEl]]
          rw [hhead]
          simp [List.append_assoc]
        rw [hlist, parseSubscriptElementP, parseSubscriptElement]
        all_goals try simp only [hGsub]
        all_goals simp [hnum, hcol]
      | expr e =>
        cases e with
        | num m =>
          cases trest with
          | nil => simp [elStop] at hstop
          | cons tk0 tr0 =>
            cases tk0
            case comma =>
              rw [show tokensOfEl (.expr (.num m)) ++ (Token.comma :: tr0) =
                Token.num m :: Token.comma :: tr0 from by
                simp [tokensOfEl, tokensOfExpr]]
              rw [parseSubscriptElementP, parseSubscriptElement,
                parseIndexOrSlice]
              all_goals simp
            case rbracket =>
              rw [show tokensOfEl (.expr (.num m)) ++
                (Token.rbracket :: tr0) =
                Token.num m :: Token.rbracket :: tr0 from by
                simp [tokensOfEl, tokensOfExpr]]
              rw [parseSubscriptElementP, parseSubscriptElement,
                parseIndexOrSlice]
              all_goals simp
            all_goals exact absurd hstop (by simp [elStop])
        | str s =>
          have hslt : sizeOf (ExprNode.str s) < n := by
            have : sizeOf (ExprNode.str s) <
                sizeOf (SubscriptElement.expr (.str s)) := by simp_arith
            omega
          have hAP := (ih (sizeOf (ExprNode.str s)) hslt).1 (.str s)
            (Nat.le_refl _) (by simp [wfExpr]) trest
            (chainStop_of_elStop trest hstop)
          rw [show tokensOfExpr (ExprNode.str s) ++ trest =
            Token.str s :: trest from by simp [tokensOfExpr]] at hAP
          obtain ⟨pfa, hAsub⟩ := parseExpression_of_P _ _ _ hAP
          rw [show tokensOfEl (.expr (.str s)) ++ trest =
            Token.str s :: trest from by simp [tokensOfEl, tokensOfExpr]]
          cases trest with
          | nil => simp [elStop] at hstop
          | cons tk0 tr0 =>
            cases tk0
            case comma =>
              rw [parseSubscriptElementP, parseSubscriptElement]
              all_goals try simp only [hAsub]
              all_goals simp
            case rbracket =>
              rw [parseSubscriptElementP, parseSubscriptElement]
              all_goals try simp only [hAsub]
              all_goals simp
            all_goals exact absurd hstop (by simp [elStop])
        | path p =>
          have hplt : sizeOf p < n := by
            have h1 : sizeOf p < sizeOf (ExprNode.path p) := by simp_arith
            have h2 : sizeOf (ExprNode.path p) <
                sizeOf (SubscriptElement.expr (.path p)) := by simp_arith
            omega
          have hGP := (ih (sizeOf p) hplt).2.2.2.2.2.2 p (Nat.le_refl _)
            (by simpa [wfEl, wfExpr] using hwf) trest
            (chainStop_of_elStop trest hstop)
          obtain ⟨tk, tks, hhead, hcl⟩ := tokensOfPath_head p
          have hnum : ∀ m, ¬tk = Token.num m := by
            rcases hcl with h | ⟨nm, h⟩ | h | h <;> subst h <;> simp
          have hcol : ¬tk = Token.colon := by
            rcases hcl with h | ⟨nm, h⟩ | h | h <;> subst h <;> simp
          rw [hhead] at hGP
          simp only [List.cons_append] at hGP
          obtain ⟨pfg, hGsub⟩ := parseExpression_of_P _ _ _ hGP
          have hlist : tokensOfEl (.expr (.path p)) ++ trest =
              tk :: (tks ++ trest) := by
            rw [show tokensOfEl (.expr (.path p)) = tokensOfPath p from by
              simp [tokensOfEl, tokensOfExpr]]
            rw [hhead]
            simp
          rw [hlist]
          cases trest with
          | nil => simp [elStop] at hstop
          | cons tk0 tr0 =>
            cases tk0
            case comma =>
              rw [parseSubscriptElementP, parseSubscriptElement]
              all_goals try simp only [hGsub]
              all_goals simp [hnum, hcol]
            case rbracket =>
              rw [parseSubscriptElementP, parseSubscriptElement]
              all_goals try simp only [hGsub]
              all_goals simp [hnum, hcol]
            all_goals exact absurd hstop (by simp [elStop])
    · -- chain links
      intro ls hls hlw acc trest hstop
      cases ls with
      | nil =>
        rw [show ([] : List (Option Bool × SegmentNode)).flatMap linkToks ++
          trest = trest from by simp]
        rw [show rebuildChain acc [] = acc from by simp [rebuildChain]]
        exact parsePathChainP_stop acc trest hstop
      | cons l ls2 =>
        obtain ⟨lr, lseg⟩ := l
        have hl1 : lr.isSome = true := (hlw (lr, lseg) (by simp)).1
        have hl2 : wfSeg lseg = true := (hlw (lr, lseg) (by simp)).2
        have hseglt : sizeOf lseg < n := by
          have h1 : sizeOf lseg < sizeOf ((lr, lseg) :: ls2) := by simp_arith
          omega
        have hlst : sizeOf ls2 < n := by
          have h1 : sizeOf ls2 < sizeOf ((lr, lseg) :: ls2) := by simp_arith
          omega
        have hCP := (ih (sizeOf lseg) hseglt).2.2.1 lseg (Nat.le_refl _) hl2
          (ls2.flatMap linkToks ++ trest)
        have hFP := (ih (sizeOf ls2) hlst).2.2.2.2.2.1 ls2 (Nat.le_refl _)
          (fun x hx => hlw x (by simp [hx])) (.mk (some acc) lr lseg) trest
          hstop
        obtain ⟨pf2, hFsub⟩ := parsePathChain_of_P _ _ _ _ hFP
        by_cases hrt : lr = some true
        · subst hrt
          obtain ⟨pf1, hCsub⟩ := parsePathSegment_of_P _ _ _ hCP
          have hlist : ((some true, lseg) :: ls2).flatMap linkToks ++ trest =
              Token.dotdot ::
                (tokensOfSeg lseg ++ (ls2.flatMap linkToks ++ trest)) := by
            simp [linkToks, List.append_assoc]
          rw [hlist, parsePathChainP, parsePathChain]
          all_goals try simp only [hCsub, hFsub]
          all_goals simp [rebuildChain]
        · have hlf : lr = some false := opt_bool_cases lr hl1 hrt
          subst hlf
          by_cases hsub : segIsSubscript lseg = true
          · cases lseg with
            | subscript els =>
              have hsegtoks : tokensOfSeg (SegmentNode.subscript els) =
                  Token.lbracket :: (tokensOfEls els ++ [Token.rbracket]) :=
                by simp [tokensOfSeg]
              rw [hsegtoks] at hCP
              simp only [List.cons_append] at hCP
              rw [parsePathSegmentP_lbracket] at hCP
              obtain ⟨pf1, hCsub⟩ := parseSubscript_of_P _ _ _ hCP
              have hlist :
                  ((some false, SegmentNode.subscript els) :: ls2).flatMap
                    linkToks ++ trest =
                  Token.lbracket :: ((tokensOfEls els ++ [Token.rbracket]) ++
                    (ls2.flatMap linkToks ++ trest)) := by
                simp [linkToks, segIsSubscript, hsegtoks, List.append_assoc]
              rw [hlist, parsePathChainP, parsePathChain]
              all_goals try simp only [List.cons_append, List.append_assoc,
                hCsub, hFsub]
              all_goals simp [rebuildChain]
            | this => simp [segIsSubscript] at hsub
            | ident nm => simp [segIsSubscript] at hsub
            | wildcard => simp [segIsSubscript] at hsub
          · obtain ⟨pf1, hCsub⟩ := parsePathSegment_of_P _ _ _ hCP
            have hlist :
                ((some false, lseg) :: ls2).flatMap linkToks ++ trest =
                Token.dot ::
                  (tokensOfSeg lseg ++ (ls2.flatMap linkToks ++ trest)) := by
              simp [linkToks, hsub, List.append_assoc]
            rw [hlist, parsePathChainP, parsePathChain]
            all_goals try simp only [hCsub, hFsub]
            all_goals simp [rebuildChain]

/-- Every result of `parseIndexOrSlice` is well-formed. -/
theorem parseIndexOrSlice_wf (toks : List Token)
    (res : SubscriptElement × {l : List Token // l.length < toks.length})
    (h : parseIndexOrSlice toks = some res) : wfEl res.1 = true := by
  cases toks with
  | nil =>
    rw [parseIndexOrSlice] at h
    · simp at h
    all_goals simp
  | cons tk rest =>
    cases tk
    case num a =>
      cases rest with
      | nil =>
        rw [parseIndexOrSlice] at h
        all_goals try simp
        all_goals simp at h
        all_goals subst h
        all_goals simp [wfEl, wfExpr, wfPath, wfSeg]
      | cons rt rrest =>
        cases rt
        case colon =>
          cases rrest with
          | nil =>
            rw [parseIndexOrSlice] at h
            all_goals try simp
            all_goals simp at h
            all_goals subst h
            all_goals simp [wfEl, wfExpr, wfPath, wfSeg]
          | cons rt2 rrest2 =>
            cases rt2
            all_goals try rw [parseIndexOrSlice] at h
            all_goals try simp
            all_goals try simp at h
            all_goals try subst h
            all_goals try simp [wfEl, wfExpr, wfPath, wfSeg]
        all_goals try rw [parseIndexOrSlice] at h
        all_goals try simp
        all_goals try simp at h
        all_goals try subst h
        all_goals try simp [wfEl, wfExpr, wfPath, wfSeg]
    case colon =>
      cases rest with
      | nil =>
        rw [parseIndexOrSlice] at h
        all_goals try simp
        all_goals simp at h
        all_goals subst h
        all_goals simp [wfEl, wfExpr, wfPath, wfSeg]
      | cons rt rrest =>
        cases rt
        all_goals try rw [parseIndexOrSlice] at h
        all_goals try simp
        all_goals try simp at h
        all_goals try subst h
        all_goals try simp [wfEl, wfExpr, wfPath, wfSeg]
    all_goals try rw [parseIndexOrSlice] at h
    all_goals try simp
    all_goals try simp at h
    all_goals try subst h
    all_goals try simp [wfEl, wfExpr, wfPath, wfSeg]

/-- A nonempty element list whose members are well-formed is
well-formed. -/
theorem wfEls_cons_of_mem (e : SubscriptElement) (els : List SubscriptElement)
    (he : wfEl e = true) (hm : ∀ x ∈ els, wfEl x = true) :
    wfEls (e :: els) = true := by
  induction els generalizing e with
  | nil => simpa [wfEls] using he
  | cons e2 r2 ih =>
    rw [show wfEls (e :: e2 :: r2) = (wfEl e && wfEls (e2 :: r2)) from by
      simp [wfEls]]
    simp only [Bool.and_eq_true]
    exact ⟨he, ih e2 (hm e2 (by simp)) (fun x hx => hm x (by simp [hx]))⟩

/-- The parser only returns a number literal when the leading token is
that number. -/
theorem parseExpression_num_head (t : Token) (rest : List Token) (m : Int)
    (r : {l : List Token // l.length < (t :: rest).length})
    (h : parseExpression (t :: rest) = some (.num m, r)) :
    t = Token.num m := by
  cases t
  case num n =>
    rw [parseExpression] at h
    all_goals try simp [isPathOpener] at h
    all_goals try simp
    exact h.1
  all_goals try rw [parseExpression] at h
  all_goals try simp [isPathOpener] at h
  all_goals try (split at h <;> simp_all)
  all_goals try simp_all

/-- The implicit-this base node is well-formed. -/
theorem wfPath_thisBase : wfPath thisBase = true := by
  simp [thisBase, wfPath, wfSeg]

/-- The bare recursive-descent node is well-formed. -/
theorem wfPath_bareDotDot : wfPath bareDotDotNode = true := by
  simp [bareDotDotNode, wfPath, wfSeg, wfPath_thisBase, thisBase]

/-- Joint well-formedness of every parser result, by strong induction
on six times the token count plus a per-function tag. -/
theorem parse_wf (n : Nat) :
    (∀ toks res, parseExpression toks = some res →
        6 * toks.length + 3 ≤ n → wfExpr res.1 = true) ∧
    (∀ toks res, parsePath toks = some res →
        6 * toks.length + 2 ≤ n → wfPath res.1 = true) ∧
    (∀ rFlag toks res, parseImplicitSeg rFlag toks = some res →
        6 * toks.length + 2 ≤ n → wfPath res.1 = true) ∧
    (∀ acc toks res, parsePathChain acc toks = some res →
        6 * toks.length + 1 ≤ n → wfPath acc = true → wfPath res.1 = true) ∧
    (∀ toks res, parsePathSegment toks = some res →
        6 * toks.length + 1 ≤ n → wfSeg res.1 = true) ∧
    (∀ toks res, parseSubscript toks = some res →
        6 * toks.length ≤ n → wfSeg res.1 = true) ∧
    (∀ toks res, parseMoreElements toks = some res →
        6 * toks.length + 4 ≤ n → ∀ e ∈ res.1, wfEl e = true) ∧
    (∀ toks res, parseSubscriptElement toks = some res →
        6 * toks.length + 5 ≤ n → wfEl res.1 = true) := by
  induction n using Nat.strong_induction_on with
  | _ n ih =>
  refine ⟨?_, ?_, ?_, ?_, ?_, ?_, ?_, ?_⟩
  · intro toks res h hle
    cases toks with
    | nil => rw [parseExpression] at h; simp at h
    | cons t rest =>
      cases t
      case str s =>
        rw [parseExpression] at h
        all_goals try simp
        simp [isPathOpener] at h
        subst h
        simp [wfExpr]
      case num m2 =>
        rw [parseExpression] at h
        all_goals try simp
        simp [isPathOpener] at h
        subst h
        simp [wfExpr]
      case bool b =>
        rw [parseExpression] at h
        all_goals try simp
        simp [isPathOpener] at h
      case op o =>
        rw [parseExpression] at h
        all_goals try simp
        simp [isPathOpener] at h
      case rbracket =>
        rw [parseExpression] at h
        all_goals try simp
        simp [isPathOpener] at h
      case comma =>
        rw [parseExpression] at h
        all_goals try simp
        simp [isPathOpener] at h
      case colon =>
        rw [parseExpression] at h
        all_goals try simp
        simp [isPathOpener] at h
      case question =>
        rw [parseExpression] at h
        all_goals try simp
        simp [isPathOpener] at h
      all_goals (
        rw [parseExpression] at h
        all_goals try simp
        simp [isPathOpener] at h
        split at h
        next p rest2 h2 heq =>
          simp at h
          subst h
          simpa [wfExpr] using
            (ih (n - 1) (by omega)).2.1 _ _ heq (by omega)
        next heq => simp at h)
  · intro toks res h hle
    cases toks with
    | nil =>
      rw [parsePath] at h
      all_goals try simp
      split at h
      next seg rest1 h1 heq =>
        split at h
        next p rest2 h2 heq2 =>
          simp at h
          subst h
          have hseg := (ih (n - 1) (by omega)).2.2.2.2.1 _ _ heq (by omega)
          exact (ih (n - 1) (by omega)).2.2.2.1 _ _ _ heq2 (by omega)
            (by simp [wfPath, hseg])
        next heq2 => simp at h
      next heq => simp at h
    | cons t rest =>
      cases t
      case dot =>
        rw [parsePath] at h
        all_goals try simp
        by_cases hbf : bareFollows rest = true
        · rw [if_pos hbf] at h; simp at h
        · rw [if_neg hbf] at h
          split at h
          next p rest2 h2 heq =>
            simp at h
            subst h
            exact (ih (n - 1)
                (by first | omega | (simp only [List.length_cons] at *; omega))).2.2.1
              _ _ _ heq (by first | omega | (simp only [List.length_cons] at *; omega))
          next heq => simp at h
      case dotdot =>
        rw [parsePath] at h
        all_goals try simp
        by_cases hbf : bareFollows rest = true
        · rw [if_pos hbf] at h
          split at h
          next p rest2 h2 heq =>
            simp at h
            subst h
            exact (ih (n - 1)
                (by first | omega | (simp only [List.length_cons] at *; omega))).2.2.2.1
              _ _ _ heq (by first | omega | (simp only [List.length_cons] at *; omega))
              wfPath_bareDotDot
          next heq => simp at h
        · rw [if_neg hbf] at h
          split at h
          next p rest2 h2 heq =>
            simp at h
            subst h
            exact (ih (n - 1)
                (by first | omega | (simp only [List.length_cons] at *; omega))).2.2.1
              _ _ _ heq (by first | omega | (simp only [List.length_cons] at *; omega))
          next heq => simp at h
      all_goals (
        rw [parsePath] at h
        all_goals try simp
        split at h
        next seg rest1 h1 heq =>
          split at h
          next p rest2 h2 heq2 =>
            simp at h
            subst h
            have hseg := (ih (n - 1)
                (by first | omega | (simp only [List.length_cons] at *; omega))).2.2.2.2.1
              _ _ heq (by first | omega | (simp only [List.length_cons] at *; omega))
            exact (ih (n - 1)
                (by first | omega | (simp only [List.length_cons] at *; omega))).2.2.2.1
              _ _ _ heq2 (by first | omega | (simp only [List.length_cons] at *; omega))
              (by simp [wfPath, hseg])
          next heq2 => simp at h
        next heq => simp at h)
  · intro rFlag toks res h hle
    rw [parseImplicitSeg] at h
    split at h
    next seg rest1 h1 heq =>
      split at h
      next p rest2 h2 heq2 =>
        simp at h
        subst h
        have hseg := (ih (n - 1) (by omega)).2.2.2.2.1 _ _ heq (by omega)
        have hch := (ih (n - 1) (by omega)).2.2.2.1 _ _ _ heq2 (by omega)
          (by simp [wfPath, wfPath_thisBase, hseg])
        exact hch
      next heq2 => simp at h
    next heq => simp at h
  · intro acc toks res h hle hacc
    cases toks with
    | nil =>
      rw [parsePathChain] at h
      all_goals try simp
      simp at h
      subst h
      exact hacc
    | cons t rest =>
      cases t
      case lbracket =>
        rw [parsePathChain] at h
        all_goals try simp
        split at h
        next sub rest2 h2 heq =>
          split at h
          next p rest3 h3 heq2 =>
            simp at h
            subst h
            have hsub := (ih (n - 1)
                (by first | omega | (simp only [List.length_cons] at *; omega))).2.2.2.2.2.1
              _ _ heq (by first | omega | (simp only [List.length_cons] at *; omega))
            exact (ih (n - 1)
                (by first | omega | (simp only [List.length_cons] at *; omega))).2.2.2.1
              _ _ _ heq2 (by first | omega | (simp only [List.length_cons] at *; omega))
              (by simp [wfPath, hacc, hsub])
          next heq2 => simp at h
        next heq => simp at h
      case dot =>
        rw [parsePathChain] at h
        all_goals try simp
        split at h
        next seg rest2 h2 heq =>
          split at h
          next p rest3 h3 heq2 =>
            simp at h
            subst h
            have hseg := (ih (n - 1)
                (by first | omega | (simp only [List.length_cons] at *; omega))).2.2.2.2.1
              _ _ heq (by first | omega | (simp only [List.length_cons] at *; omega))
            exact (ih (n - 1)
                (by first | omega | (simp only [List.length_cons] at *; omega))).2.2.2.1
              _ _ _ heq2 (by first | omega | (simp only [List.length_cons] at *; omega))
              (by simp [wfPath, hacc, hseg])
          next heq2 => simp at h
        next heq => simp at h
      case dotdot =>
        rw [parsePathChain] at h
        all_goals try simp
        split at h
        next seg rest2 h2 heq =>
          split at h
          next p rest3 h3 heq2 =>
            simp at h
            subst h
            have hseg := (ih (n - 1)
                (by first | omega | (simp only [List.length_cons] at *; omega))).2.2.2.2.1
              _ _ heq (by first | omega | (simp only [List.length_cons] at *; omega))
            exact (ih (n - 1)
                (by first | omega | (simp only [List.length_cons] at *; omega))).2.2.2.1
              _ _ _ heq2 (by first | omega | (simp only [List.length_cons] at *; omega))
              (by simp [wfPath, hacc, hseg])
          next heq2 => simp at h
        next heq => simp at h
      all_goals (
        rw [parsePathChain] at h
        all_goals try simp
        simp at h
        subst h
        exact hacc)
  · intro toks res h hle
    cases toks with
    | nil =>
      rw [parsePathSegment] at h
      all_goals try simp
      simp at h
    | cons t rest =>
      cases t
      case this =>
        rw [parsePathSegment] at h
        all_goals try simp
        simp at h
        subst h
        simp [wfSeg]
      case ident name =>
        rw [parsePathSegment] at h
        all_goals try simp
        simp at h
        subst h
        simp [wfSeg]
      case star =>
        rw [parsePathSegment] at h
        all_goals try simp
        simp at h
        subst h
        simp [wfSeg]
      case lbracket =>
        rw [parsePathSegment] at h
        all_goals try simp
        exact (ih (n - 1) (by omega)).2.2.2.2.2.1 _ _ h (by omega)
      all_goals (
        rw [parsePathSegment] at h
        all_goals try simp
        simp at h)
  · intro toks res h hle
    cases toks with
    | nil =>
      rw [parseSubscript] at h
      all_goals try simp
      simp at h
    | cons t rest =>
      cases t
      case lbracket =>
        rw [parseSubscript] at h
        all_goals try simp
        split at h
        next el rest1 h1 heq =>
          split at h
          next els rest2 h2 heq2 =>
            cases rest2 with
            | nil => simp at h
            | cons r2t rest3 =>
              cases r2t
              all_goals simp at h
              subst h
              have hel := (ih (n - 1)
                  (by first | omega | (simp only [List.length_cons] at *; omega))).2.2.2.2.2.2.2
                _ _ heq (by first | omega | (simp only [List.length_cons] at *; omega))
              have hels := (ih (n - 1)
                  (by first | omega | (simp only [List.length_cons] at *; omega))).2.2.2.2.2.2.1
                _ _ heq2 (by first | omega | (simp only [List.length_cons] at *; omega))
              simp only [wfSeg]
              exact wfEls_cons_of_mem el els hel hels
          next heq2 => simp at h
        next heq => simp at h
      all_goals (
        rw [parseSubscript] at h
        all_goals try simp
        simp at h)
  · intro toks res h hle
    cases toks with
    | nil =>
      rw [parseMoreElements] at h
      all_goals try simp
      simp at h
      subst h
      simp
    | cons t rest =>
      cases t
      case comma =>
        rw [parseMoreElements] at h
        all_goals try simp
        split at h
        next el rest1 h1 heq =>
          split at h
          next els rest2 h2 heq2 =>
            simp at h
            subst h
            intro e he
            simp at he
            rcases he with rfl | he2
            · exact (ih (n - 1)
                  (by first | omega | (simp only [List.length_cons] at *; omega))).2.2.2.2.2.2.2
                _ _ heq (by first | omega | (simp only [List.length_cons] at *; omega))
            · exact (ih (n - 1)
                  (by first | omega | (simp only [List.length_cons] at *; omega))).2.2.2.2.2.2.1
                _ _ heq2 (by first | omega | (simp only [List.length_cons] at *; omega)) e he2
          next heq2 => simp at h
        next heq => simp at h
      all_goals (
        rw [parseMoreElements] at h
        all_goals try simp
        simp at h
        subst h
        simp)
  · intro toks res h hle
    cases toks with
    | nil =>
      rw [parseSubscriptElement] at h
      all_goals try simp
      rw [parseExpression] at h
      simp at h
    | cons t rest =>
      cases t
      case num m =>
        rw [parseSubscriptElement] at h
        all_goals try simp
        exact parseIndexOrSlice_wf _ _ h
      case colon =>
        rw [parseSubscriptElement] at h
        all_goals try simp
        exact parseIndexOrSlice_wf _ _ h
      all_goals (
        rw [parseSubscriptElement] at h
        all_goals try simp
        split at h
        next e2 rest1 h1 heq =>
          have he2 := (ih (n - 1)
              (by first | omega | (simp only [List.length_cons] at *; omega))).1
            _ _ heq (by first | omega | (simp only [List.length_cons] at *; omega))
          have hnn : exprIsNum e2 = false := by
            cases e2
            case num m2 =>
              have hh := parseExpression_num_head _ _ m2 _ heq
              simp at hh
            all_goals rfl
          cases rest1 with
          | nil =>
            simp at h
            subst h
            simp [wfEl, he2]
          | cons rt rest2 =>
            cases rt
            case op o =>
              simp at h
              split at h
              next r2 rest3 h3 heq2 =>
                have hx1 := h1
                simp only [List.length_cons] at hx1 hle
                have hr2 := (ih (n - 1) (by omega)).1 _ _ heq2 (by omega)
                simp at h
                subst h
                simp [wfEl, he2, hnn, hr2]
              next heq2 => simp at h
            case question =>
              cases e2 with
              | path p =>
                simp at h
                subst h
                have hp := he2
                simp [wfExpr] at hp
                simpa [wfEl] using hp
              | num m2 =>
                simp at h
                subst h
                simp [wfEl, he2]
              | str s2 =>
                simp at h
                subst h
                simp [wfEl, he2]
            all_goals (simp at h; subst h; simp [wfEl, he2])
        next heq => simp at h)


/-- The rendered token list of a segment is never empty. -/
theorem tokensOfSeg_ne_nil (seg : SegmentNode) : tokensOfSeg seg ≠ [] := by
  cases seg <;> simp [tokensOfSeg]

/-- The rendered token list of a path is never empty. -/
theorem tokensOfPath_ne_nil (p : PathNode) : tokensOfPath p ≠ [] := by
  cases p with
  | mk b r seg =>
    cases b with
    | none => simpa [tokensOfPath] using tokensOfSeg_ne_nil seg
    | some b2 => simp [tokensOfPath, tokensOfSeg_ne_nil seg]

/-- The rendered token list of an expression is never empty. -/
theorem tokensOfExpr_ne_nil (e : ExprNode) : tokensOfExpr e ≠ [] := by
  cases e with
  | num m => simp [tokensOfExpr]
  | str s => simp [tokensOfExpr]
  | path p => simpa [tokensOfExpr] using tokensOfPath_ne_nil p

/-- The empty character stream lexes to the empty token stream. -/
theorem tokenize_nil : tokenize ([] : List Char) = some [] := by
  rw [tokenize]

/-- Parsing the canonical rendering of a well-formed expression free of
bad identifier names recovers the expression. -/
theorem parse_stringify (e : ExprNode) (hwf : wfExpr e = true)
    (hnb : noBadExpr e = true) :
    parse (stringifyExpression e) = some e := by
  have h1 := (tokenize_render (sizeOf e)).1 e (Nat.le_refl _) hnb [] rfl
  rw [List.append_nil, tokenize_nil] at h1
  simp at h1
  have hP := (parse_render (sizeOf e)).1 e (Nat.le_refl _) hwf [] rfl
  rw [List.append_nil] at hP
  cases hq : tokensOfExpr e with
  | nil => exact absurd hq (tokensOfExpr_ne_nil e)
  | cons tk toks =>
    rw [hq] at h1 hP
    obtain ⟨pf2, hsub2⟩ := parseExpression_of_P _ _ _ hP
    rw [parse, h1]
    simp [hsub2]


/-- C7 (counterexample): the round trip fails on the quoted identifier
expression. `parse` on the three characters quote-dollar-quote yields the
path whose segment is the identifier named `$`, the canonical rendering
of that parse result is the single bare character `$`, and reparsing the
rendering yields the context (`This`) path instead, because a bare `$`
lexes as the context token, not as an identifier. -/
theorem c7_counterexample :
    parse [squoteChar, '$', squoteChar] =
      some (.path (.mk none none (.ident "$"))) ∧
    stringifyExpression (.path (.mk none none (.ident "$"))) = ['$'] ∧
    parse (stringifyExpression (.path (.mk none none (.ident "$")))) =
      some (.path (.mk none none .this)) ∧
    some (ExprNode.path (.mk none none .this)) ≠
      some (.path (.mk none none (.ident "$"))) := by
  have hs : stringifyExpression (.path (.mk none none (.ident "$"))) =
      ['$'] := by
    simp [stringifyExpression, stringifyPath, stringifySegment, isValidIdent,
      isIdentStartChar, isIdentTailChar, String.data]
  have ht2 : tokenize ['$'] = some [.this] := by
    simp [tokenize, lexIdentTail, isWhitespaceChar, isDigitChar,
      isIdentStartChar, isIdentTailChar, squoteChar, dquoteChar,
      backslashChar]
  have hp2 : parse ['$'] = some (.path (.mk none none .this)) := by
    simp [parse, ht2, parseExpression, parsePath, parsePathChain,
      parsePathSegment, isPathOpener]
  have ht1 : tokenize [squoteChar, '$', squoteChar] = some [.ident "$"] := by
    simp [tokenize, lexQuoted, isWhitespaceChar, isDigitChar,
      isIdentStartChar, isIdentTailChar, squoteChar, dquoteChar,
      backslashChar]
  refine ⟨?_, hs, ?_, by simp⟩
  · simp [parse, ht1, parseExpression, parsePath, parsePathChain,
      parsePathSegment, isPathOpener]
  · rw [hs]
    exact hp2

/-- C7 (amended): for every expression whose parse result contains no
identifier named `$`, `true` or `false`, parsing, rendering the parse
result to canonical source text, and parsing again recovers the same
AST: `parse e = some t` and `noBadExpr t` imply
`parse (stringifyExpression t) = some t`. -/
theorem c7_amended (e : List Char) (t : ExprNode)
    (h : parse e = some t) (hnb : noBadExpr t = true) :
    parse (stringifyExpression t) = some t := by
  have hwf : wfExpr t = true := by
    rw [parse] at h
    cases htk : tokenize e with
    | none => rw [htk] at h; simp at h
    | some toks =>
      rw [htk] at h
      cases toks with
      | nil => simp at h
      | cons tk toks2 =>
        simp at h
        split at h
        next e2 pf heq =>
          simp at h
          subst h
          exact (parse_wf (6 * (tk :: toks2).length + 3)).1 _ _ heq
            (le_refl _)
        next hne => simp at h
  exact parse_stringify t hwf hnb

/-- C7 (witness): the amended statement applied to the one-character
expression `a`, whose parse result is the identifier path `a`. -/
theorem c7_witness :
    parse ['a'] = some (.path (.mk none none (.ident "a"))) ∧
    noBadExpr (.path (.mk none none (.ident "a"))) = true ∧
    parse (stringifyExpression (.path (.mk none none (.ident "a")))) =
      some (.path (.mk none none (.ident "a"))) := by
  have ht : tokenize ['a'] = some [.ident "a"] := by
    simp [tokenize, lexIdentTail, isWhitespaceChar, isDigitChar,
      isIdentStartChar, isIdentTailChar, squoteChar, dquoteChar,
      backslashChar]
  have h1 : parse ['a'] = some (.path (.mk none none (.ident "a"))) := by
    simp [parse, ht, parseExpression, parsePath, parsePathChain,
      parsePathSegment, isPathOpener]
  have h2 : noBadExpr (.path (.mk none none (.ident "a"))) = true := by
    simp [noBadExpr, noBadPath, noBadSeg, badIdentName]
  exact ⟨h1, h2, c7_amended ['a'] _ h1 h2⟩

end JsonMatch
